import Mathlib

/-!
# snes9x Lua engine (`lua-engine.cpp`): a verification development

The definitions below are a shallow embedding of the parts of `lua-engine.cpp`
that the checked properties are about: the binary value codec
(`LuaStackToBinary` / `BinaryToLuaStack`), the tiered hook regions, the
persisted-variable reconciliation, the watchdog probe, the script lifecycle
and the deferred-call queues.

Conventions.
* Bytes and machine integers are natural numbers (or integers), reduced
  explicitly where the C code truncates.
* The Lua C API is an external library.  A Lua table is represented by what the
  code observes of it: its array part (the slots `1 .. lua_objlen`) and the
  key/value pairs that `lua_next` yields after the array part, together with the
  address `lua_topointer` reports for it.
* A Lua number whose `double` value equals an `INT32` is `LuaValue.integer`;
  every other number is `LuaValue.double` and carries the eight bytes of its
  machine representation, which the code only copies.
-/

namespace LuaEngine

/-! ## Lua values -/

/-- Values that can sit on the Lua stack.  The constructors follow the type
tags of `lua.h`; `table` carries the table address, its array part and its hash
part. -/
inductive LuaValue where
  | nil
  | boolean (b : Bool)
  | lightuserdata (p : Nat)
  | integer (n : Int)
  | double (payload : List Nat)
  | string (s : List Nat)
  | table (addr : Nat) (arr : List LuaValue) (hash : List (LuaValue × LuaValue))
  | func (p : Nat)
  | userdata (p : Nat)
  | thread (p : Nat)

instance : Inhabited LuaValue := ⟨LuaValue.nil⟩

def LUA_TNIL : Nat := 0
def LUA_TBOOLEAN : Nat := 1
def LUA_TLIGHTUSERDATA : Nat := 2
def LUA_TNUMBER : Nat := 3
def LUA_TSTRING : Nat := 4
def LUA_TTABLE : Nat := 5
def LUA_TFUNCTION : Nat := 6
def LUA_TUSERDATA : Nat := 7
def LUA_TTHREAD : Nat := 8

/-- The type tag `lua_type` reports. -/
def lua_type : LuaValue → Nat
  | .nil => LUA_TNIL
  | .boolean _ => LUA_TBOOLEAN
  | .lightuserdata _ => LUA_TLIGHTUSERDATA
  | .integer _ => LUA_TNUMBER
  | .double _ => LUA_TNUMBER
  | .string _ => LUA_TSTRING
  | .table _ _ _ => LUA_TTABLE
  | .func _ => LUA_TFUNCTION
  | .userdata _ => LUA_TUSERDATA
  | .thread _ => LUA_TTHREAD

/-- The test `lua_isnil`. -/
def lua_isnil : LuaValue → Bool
  | .nil => true
  | _ => false

/-! ## Byte-level helpers of the codec -/

def LUAEXT_TLONG : Nat := 30
def LUAEXT_TUSHORT : Nat := 31
def LUAEXT_TSHORT : Nat := 32
def LUAEXT_TBYTE : Nat := 33
def LUAEXT_TNILS : Nat := 34
def LUAEXT_TTABLE : Nat := 0x40
def LUAEXT_BITS_1A : Nat := 0x01
def LUAEXT_BITS_2A : Nat := 0x02
def LUAEXT_BITS_4A : Nat := 0x03
def LUAEXT_BITS_1H : Nat := 0x04
def LUAEXT_BITS_2H : Nat := 0x08
def LUAEXT_BITS_4H : Nat := 0x0C

/-- The macro `BITMATCH(x,y) (((x) & (y)) == (y))`. -/
def BITMATCH (x y : Nat) : Bool := (x &&& y) == y

def luaBinaryMajorVersion : Nat := 9
def luaBinaryMinorVersion : Nat := 1

/-- The bit pattern of a signed integer in a `bits`-wide machine word. -/
def toUnsigned (bits : Nat) (n : Int) : Nat := (n % (2 : Int) ^ bits).toNat

/-- The value of a `bits`-wide machine word read as a signed integer. -/
def toSigned (bits : Nat) (x : Nat) : Int :=
  if x % 2 ^ bits < 2 ^ (bits - 1) then ((x % 2 ^ bits : Nat) : Int)
  else ((x % 2 ^ bits : Nat) : Int) - ((2 ^ bits : Nat) : Int)

/-- The `size` low bytes of `x`, least significant first. -/
def bytesLE : Nat → Nat → List Nat
  | 0, _ => []
  | size + 1, x => x % 256 :: bytesLE size (x / 256)

/-- The number whose little-endian bytes are given. -/
def fromLE : List Nat → Nat
  | [] => 0
  | b :: bs => b + 256 * fromLE bs

/-- The function `PushBinaryItem<T>` for an integer type `T` of `size` bytes: the
bytes of the item are appended least significant first (both branches of the
`IS_LITTLE_ENDIAN` conditional produce this order on their hosts). -/
def PushBinaryItem (size : Nat) (item : Int) : List Nat :=
  bytesLE size (toUnsigned (8 * size) item)

/-- The function `PushNils`: the bytes appended for a run of `count` nils.  The
caller resets its counter to zero afterwards. -/
def PushNils (count : Nat) : List Nat :=
  let minNilsWorthEncoding := 6
  if count < minNilsWorthEncoding then List.replicate count LUA_TNIL
  else LUAEXT_TNILS :: PushBinaryItem 4 count

/-- The tag `LuaStackToBinaryConverter` chooses for a number with `num == inum`:
the narrowest of the four integer tags, tested in the order of the source. -/
def integerType (inum : Int) : Nat :=
  let u := toUnsigned 32 inum
  if (u &&& 0xFFFFFF00) == 0 then LUAEXT_TBYTE
  else if ((u &&& 0xFFFF : Nat) : Int) == inum then LUAEXT_TUSHORT
  else if toSigned 16 (u &&& 0xFFFF) == inum then LUAEXT_TSHORT
  else LUAEXT_TLONG

/-- The bytes `LuaStackToBinaryConverter` emits for a number with `num == inum`:
the tag byte is overwritten with the integer tag and the payload follows. -/
def encodeInteger (inum : Int) : List Nat :=
  let type := integerType inum
  if type == LUAEXT_TLONG then type :: PushBinaryItem 4 inum
  else if type == LUAEXT_TUSHORT then type :: PushBinaryItem 2 inum
  else if type == LUAEXT_TSHORT then type :: PushBinaryItem 2 inum
  else [type, toUnsigned 32 inum % 256]

/-- The tag byte of a table: `LUAEXT_TTABLE` with the width bits of the two
counts. -/
def tableOutputType (arraySize hashSize : Nat) : Nat :=
  let outputType := LUAEXT_TTABLE
  let outputType :=
    if (arraySize &&& 0xFFFF0000) != 0 then outputType ||| LUAEXT_BITS_4A
    else if (arraySize &&& 0xFF00) != 0 then outputType ||| LUAEXT_BITS_2A
    else if (arraySize &&& 0xFF) != 0 then outputType ||| LUAEXT_BITS_1A
    else outputType
  if (hashSize &&& 0xFFFF0000) != 0 then outputType ||| LUAEXT_BITS_4H
  else if (hashSize &&& 0xFF00) != 0 then outputType ||| LUAEXT_BITS_2H
  else if (hashSize &&& 0xFF) != 0 then outputType ||| LUAEXT_BITS_1H
  else outputType

/-- The count bytes the encoder inserts directly after the tag byte of a
table, in the order of the `output.insert` calls. -/
def tableCountBytes (outputType arraySize hashSize : Nat) : List Nat :=
  (if BITMATCH outputType LUAEXT_BITS_4A || BITMATCH outputType LUAEXT_BITS_2A
      || BITMATCH outputType LUAEXT_BITS_1A then [arraySize &&& 0xFF] else [])
  ++ (if BITMATCH outputType LUAEXT_BITS_4A || BITMATCH outputType LUAEXT_BITS_2A
      then [(arraySize &&& 0xFF00) >>> 8] else [])
  ++ (if BITMATCH outputType LUAEXT_BITS_4A
      then [(arraySize &&& 0x00FF0000) >>> 16, (arraySize &&& 0xFF000000) >>> 24] else [])
  ++ (if BITMATCH outputType LUAEXT_BITS_4H || BITMATCH outputType LUAEXT_BITS_2H
      || BITMATCH outputType LUAEXT_BITS_1H then [hashSize &&& 0xFF] else [])
  ++ (if BITMATCH outputType LUAEXT_BITS_4H || BITMATCH outputType LUAEXT_BITS_2H
      then [(hashSize &&& 0xFF00) >>> 8] else [])
  ++ (if BITMATCH outputType LUAEXT_BITS_4H
      then [(hashSize &&& 0x00FF0000) >>> 16, (hashSize &&& 0xFF000000) >>> 24] else [])

/-- The call `lua_checkstack(L, extra)` at stack height `top`: it fails when the
stack would grow past the limit `cstack` (`LUAI_MAXCSTACK` of the Lua build). -/
def lua_checkstack (cstack top extra : Nat) : Bool := decide (top + extra ≤ cstack)

/-! ## The encoder -/

mutual
/-- The function `LuaStackToBinaryConverter`: the bytes appended to `output` for
the value at a stack index, at stack height `top`, with `addrs` the contents of
`s_tableAddressStack`. -/
def LuaStackToBinaryConverter (cstack : Nat) (addrs : List Nat) (top : Nat) :
    LuaValue → List Nat
  | .nil => [LUA_TNIL]
  | .boolean b => [LUA_TBOOLEAN, if b then 1 else 0]
  | .string s => LUA_TSTRING :: (s.takeWhile (fun c => c != 0)).map (fun c => c % 256) ++ [0]
  | .double payload => LUA_TNUMBER :: payload
  | .integer inum => encodeInteger inum
  | .table addr arr hash =>
      if lua_checkstack cstack top 4 && !(addrs.contains addr) then
        let arraySize := arr.length
        let hashSize := hash.length
        let outputType := tableOutputType arraySize hashSize
        outputType :: (tableCountBytes outputType arraySize hashSize
          ++ (encodeArrayPart cstack (addr :: addrs) top 0 false arr
          ++ encodeHashPart cstack (addr :: addrs) top hash))
      else [tableOutputType 0 0]
  | .lightuserdata _ => [LUA_TLIGHTUSERDATA]
  | .func _ => [LUA_TFUNCTION]
  | .userdata _ => [LUA_TUSERDATA]
  | .thread _ => [LUA_TTHREAD]
/-- The array loop of the table case: `nilcount` and `wasnil` are the loop
variables, the list holds the slots still to visit.  Each slot is pushed by
`lua_rawgeti`, so the element is encoded at height `top + 1`. -/
def encodeArrayPart (cstack : Nat) (addrs : List Nat) (top : Nat) (nilcount : Nat)
    (wasnil : Bool) : List LuaValue → List Nat
  | [] => if wasnil then PushNils nilcount else []
  | v :: rest =>
      if lua_isnil v then encodeArrayPart cstack addrs top (nilcount + 1) true rest
      else
        (if wasnil then PushNils nilcount else [])
          ++ (LuaStackToBinaryConverter cstack addrs (top + 1) v
          ++ encodeArrayPart cstack addrs top (if wasnil then 0 else nilcount) false rest)
/-- The `lua_next` loop of the table case: key and value are both on the stack
(height `top + 2`) while they are encoded. -/
def encodeHashPart (cstack : Nat) (addrs : List Nat) (top : Nat) :
    List (LuaValue × LuaValue) → List Nat
  | [] => []
  | (k, v) :: rest =>
      LuaStackToBinaryConverter cstack addrs (top + 2) k
        ++ (LuaStackToBinaryConverter cstack addrs (top + 2) v
        ++ encodeHashPart cstack addrs top rest)
end

/-- The loop of `LuaStackToBinary` over the stack slots `1 .. n`. -/
def encodeStack (cstack top : Nat) : List LuaValue → List Nat
  | [] => []
  | v :: rest => LuaStackToBinaryConverter cstack [] top v ++ encodeStack cstack top rest

/-- The function `LuaStackToBinary`: `none` is the `NULL` returned for an empty
stack, otherwise the version pair followed by the encoding of every slot. -/
def LuaStackToBinary (cstack : Nat) (stack : List LuaValue) : Option (List Nat) :=
  let n := stack.length
  if n == 0 then none
  else some (luaBinaryMajorVersion :: luaBinaryMinorVersion :: encodeStack cstack n stack)

/-! ## The decoder -/

/-- Ways in which the C decoder leaves defined behaviour, plus fuel exhaustion
of the model. -/
inductive DecodeError where
  /-- A read through `data` at or past the end of the buffer. -/
  | readPastEnd
  /-- The instruction `lua_rawseti` or `lua_rawset` ran although the nested call
  pushed nothing, so it consumed a stack slot that is not its operand. -/
  | stackMisuse
  /-- The Lua API raised an error (`lua_rawset` with a nil key). -/
  | luaError
  /-- The model ran out of fuel. -/
  | outOfFuel
  deriving DecidableEq, Repr

/-- The function `AdvanceByteStream`: the next `size` bytes and the rest of the
stream.  The C code does not check `remaining`; a read past the end is reported
as an error here. -/
def AdvanceByteStream (size : Nat) (data : List Nat) :
    Except DecodeError (List Nat × List Nat) :=
  if size ≤ data.length then .ok (data.take size, data.drop size)
  else .error .readPastEnd

/-- The string that `lua_pushstring(L, data)` pushes, with the stream advanced by
`strlen(data) + 1`. -/
def readCString : List Nat → Except DecodeError (List Nat × List Nat)
  | [] => .error .readPastEnd
  | c :: rest =>
      if c == 0 then .ok ([], rest)
      else
        match readCString rest with
        | .error e => .error e
        | .ok (s, rest') => .ok (c :: s, rest')

/-- The array count or hash count of a table header, for the width bits
`b1`, `b2`, `b4` of that count. -/
def readCount (type b1 b2 b4 : Nat) (data : List Nat) :
    Except DecodeError (Nat × List Nat) :=
  let r0 : Except DecodeError (Nat × List Nat) :=
    if BITMATCH type b4 || BITMATCH type b2 || BITMATCH type b1 then
      match AdvanceByteStream 1 data with
      | .error e => .error e
      | .ok (bs, data) => .ok (0 ||| fromLE bs, data)
    else .ok (0, data)
  let r1 : Except DecodeError (Nat × List Nat) :=
    match r0 with
    | .error e => .error e
    | .ok (size, data) =>
        if BITMATCH type b4 || BITMATCH type b2 then
          match AdvanceByteStream 1 data with
          | .error e => .error e
          | .ok (bs, data) => .ok (size ||| (fromLE bs <<< 8), data)
        else .ok (size, data)
  match r1 with
  | .error e => .error e
  | .ok (size, data) =>
      if BITMATCH type b4 then
        match AdvanceByteStream 1 data with
        | .error e => .error e
        | .ok (bs2, data) =>
            match AdvanceByteStream 1 data with
            | .error e => .error e
            | .ok (bs3, data) =>
                .ok ((size ||| (fromLE bs2 <<< 16)) ||| (fromLE bs3 <<< 24), data)
      else .ok (size, data)

/-- The header of a table in the decoder: the array count, then the hash
count. -/
def readTableHeader (type : Nat) (data : List Nat) :
    Except DecodeError (Nat × Nat × List Nat) :=
  match readCount type LUAEXT_BITS_1A LUAEXT_BITS_2A LUAEXT_BITS_4A data with
  | .error e => .error e
  | .ok (arraySize, data) =>
    match readCount type LUAEXT_BITS_1H LUAEXT_BITS_2H LUAEXT_BITS_4H data with
    | .error e => .error e
    | .ok (hashSize, data) => .ok (arraySize, hashSize, data)

/-- The call `lua_rawset(L, -3)` on the table under construction.  A nil key
raises a Lua error, a nil value stores nothing; otherwise the pair is recorded
after the pairs stored so far. -/
def lua_rawset (hash : List (LuaValue × LuaValue)) (k v : LuaValue) :
    Except DecodeError (List (LuaValue × LuaValue)) :=
  if lua_isnil k then .error .luaError
  else if lua_isnil v then .ok hash
  else .ok (hash ++ [(k, v)])

mutual
/-- The function `BinaryToLuaStackConverter`.  The result is the value pushed
(`none` when the tag is unknown and nothing is pushed), the next unused table
address and the rest of the stream. -/
def BinaryToLuaStackConverter :
    Nat → Nat → List Nat → Except DecodeError (Option LuaValue × Nat × List Nat)
  | 0, _, _ => .error .outOfFuel
  | fuel + 1, next, data =>
      match AdvanceByteStream 1 data with
      | .error e => .error e
      | .ok (tb, data) =>
        let type := fromLE tb
        if type == LUA_TNIL then .ok (some .nil, next, data)
        else if type == LUA_TBOOLEAN then
          match AdvanceByteStream 1 data with
          | .error e => .error e
          | .ok (bs, data) => .ok (some (.boolean (fromLE bs != 0)), next, data)
        else if type == LUA_TSTRING then
          match readCString data with
          | .error e => .error e
          | .ok (s, data) => .ok (some (.string s), next, data)
        else if type == LUA_TNUMBER then
          match AdvanceByteStream 8 data with
          | .error e => .error e
          | .ok (bs, data) => .ok (some (.double bs), next, data)
        else if type == LUAEXT_TLONG then
          match AdvanceByteStream 4 data with
          | .error e => .error e
          | .ok (bs, data) => .ok (some (.integer (toSigned 32 (fromLE bs))), next, data)
        else if type == LUAEXT_TUSHORT then
          match AdvanceByteStream 2 data with
          | .error e => .error e
          | .ok (bs, data) => .ok (some (.integer (fromLE bs)), next, data)
        else if type == LUAEXT_TSHORT then
          match AdvanceByteStream 2 data with
          | .error e => .error e
          | .ok (bs, data) => .ok (some (.integer (toSigned 16 (fromLE bs))), next, data)
        else if type == LUAEXT_TBYTE then
          match AdvanceByteStream 1 data with
          | .error e => .error e
          | .ok (bs, data) => .ok (some (.integer (fromLE bs)), next, data)
        else if LUAEXT_TTABLE ≤ type && type ≤ (LUAEXT_TTABLE ||| LUAEXT_BITS_4A ||| LUAEXT_BITS_4H) then
          match readTableHeader type data with
          | .error e => .error e
          | .ok (arraySize, hashSize, data) =>
            -- lua_createtable(L, arraySize, hashSize)
            match decodeArrayPart fuel (next + 1) data 1 arraySize
                (List.replicate arraySize .nil) with
            | .error e => .error e
            | .ok (arr, next', data) =>
              match decodeHashPart fuel next' data 1 hashSize [] with
              | .error e => .error e
              | .ok (hash, next'', data) => .ok (some (.table next arr hash), next'', data)
        else .ok (none, next, data)
termination_by structural fuel => fuel
/-- The loop `while(n <= arraySize)` of the table case; `n` is an
`unsigned int`. -/
def decodeArrayPart :
    Nat → Nat → List Nat → Nat → Nat → List LuaValue →
      Except DecodeError (List LuaValue × Nat × List Nat)
  | 0, _, _, _, _, _ => .error .outOfFuel
  | fuel + 1, next, data, n, arraySize, arr =>
      if n ≤ arraySize then
        match data with
        | [] => .error .readPastEnd
        | b :: _ =>
          if b == LUAEXT_TNILS then
            match AdvanceByteStream 1 data with
            | .error e => .error e
            | .ok (_, data) =>
              match AdvanceByteStream 4 data with
              | .error e => .error e
              | .ok (bs, data) =>
                decodeArrayPart fuel next data ((n + fromLE bs) % 2 ^ 32) arraySize arr
          else
            match BinaryToLuaStackConverter fuel next data with
            | .error e => .error e
            | .ok (none, _, _) => .error .stackMisuse
            | .ok (some v, next', data) =>
              -- lua_rawseti(L, -2, n)
              decodeArrayPart fuel next' data ((n + 1) % 2 ^ 32) arraySize (arr.set (n - 1) v)
      else .ok (arr, next, data)
termination_by structural fuel => fuel
/-- The loop `for(unsigned int h = 1; h <= hashSize; h++)` of the table case. -/
def decodeHashPart :
    Nat → Nat → List Nat → Nat → Nat → List (LuaValue × LuaValue) →
      Except DecodeError (List (LuaValue × LuaValue) × Nat × List Nat)
  | 0, _, _, _, _, _ => .error .outOfFuel
  | fuel + 1, next, data, h, hashSize, hash =>
      if h ≤ hashSize then
        match BinaryToLuaStackConverter fuel next data with
        | .error e => .error e
        | .ok (key, next', data) =>
          match BinaryToLuaStackConverter fuel next' data with
          | .error e => .error e
          | .ok (value, next'', data) =>
            match key, value with
            | some k, some v =>
              match lua_rawset hash k v with
              | .error e => .error e
              | .ok hash' => decodeHashPart fuel next'' data ((h + 1) % 2 ^ 32) hashSize hash'
            | _, _ => .error .stackMisuse
      else .ok (hash, next, data)
termination_by structural fuel => fuel
end

/-- The loop `while(size > 0 && itemsToLoad > 0)` of `BinaryToLuaStack`; `pushed`
are the values pushed so far, bottom first. -/
def decodeStack :
    Nat → Nat → List Nat → Nat → List LuaValue → Except DecodeError (List LuaValue)
  | 0, _, _, _, _ => .error .outOfFuel
  | fuel + 1, next, data, itemsToLoad, pushed =>
      if data.length > 0 && itemsToLoad > 0 then
        match BinaryToLuaStackConverter fuel next data with
        | .error e => .error e
        | .ok (none, next', data') => decodeStack fuel next' data' (itemsToLoad - 1) pushed
        | .ok (some v, next', data') =>
            decodeStack fuel next' data' (itemsToLoad - 1) (pushed ++ [v])
      else .ok pushed

/-- The function `BinaryToLuaStack` on a buffer of `size = data.length` bytes: the
values it pushes, bottom first.  `next` is the first address `lua_createtable`
hands out.  Every step of the decoder consumes input, so the fuel given here is
never exhausted. -/
def BinaryToLuaStack (next : Nat) (data : List Nat) (itemsToLoad : Nat) :
    Except DecodeError (List LuaValue) :=
  match data with
  | major :: minor :: rest =>
      if luaBinaryMajorVersion != major || luaBinaryMinorVersion != minor then .ok []
      else decodeStack (2 * rest.length + 2) next rest itemsToLoad []
  | _ => .error .readPastEnd

/-! ## The domain of the round trip -/

mutual
/-- The value with every table address set to zero: two values are structurally
equal when they agree after this. -/
def eraseAddr : LuaValue → LuaValue
  | .table _ arr hash => .table 0 (eraseAddrList arr) (eraseAddrPairs hash)
  | .nil => .nil
  | .boolean b => .boolean b
  | .lightuserdata p => .lightuserdata p
  | .integer n => .integer n
  | .double payload => .double payload
  | .string s => .string s
  | .func p => .func p
  | .userdata p => .userdata p
  | .thread p => .thread p
/-- The function `eraseAddr` on every slot of an array part. -/
def eraseAddrList : List LuaValue → List LuaValue
  | [] => []
  | v :: rest => eraseAddr v :: eraseAddrList rest
/-- The function `eraseAddr` on every key and value of a hash part. -/
def eraseAddrPairs : List (LuaValue × LuaValue) → List (LuaValue × LuaValue)
  | [] => []
  | (k, v) :: rest => (eraseAddr k, eraseAddr v) :: eraseAddrPairs rest
end

mutual
/-- The values the codec supports, for an encoder call at stack height `top`
with `addrs` on the table address stack: nil, booleans, `INT32` numbers, other
numbers as eight payload bytes, strings of non-zero bytes, and tables of these
whose encoding passes the `lua_checkstack` test and meets no table that is
already being encoded.  Keys and values of a hash part are not nil (the
encoder asserts this), and the counts fit an `int`. -/
def supported (cstack : Nat) (addrs : List Nat) (top : Nat) : LuaValue → Bool
  | .nil => true
  | .boolean _ => true
  | .integer n => decide (-2147483648 ≤ n) && decide (n ≤ 2147483647)
  | .double payload => payload.length == 8 && payload.all (fun b => decide (b < 256))
  | .string s => s.all (fun c => c != 0 && decide (c < 256))
  | .table addr arr hash =>
      lua_checkstack cstack top 4 && !(addrs.contains addr)
        && decide (arr.length < 2147483648) && decide (hash.length < 2147483648)
        && supportedList cstack (addr :: addrs) (top + 1) arr
        && supportedPairs cstack (addr :: addrs) (top + 2) hash
  | .lightuserdata _ => false
  | .func _ => false
  | .userdata _ => false
  | .thread _ => false
/-- Every slot of an array part is supported. -/
def supportedList (cstack : Nat) (addrs : List Nat) (top : Nat) : List LuaValue → Bool
  | [] => true
  | v :: rest => supported cstack addrs top v && supportedList cstack addrs top rest
/-- Every key and value of a hash part is supported and not nil. -/
def supportedPairs (cstack : Nat) (addrs : List Nat) (top : Nat) :
    List (LuaValue × LuaValue) → Bool
  | [] => true
  | (k, v) :: rest =>
      !(lua_isnil k) && !(lua_isnil v) && supported cstack addrs top k
        && supported cstack addrs top v && supportedPairs cstack addrs top rest
end

/-- Width code of a count: 0, 1, 2 or 3 for no byte, one, two or four bytes. -/
def widthCode (n : Nat) : Nat :=
  if 65536 ≤ n then 3 else if 256 ≤ n then 2 else if 1 ≤ n then 1 else 0

/-- A stack with every supported kind of value, used to instantiate the round
trip. -/
def exampleStack : List LuaValue :=
  [.integer 5, .integer 300, .integer (-3), .integer 70000, .boolean true, .nil,
   .string [104, 105], .double [1, 2, 3, 4, 5, 6, 7, 8],
   .table 1 [.nil, .integer 1, .nil, .nil, .nil, .nil, .nil, .nil, .integer 2]
     [(.string [97], .table 2 [] [])]]

/-! ## Tiered hook regions -/

/-- The struct `TieredRegion::Region::Island`: the addresses `start .. end - 1`. -/
structure Island where
  start : Nat
  end_ : Nat
  deriving DecidableEq, Repr

/-- The method `Island::Contains(unsigned int address, int size)`; the sum is
taken in `unsigned int`. -/
def Island.Contains (i : Island) (address : Nat) (size : Int) : Bool :=
  decide (address < i.end_) && decide (toUnsigned 32 ((address : Int) + size) > i.start)

/-- The loop of `Region<maxGap>::Calculate`.  The vector `islands` is kept with
its last element first; `none` is the access `islands.back()` on an empty
vector.  The comparison against `lastEnd + (long long)maxGap` is 64 bits wide
and does not wrap, `addr + 1` is an `unsigned int`. -/
def Region.calculateLoop (maxGap : Nat) :
    List Nat → List Island → Nat → Option (List Island)
  | [], islands, _ => some islands
  | addr :: rest, islands, lastEnd =>
      let islands :=
        if addr < lastEnd || addr > lastEnd + maxGap then
          { start := addr, end_ := 0 } :: islands
        else islands
      match islands with
      | [] => none
      | back :: others =>
          Region.calculateLoop maxGap rest
            ({ back with end_ := (addr + 1) % 2 ^ 32 } :: others) ((addr + 1) % 2 ^ 32)

/-- The method `Region<maxGap>::Calculate`: the islands in vector order. -/
def Region.Calculate (maxGap : Nat) (bytes : List Nat) : Option (List Island) :=
  (Region.calculateLoop maxGap bytes [] 0xFFFFFFFF).map List.reverse

/-- The method `Region<maxGap>::Contains`: the search loop is commented out in
the source and the body is `return false`. -/
def Region.Contains (_islands : List Island) (_address : Nat) (_size : Int) : Bool :=
  false

/-- The struct `TieredRegion`: `Region<0xFFFFFFFF> broad`, `Region<0x1000> mid`,
`Region<0> narrow`. -/
structure TieredRegion where
  broad : List Island
  mid : List Island
  narrow : List Island
  deriving DecidableEq, Repr

/-- The method `TieredRegion::Calculate`: sort, then compute the three tiers. -/
def TieredRegion.Calculate (bytes : List Nat) : Option TieredRegion :=
  let bytes := bytes.insertionSort (fun a b => a ≤ b)
  match Region.Calculate 0xFFFFFFFF bytes, Region.Calculate 0x1000 bytes,
      Region.Calculate 0 bytes with
  | some broad, some mid, some narrow => some { broad := broad, mid := mid, narrow := narrow }
  | _, _, _ => none

/-- The method `TieredRegion::NotEmpty`. -/
def TieredRegion.NotEmpty (r : TieredRegion) : Nat := r.broad.length

/-- The method `TieredRegion::Contains`, the full check.  It reads
`broad.islands[0]`, so it is `none` (illegal) when `NotEmpty` is zero. -/
def TieredRegion.Contains (r : TieredRegion) (address : Nat) (size : Int) : Option Bool :=
  match r.broad with
  | [] => none
  | first :: _ =>
      some (first.Contains address size && Region.Contains r.mid address size
        && Region.Contains r.narrow address size)

/-- What `CalculateMemHookRegions` reads of one context for one hook kind:
`numMemHooks`, whether the interpreter is live, and the entries of the hook
table as pairs of address and whether the value is a function. -/
structure HookTable where
  numMemHooks : Nat
  live : Bool
  entries : List (Nat × Bool)

/-- The function `CalculateMemHookRegions` for one hook kind: the addresses that
hold a function in a live context with a non-zero hook count, over all contexts
in map order, handed to `TieredRegion::Calculate`. -/
def CalculateMemHookRegions (contexts : List HookTable) : Option TieredRegion :=
  let hookedBytes := contexts.flatMap (fun c =>
    if c.numMemHooks != 0 && c.live then
      (c.entries.filter (fun e => e.2)).map (fun e => e.1 % 2 ^ 32)
    else [])
  TieredRegion.Calculate hookedBytes

/-- The hot path `CallRegisteredLuaMemHook`: whether the per-address lookup
`CallRegisteredLuaMemHook_LuaMatch` is reached for an access.  Low RAM
addresses are mirrored before the full check. -/
def CallRegisteredLuaMemHook (hookedRegions : TieredRegion) (address : Nat) (size : Int) :
    Option Bool :=
  if hookedRegions.NotEmpty != 0 then
    let address := if address ≤ 0x1FFF then address ||| 0x7E0000 else address
    hookedRegions.Contains address size
  else some false

/-! ## Rendering values as text (`toCStringConverter`) and comparing them -/

/-- Renderings the code obtains from the C library and from Lua internals; they
are parameters of the model. -/
structure Formatter where
  /-- The text of `"%.12Lg"` for a number that is not an `INT32`, given by its
  payload bytes. -/
  number : List Nat → List Nat
  /-- The text printed for functions, userdata, threads and light userdata, and
  for a table when `lua_checkstack` fails (the `defcase` label). -/
  other : LuaValue → List Nat

/-- Decimal digits of a natural number, most significant first, as character
codes. -/
def decimalDigits : Nat → Nat → List Nat
  | 0, _ => []
  | fuel + 1, n =>
      if n < 10 then [48 + n] else decimalDigits fuel (n / 10) ++ [48 + n % 10]

/-- The text of `"%.12Lg"` for a number that equals an `INT32`: its decimal
digits with a leading minus sign when negative (no exponent is used below
`10^12`). -/
def formatInteger (n : Int) : List Nat :=
  (if n < 0 then [45] else []) ++ decimalDigits 12 n.natAbs

/-- The output buffer of `toCStringConverter`: the characters written before the
terminating zero, and the counter `remaining`. -/
structure PrintBuf where
  out : List Nat
  remaining : Int
  deriving DecidableEq, Repr

/-- The macro pair `APPENDPRINT ... END` with C99 `snprintf`: at most
`remaining - 1` characters are stored, `remaining` drops by the full length of
the text.  With a negative `remaining` the size argument converts to a huge
`size_t` and the call writes outside the buffer: `none`. -/
def APPENDPRINT (text : List Nat) (buf : PrintBuf) : Option PrintBuf :=
  if buf.remaining < 0 then none
  else some { out := buf.out ++ text.take (buf.remaining.toNat - 1),
              remaining := buf.remaining - text.length }

/-- The function `isalphaorunderscore` in the C locale. -/
def isalphaorunderscore (c : Nat) : Bool :=
  (decide (65 ≤ c) && decide (c ≤ 90)) || (decide (97 ≤ c) && decide (c ≤ 122)) || c == 95

/-- The text of a C string literal. -/
def cstr (s : String) : List Nat := s.toList.map Char.toNat

/-- Whether a key is the number `arrayIndex` (the test
`keyIsNumber && lua_tonumber(L, keyIndex) == arrayIndex`). -/
def keyIsIndex (key : LuaValue) (arrayIndex : Nat) : Bool :=
  match key with
  | .integer n => n == (arrayIndex : Int)
  | _ => false

/-- The prefix printed before a key that is not skipped. -/
def keyOpen (key : LuaValue) : Option (List Nat) :=
  match key with
  | .string s =>
      if isalphaorunderscore (s.headD 0) then none else some (cstr "['")
  | _ => some (cstr "[")

/-- The suffix printed after a key that is not skipped. -/
def keyClose (key : LuaValue) : List Nat :=
  match key with
  | .string s =>
      if isalphaorunderscore (s.headD 0) then cstr "=" else cstr "']="
  | _ => cstr "]="

/-- Whether a value is a Lua string. -/
def lua_isstring_value : LuaValue → Bool
  | .string _ => true
  | _ => false

/-- The text `"%s:parent"` or `"%s:parent^%d"` for a table found on the address
stack `parentNum` entries from its end. -/
def parentText (parentNum : Nat) : List Nat :=
  if parentNum > 1 then cstr "table:parent^" ++ decimalDigits 12 parentNum
  else cstr "table:parent"

/-- The variables of the `lua_next` loop in the table case of
`toCStringConverter`; `broke` records that the loop was left by `break`. -/
structure PrintLoop where
  buf : PrintBuf
  first : Bool
  skipKey : Bool
  arrayIndex : Nat
  broke : Bool

mutual
/-- The function `toCStringConverter` for values without a `__tostring`
metamethod, at stack height `top` with `addrs` the contents of
`s_tableAddressStack` (last pushed first). -/
def toCStringConverter (fmt : Formatter) (cstack : Nat) (addrs : List Nat) (top : Nat) :
    LuaValue → PrintBuf → Option PrintBuf
  | .nil, buf => if buf.remaining ≤ 0 then some buf else APPENDPRINT (cstr "nil") buf
  | .boolean b, buf =>
      if buf.remaining ≤ 0 then some buf
      else APPENDPRINT (if b then cstr "true" else cstr "false") buf
  | .string s, buf =>
      if buf.remaining ≤ 0 then some buf
      else APPENDPRINT (s.takeWhile (fun c => c != 0)) buf
  | .integer n, buf =>
      if buf.remaining ≤ 0 then some buf else APPENDPRINT (formatInteger n) buf
  | .double payload, buf =>
      if buf.remaining ≤ 0 then some buf else APPENDPRINT (fmt.number payload) buf
  | .table addr arr hash, buf =>
      if buf.remaining ≤ 0 then some buf
      else if !(lua_checkstack cstack top 4) then
        APPENDPRINT (fmt.other (.table addr arr hash)) buf
      else
        match addrs.indexOf? addr with
        | some i => APPENDPRINT (parentText (i + 1)) buf
        | none =>
            match APPENDPRINT (cstr "\x7b") buf with
            | none => none
            | some buf =>
              match printEntries fmt cstack (addr :: addrs) top arr 1
                  { buf := buf, first := true, skipKey := true, arrayIndex := 0,
                    broke := false } with
              | none => none
              | some st =>
                if st.broke then APPENDPRINT (cstr "\x7d") st.buf
                else
                  match printPairs fmt cstack (addr :: addrs) top hash st with
                  | none => none
                  | some st => APPENDPRINT (cstr "\x7d") st.buf
  | .lightuserdata p, buf =>
      if buf.remaining ≤ 0 then some buf else APPENDPRINT (fmt.other (.lightuserdata p)) buf
  | .func p, buf =>
      if buf.remaining ≤ 0 then some buf else APPENDPRINT (fmt.other (.func p)) buf
  | .userdata p, buf =>
      if buf.remaining ≤ 0 then some buf else APPENDPRINT (fmt.other (.userdata p)) buf
  | .thread p, buf =>
      if buf.remaining ≤ 0 then some buf else APPENDPRINT (fmt.other (.thread p)) buf
/-- The `lua_next` loop of the table case over the array slots still to visit;
`index` is the key of the first of them, nil slots are not visited. -/
def printEntries (fmt : Formatter) (cstack : Nat) (addrs : List Nat) (top : Nat) :
    List LuaValue → Nat → PrintLoop → Option PrintLoop
  | [], _, st => some st
  | v :: rest, index, st =>
      if lua_isnil v then printEntries fmt cstack addrs top rest (index + 1) st
      else
        match (if st.first then some st.buf else APPENDPRINT (cstr ", ") st.buf) with
        | none => none
        | some buf =>
          let arrayIndex := if st.skipKey then st.arrayIndex + 1 else st.arrayIndex
          let skipKey := if st.skipKey then decide (index = arrayIndex) else st.skipKey
          let afterKey : Option PrintBuf :=
            if skipKey then some buf
            else
              match APPENDPRINT (cstr "[") buf with
              | none => none
              | some buf =>
                match (if buf.remaining ≤ 0 then some buf
                    else APPENDPRINT (formatInteger index) buf) with
                | none => none
                | some buf => APPENDPRINT (cstr "]=") buf
          match afterKey with
          | none => none
          | some buf =>
            match (if lua_isstring_value v then APPENDPRINT (cstr "'") buf else some buf) with
            | none => none
            | some buf =>
              match toCStringConverter fmt cstack addrs (top + 2) v buf with
              | none => none
              | some buf =>
                match (if lua_isstring_value v then APPENDPRINT (cstr "'") buf
                    else some buf) with
                | none => none
                | some buf =>
                  if buf.remaining ≤ 0 then
                    some { buf := buf, first := false, skipKey := skipKey,
                           arrayIndex := arrayIndex, broke := true }
                  else
                    printEntries fmt cstack addrs top rest (index + 1)
                      { buf := buf, first := false, skipKey := skipKey,
                        arrayIndex := arrayIndex, broke := false }
/-- The same loop over the hash part. -/
def printPairs (fmt : Formatter) (cstack : Nat) (addrs : List Nat) (top : Nat) :
    List (LuaValue × LuaValue) → PrintLoop → Option PrintLoop
  | [], st => some st
  | (k, v) :: rest, st =>
      match (if st.first then some st.buf else APPENDPRINT (cstr ", ") st.buf) with
      | none => none
      | some buf =>
        let arrayIndex := if st.skipKey then st.arrayIndex + 1 else st.arrayIndex
        let skipKey := if st.skipKey then keyIsIndex k arrayIndex else st.skipKey
        let afterKey : Option PrintBuf :=
          if skipKey then some buf
          else
            match (match keyOpen k with
                | none => some buf
                | some text => APPENDPRINT text buf) with
            | none => none
            | some buf =>
              match toCStringConverter fmt cstack addrs (top + 2) k buf with
              | none => none
              | some buf => APPENDPRINT (keyClose k) buf
        match afterKey with
        | none => none
        | some buf =>
          match (if lua_isstring_value v then APPENDPRINT (cstr "'") buf else some buf) with
          | none => none
          | some buf =>
            match toCStringConverter fmt cstack addrs (top + 2) v buf with
            | none => none
            | some buf =>
              match (if lua_isstring_value v then APPENDPRINT (cstr "'") buf else some buf) with
              | none => none
              | some buf =>
                if buf.remaining ≤ 0 then
                  some { buf := buf, first := false, skipKey := skipKey,
                         arrayIndex := arrayIndex, broke := true }
                else
                  printPairs fmt cstack addrs top rest
                    { buf := buf, first := false, skipKey := skipKey,
                      arrayIndex := arrayIndex, broke := false }
end

/-- The function `luaValueContentsDiffer` on two stack slots: both are rendered
into buffers of `maxLen = 8192` characters and the texts and the remaining
counts are compared.  It is `none` when a rendering writes outside its
buffer. -/
def luaValueContentsDiffer (fmt : Formatter) (cstack top : Nat) (v1 v2 : LuaValue) :
    Option Bool :=
  let maxLen : Int := 8192
  match toCStringConverter fmt cstack [] top v1 { out := [], remaining := maxLen },
      toCStringConverter fmt cstack [] top v2 { out := [], remaining := maxLen } with
  | some b1, some b2 =>
      some (b1.remaining != b2.remaining
        || (b1.out.takeWhile (fun c => c != 0)) != (b2.out.takeWhile (fun c => c != 0)))
  | _, _ => none

/-! ## Records and persisted global variables -/

/-- The struct `LuaSaveData::Record`; `size` is the length of `data`. -/
structure Record where
  key : Nat
  data : List Nat
  deriving DecidableEq, Repr

/-- The class `LuaSaveData`: its `recordList`, head first. -/
abbrev LuaSaveData := List Record

/-- The method `LuaSaveData::LoadRecord`: the values pushed onto the Lua stack.
The first record with the key is decoded; no record pushes nothing. -/
def LuaSaveData.LoadRecord (recordList : LuaSaveData) (next key itemsToLoad : Nat) :
    Except DecodeError (List LuaValue) :=
  match recordList.find? (fun cur => cur.key == key) with
  | some cur => BinaryToLuaStack next cur.data itemsToLoad
  | none => .ok []

/-- The method `LuaSaveData::SaveRecordPartial` for a valid stack index holding
`v`, at stack height `top`: one record with the version pair and the encoding
of `v` is appended to the list. -/
def LuaSaveData.SaveRecordPartial (recordList : LuaSaveData) (cstack top key : Nat)
    (v : LuaValue) : LuaSaveData :=
  let cur : Record :=
    { key := key
      data := luaBinaryMajorVersion :: luaBinaryMinorVersion
        :: LuaStackToBinaryConverter cstack [] top v }
  recordList ++ [cur]

/-- What the model takes from outside `lua-engine.cpp`. -/
structure Env where
  /-- The limit `LUAI_MAXCSTACK` of `lua_checkstack`. -/
  cstack : Nat
  /-- The function `crc32(0, name, strlen(name))` of zlib. -/
  crc32 : List Nat → Nat
  /-- The C library and Lua renderings used by `toCStringConverter`. -/
  fmt : Formatter
  /-- The first table address `lua_createtable` hands out. -/
  next : Nat
  /-- The position text `luaL_where(L, 0)` yields. -/
  luaL_where : List Nat

/-- The part of the context that `emu_persistglobalvariables` changes: the
globals set through `lua_settable(L, LUA_GLOBALSINDEX)` (latest first),
`info.persistVars` and `info.newDefaultData`. -/
structure PersistState where
  globals : List (List Nat × LuaValue)
  persistVars : List (List Nat)
  newDefaultData : LuaSaveData

/-- The value of a global variable: the latest assignment, nil when unset. -/
def lookupGlobal (globals : List (List Nat × LuaValue)) (name : List Nat) : LuaValue :=
  match globals.find? (fun g => g.1 == name) with
  | some g => g.2
  | none => .nil

/-- The body of the `lua_next` loop of `emu_persistglobalvariables` for one
variable name and declared default, from "keep track of the variable name" to
`lua_settable`.  `defaultIndex` is the stack index of the declared default
(the stack top at that point).  The result is `none` when the decoder or the
comparison leaves defined behaviour. -/
def persistVariable (env : Env) (defaultData exitData : LuaSaveData) (defaultIndex : Nat)
    (st : PersistState) (varName : List Nat) (default : LuaValue) : Option PersistState :=
  let persistVars := st.persistVars ++ [varName]
  let varNameCRC := env.crc32 varName
  let newDefaultData :=
    st.newDefaultData.SaveRecordPartial env.cstack defaultIndex varNameCRC default
  -- defaultData.LoadRecord(uid, varNameCRC, 1); lua_pushnil(L);
  match defaultData.LoadRecord env.next varNameCRC 1 with
  | .error _ => none
  | .ok loaded =>
    let above := loaded ++ [LuaValue.nil]
    -- luaValueContentsDiffer(L, defaultIndex, defaultIndex+1)
    match luaValueContentsDiffer env.fmt env.cstack (defaultIndex + above.length) default
        (above.headD .nil) with
    | none => none
    | some differ =>
      let attemptPersist := !differ
      -- lua_settop(L, defaultIndex);
      let value : Option LuaValue :=
        if attemptPersist then
          match exitData.LoadRecord env.next varNameCRC 1 with
          | .error _ => none
          | .ok loaded =>
            -- if(lua_gettop(L) > defaultIndex) lua_remove(L, defaultIndex);
            -- lua_settop(L, defaultIndex);
            if loaded.length > 0 then some (loaded.headD .nil) else some default
        else some default
      match value with
      | none => none
      | some value =>
        some { globals := (varName, value) :: st.globals, persistVars := persistVars,
               newDefaultData := newDefaultData }

/-- The classification of one entry of a table passed to
`emu_persistglobalvariables`: the variable name and its declared default, or
`none` when the entry raises the "entries are not allowed" error. -/
def persistEntry (key value : LuaValue) : Option (List Nat × LuaValue) :=
  match key with
  | .string name =>
      if lua_type value ≤ LUA_TTABLE && lua_type value != LUA_TLIGHTUSERDATA then
        some (name.takeWhile (fun c => c != 0), value)
      else none
  | .integer _ =>
      match value with
      | .string name => some (name.takeWhile (fun c => c != 0), .nil)
      | _ => none
  | .double _ =>
      match value with
      | .string name => some (name.takeWhile (fun c => c != 0), .nil)
      | _ => none
  | _ => none

/-- The `lua_next` loop of `emu_persistglobalvariables` over the entries of one
table argument. -/
def persistEntries (env : Env) (defaultData exitData : LuaSaveData) (defaultIndex : Nat) :
    List (LuaValue × LuaValue) → PersistState → Option PersistState
  | [], st => some st
  | (key, value) :: rest, st =>
      match persistEntry key value with
      | none => none
      | some (varName, default) =>
        match persistVariable env defaultData exitData defaultIndex st varName default with
        | none => none
        | some st => persistEntries env defaultData exitData defaultIndex rest st

/-- The function `emu_persistglobalvariables` for `numTables` table arguments,
each given by the entries `lua_next` yields, with the two stores as imported
from the files of the script.  Inside the loop the stack holds the arguments,
the key, the variable name and the declared default. -/
def emu_persistglobalvariables (env : Env) (defaultData exitData : LuaSaveData)
    (tables : List (List (LuaValue × LuaValue))) (st : PersistState) : Option PersistState :=
  tables.foldlM (fun st entries =>
    persistEntries env defaultData exitData (tables.length + 3) entries st) st

/-! ## Script contexts: watchdog, start and stop -/

inductive SpeedMode where
  | SPEEDMODE_NORMAL
  | SPEEDMODE_NOTHROTTLE
  | SPEEDMODE_TURBO
  | SPEEDMODE_MAXIMUM
  deriving DecidableEq, Repr

/-- What script code does to the host while it runs, in order.  Script code is
Lua code, which the model does not interpret; it is given by the host calls it
makes. -/
inductive ScriptAction where
  /-- A host function called by the script re-enters `RunLuaScriptFile` for the
  context of the script. -/
  | RunLuaScriptFile (filename : List Nat)
  /-- A host function called by the script re-enters `StopLuaScript`. -/
  | StopLuaScript
  /-- The count hook fires: `LuaRescueHook` runs. -/
  | probe
  /-- The script stores a function under `luaCallIDStrings[calltype]` in the
  registry (`emu.registerexit` and its siblings). -/
  | register (calltype : Nat) (code : List ScriptAction)
  /-- The script assigns a global variable. -/
  | setGlobal (name : List Nat) (value : LuaValue)
  /-- The script raises a Lua error. -/
  | error

def LUACALL_BEFOREEXIT : Nat := 3
def LUACALL_COUNT : Nat := 23
def LUAMEMHOOK_COUNT : Nat := 6
def HOOKCOUNT : Nat := 4096
def MAX_WORRY_COUNT : Nat := 6000

/-- The parts of a `lua_State` the lifecycle code reads or writes. -/
structure LuaState where
  /-- The field `L->hookcount`. -/
  hookcount : Nat
  /-- The registry entries `luaCallIDStrings[calltype]` that hold a function. -/
  registered : List (Nat × List ScriptAction)
  /-- The globals table, latest assignment first. -/
  globals : List (List Nat × LuaValue)

/-- The struct `LuaContextInfo` (without the drawing surface and the three
callbacks into the script window, which are fixed per context). -/
structure LuaContextInfo where
  L : Option LuaState
  started : Bool
  running : Bool
  returned : Bool
  crashed : Bool
  restart : Bool
  restartLater : Bool
  worryCount : Nat
  stopWorrying : Bool
  panic : Bool
  ranExit : Bool
  guiFuncsNeedDeferring : Bool
  ranFrameAdvance : Bool
  transparencyModifier : Int
  speedMode : SpeedMode
  panicMessage : List Nat
  lastFilename : List Nat
  nextFilename : List Nat
  dataSaveKey : Nat
  dataLoadKey : Nat
  dataSaveLoadKeySet : Bool
  rerecordCountingDisabled : Bool
  persistVars : List (List Nat)
  newDefaultData : LuaSaveData
  numMemHooks : Nat

/-- The function `ResetInfo`. -/
def ResetInfo (info : LuaContextInfo) : LuaContextInfo :=
  { info with
    L := none, started := false, running := false, returned := false, crashed := false,
    restart := false, restartLater := false, worryCount := 0, stopWorrying := false,
    panic := false, ranExit := false, ranFrameAdvance := false, transparencyModifier := 255,
    speedMode := .SPEEDMODE_NORMAL, guiFuncsNeedDeferring := false, dataSaveKey := 0,
    dataLoadKey := 0, dataSaveLoadKeySet := false, rerecordCountingDisabled := false,
    numMemHooks := 0, persistVars := [], newDefaultData := [] }

/-- The function `dontworry`. -/
def dontworry (info : LuaContextInfo) : LuaContextInfo :=
  let info := if info.stopWorrying then { info with stopWorrying := false } else info
  { info with worryCount := 0 }

/-- The function `worry`. -/
def worry (info : LuaContextInfo) (intensity : Nat) : LuaContextInfo :=
  { info with worryCount := (info.worryCount + intensity) % 2 ^ 32 }

/-- How a call of `LuaRescueHook` ends: it returns, or `luaL_error` raises from
inside it with the given message argument. -/
inductive HookResult where
  | returned (info : LuaContextInfo)
  | raised (info : LuaContextInfo) (message : List Nat)

/-- The function `LuaRescueHook` as compiled: `ASK_USER_ON_FREEZE` is not defined,
so without a panic request `stoprunning` is false. -/
def LuaRescueHook (info : LuaContextInfo) : HookResult :=
  let info := { info with worryCount := (info.worryCount + 1) % 2 ^ 32 }
  if info.stopWorrying && !info.panic then
    if info.worryCount > (MAX_WORRY_COUNT >>> 2) then
      .returned { info with worryCount := 0, stopWorrying := true }
    else .returned info
  else if decide (info.worryCount > MAX_WORRY_COUNT) || info.panic then
    let info := { info with worryCount := 0, stopWorrying := false }
    let stoprunning := true
    let stopworrying := true
    let stoprunning := if !info.panic then false else stoprunning
    let info :=
      if !stoprunning && stopworrying then { info with stopWorrying := true } else info
    if stoprunning then
      .raised info (if info.panic then info.panicMessage else cstr "terminated by user")
    else .returned { info with panic := false }
  else .returned info

/-- The function `RequestAbortLuaScript` for a registered context; `message` is
`none` for a `NULL` message.  The panic message is cut to the 71 characters
that fit `char panicMessage [72]`. -/
def RequestAbortLuaScript (env : Env) (info : LuaContextInfo) (message : Option (List Nat)) :
    LuaContextInfo :=
  match info.L with
  | some L =>
      { info with
        L := some { L with hookcount := 1 }
        panic := true
        panicMessage :=
          match message with
          | some m => (m.takeWhile (fun c => c != 0)).take 71
          | none => (env.luaL_where ++ cstr "script terminated").take 71 }
  | none => info

/-- The function `FilenameFromPath`: the part after the last slash or
backslash. -/
def FilenameFromPath (path : List Nat) : List Nat :=
  ((path.reverse.takeWhile (fun c => c != 47 && c != 92)).reverse)

/-- The function `SetSaveKey`. -/
def SetSaveKey (env : Env) (info : LuaContextInfo) (key : List Nat) : LuaContextInfo :=
  let info := { info with dataSaveKey := env.crc32 key }
  if !info.dataSaveLoadKeySet then
    { info with dataLoadKey := info.dataSaveKey, dataSaveLoadKeySet := true }
  else info

/-- What one call of `luaL_dofile` does: the host calls of the script body, and
whether the body ends with an error of its own. -/
structure ScriptRun where
  actions : List ScriptAction
  errorcode : Bool

/-- Effects outside the context record. -/
inductive HostEvent where
  | print (text : List Nat)
  | onstart
  | onstop (statusOK : Bool)
  | luaL_dofile (filename : List Nat)
  | exitFunction
  | lua_close
  | CalculateMemHookRegions (hookType : Nat)
  | ClearLuaGui
  | CallDeferredFunctions (idstring : List Nat)
  | lua_pcall (calltype : Nat) (nargs : Nat)

/-- One context with its surroundings: the context record, the log of host
effects (oldest first), the two persistence files of the script (`none` when
absent) and the behaviour of the coming `luaL_dofile` calls. -/
structure World where
  info : LuaContextInfo
  log : List HostEvent
  defaultsFile : Option LuaSaveData
  exitFile : Option LuaSaveData
  runs : List ScriptRun

/-- The records `CallExitFunction` gathers in `newExitData`: one per persisted
variable, holding its current global value. -/
def gatherExitData (env : Env) (L : LuaState) : List (List Nat) → LuaSaveData → LuaSaveData
  | [], newExitData => newExitData
  | varName :: rest, newExitData =>
      gatherExitData env L rest
        (newExitData.SaveRecordPartial env.cstack 1 (env.crc32 varName)
          (lookupGlobal L.globals varName))

/-- The block of `CallExitFunction` that writes the two files: a store with
records is exported, an empty store unlinks the file. -/
def writePersistFiles (env : Env) (w : World) (L : LuaState) : World :=
  let newExitData := gatherExitData env L w.info.persistVars []
  { w with
    defaultsFile := if w.info.newDefaultData.length != 0 then some w.info.newDefaultData else none
    exitFile := if newExitData.length != 0 then some newExitData else none }

/-- The function `HandleCallbackError` when no protected call is active (the
interpreter is not executing code of this context): the error is printed. -/
def HandleCallbackError (w : World) : World :=
  { w with info := { w.info with crashed := true }, log := w.log ++ [HostEvent.print (cstr "error")] }

/-- The registered function for a call id, if the registry holds one. -/
def registeredFunction (L : LuaState) (calltype : Nat) : Option (List ScriptAction) :=
  (L.registered.find? (fun r => r.1 == calltype)).map (fun r => r.2)

/-- The behaviour of the next `luaL_dofile` call; a script that does nothing when
none is given. -/
def nextRun (w : World) : ScriptRun :=
  w.runs.headD { actions := [], errorcode := false }

/-- One pass of the loop of `RunLuaScriptFile` up to the call of `luaL_dofile`:
a fresh interpreter is opened, the context is reset and marked started and
running, the count hook is installed and `onstart` is called. -/
def prepareRun (env : Env) (w : World) : World :=
  let filename := w.info.nextFilename
  -- lua_State* L = lua_open(); ResetInfo(info); info.L = L;
  let info := ResetInfo w.info
  let info := { info with
    L := some { hookcount := 0, registered := [], globals := [] }
    guiFuncsNeedDeferring := true
    lastFilename := filename }
  let info := SetSaveKey env info (FilenameFromPath filename)
  let info := { info with dataSaveLoadKeySet := false }
  -- lua_sethook(L, LuaRescueHook, LUA_MASKCOUNT, HOOKCOUNT);
  let info := { info with
    L := some { hookcount := HOOKCOUNT, registered := [], globals := [] } }
  let info := { info with started := true }
  let w := { w with info := info, log := w.log ++ [HostEvent.onstart] }
  let w := { w with info := { w.info with running := true, returned := false } }
  { w with runs := w.runs.tail, log := w.log ++ [HostEvent.luaL_dofile filename] }

mutual
/-- Script code running in the context: the host calls are executed in order; the
flag of the result tells whether an error was raised, which ends the code. -/
def execActions (env : Env) : Nat → List ScriptAction → World → Option (World × Bool)
  | 0, _, _ => none
  | _ + 1, [], w => some (w, false)
  | fuel + 1, action :: rest, w =>
      match action with
      | .RunLuaScriptFile filename =>
          match RunLuaScriptFile env fuel w filename with
          | none => none
          | some w => execActions env fuel rest w
      | .StopLuaScript =>
          match StopLuaScript env fuel w with
          | none => none
          | some w => execActions env fuel rest w
      | .probe =>
          match LuaRescueHook w.info with
          | .returned info => execActions env fuel rest { w with info := info }
          | .raised info _ => some ({ w with info := info }, true)
      | .register calltype code =>
          match w.info.L with
          | none => execActions env fuel rest w
          | some L =>
              execActions env fuel rest
                { w with info := { w.info with
                    L := some { L with registered := (calltype, code) :: L.registered } } }
      | .setGlobal name value =>
          match w.info.L with
          | none => execActions env fuel rest w
          | some L =>
              execActions env fuel rest
                { w with info := { w.info with
                    L := some { L with globals := (name, value) :: L.globals } } }
      | .error => some (w, true)
/-- The function `CallExitFunction`. -/
def CallExitFunction (env : Env) : Nat → World → Option World
  | 0, _ => none
  | fuel + 1, w =>
      match w.info.L with
      | none => some w
      | some L =>
        let w := { w with info := dontworry w.info }
        if !w.info.ranExit then
          let w := { w with info := { w.info with ranExit := true } }
          let called : Option (World × Bool) :=
            match registeredFunction L LUACALL_BEFOREEXIT with
            | some code =>
                let wasRunning := w.info.running
                let wasPanic := w.info.panic
                let w := { w with
                  info := { w.info with running := true, panic := false }
                  log := w.log ++ [HostEvent.exitFunction] }
                match execActions env fuel code w with
                | none => none
                | some (w, errorcode) =>
                    some ({ w with info := { w.info with
                      panic := w.info.panic || wasPanic, running := wasRunning } }, errorcode)
            | none => some (w, false)
          match called with
          | none => none
          | some (w, errorcode) =>
            let w :=
              match w.info.L with
              | some L => writePersistFiles env w L
              | none => w
            some (if errorcode then HandleCallbackError w else w)
        else some w
/-- The function `StopLuaScript` for a registered context. -/
def StopLuaScript (env : Env) : Nat → World → Option World
  | 0, _ => none
  | fuel + 1, w =>
      if w.info.running then
        some { w with info := RequestAbortLuaScript env w.info none }
      else
        match w.info.L with
        | none => some w
        | some _ =>
          match CallExitFunction env fuel w with
          | none => none
          | some w =>
            -- info.stopWorrying = true, info.worryCount++, dontworry(info); info.onstop(...)
            let w := { w with
              info := dontworry { w.info with
                stopWorrying := true, worryCount := (w.info.worryCount + 1) % 2 ^ 32 }
              log := w.log ++ [HostEvent.onstop (!w.info.crashed)] }
            if w.info.started then
              some { w with
                info := { w.info with L := none, started := false, numMemHooks := 0 }
                log := w.log ++ [HostEvent.lua_close]
                  ++ (List.range LUAMEMHOOK_COUNT).map HostEvent.CalculateMemHookRegions }
            else some w
/-- The function `StopScriptIfFinished`. -/
def StopScriptIfFinished (env : Env) : Nat → World → Bool → Option World
  | 0, _, _ => none
  | fuel + 1, w, justReturned =>
      if !w.info.returned then some w
      else
        let keepAlive := w.info.numMemHooks != 0
        let keepAlive := keepAlive ||
          (match w.info.L with
           | some L => (List.range LUACALL_COUNT).any
               (fun calltype => (registeredFunction L calltype).isSome)
           | none => false)
        if keepAlive then
          if justReturned then
            some { w with log := w.log ++
              [HostEvent.print (cstr "script returned but is still running registered functions\r\n")] }
          else some w
        else
          StopLuaScript env fuel
            { w with log := w.log ++ [HostEvent.print (cstr "script finished running\r\n")] }
/-- The loop `do ... while(info.restart)` of `RunLuaScriptFile`. -/
def runLoop (env : Env) : Nat → World → Option World
  | 0, _ => none
  | fuel + 1, w =>
      let run := nextRun w
      let w := prepareRun env w
      -- int errorcode = luaL_dofile(L, filename.c_str());
      match execActions env fuel run.actions w with
      | none => none
      | some (w, raised) =>
        let errorcode := raised || run.errorcode
        let w := { w with info := { w.info with running := false, returned := true } }
        let finished : Option World :=
          if errorcode then
            StopLuaScript env fuel
              { w with info := { w.info with crashed := true }
                       log := w.log ++ [HostEvent.print (cstr "error")] }
          else StopScriptIfFinished env fuel w true
        match finished with
        | none => none
        | some w => if w.info.restart then runLoop env fuel w else some w
/-- The function `RunLuaScriptFile` for a registered context. -/
def RunLuaScriptFile (env : Env) : Nat → World → List Nat → Option World
  | 0, _, _ => none
  | fuel + 1, w, filenameCStr =>
      match StopLuaScript env fuel w with
      | none => none
      | some w =>
        let w := { w with info := { w.info with nextFilename := filenameCStr } }
        if w.info.running then
          some { w with info := { w.info with restart := true } }
        else runLoop env fuel w
end

/-! ## Deferred calls -/

/-- An entry of a deferred-call queue: the C function and the snapshot of its
arguments. -/
structure DeferredCall where
  cf : Nat
  args : List LuaValue

/-- The function `DeferFunctionCall`: the call is stored at index
`lua_objlen + 1` of the queue. -/
def DeferFunctionCall (queue : List DeferredCall) (call : DeferredCall) : List DeferredCall :=
  queue ++ [call]

/-- The loop `for(int i = 1; i <= numCalls; i++)` of `CallDeferredFunctions`, with
`todo = numCalls - i + 1` iterations left.  The C function of entry `i` runs on
the host state `σ` and may defer calls, which `DeferFunctionCall` appends to the
queue.  A missing entry would call a null function pointer: `none`. -/
def CallDeferredFunctions.loop {σ : Type} (cf : DeferredCall → σ → σ × List DeferredCall) :
    Nat → Nat → σ → List DeferredCall → Option (σ × List DeferredCall)
  | 0, _, host, queue => some (host, queue)
  | todo + 1, i, host, queue =>
      match queue.get? (i - 1) with
      | none => none
      | some call =>
          let (host, deferred) := cf call host
          CallDeferredFunctions.loop cf todo (i + 1) host
            (deferred.foldl DeferFunctionCall queue)

/-- The function `CallDeferredFunctions` on one queue: `numCalls` is read once
before the loop, and after the loop the queue is replaced by a new table. -/
def CallDeferredFunctions {σ : Type} (cf : DeferredCall → σ → σ × List DeferredCall)
    (host : σ) (queue : List DeferredCall) : Option (σ × List DeferredCall) :=
  let numCalls := queue.length
  match CallDeferredFunctions.loop cf numCalls 1 host queue with
  | none => none
  | some (host, _) => some (host, [])

/-! ## Concrete inputs and observers used by the theorems -/

/-- Whether a call of `LuaRescueHook` ended by raising. -/
def HookResult.isRaised : HookResult → Bool
  | .returned _ => false
  | .raised _ _ => true

/-- The context record a call of `LuaRescueHook` leaves behind. -/
def HookResult.info : HookResult → LuaContextInfo
  | .returned info => info
  | .raised info _ => info

/-- The file names passed to `luaL_dofile`, in order. -/
def dofileEvents : List HostEvent → List (List Nat)
  | [] => []
  | .luaL_dofile filename :: rest => filename :: dofileEvents rest
  | _ :: rest => dofileEvents rest

/-- A formatter for concrete evaluations. -/
def exampleFormatter : Formatter :=
  { number := fun _ => cstr "1.5", other := fun _ => cstr "userdata:00000000" }

/-- An environment for concrete evaluations: the default Lua stack limit and a
checksum that adds the characters. -/
def exampleEnv : Env :=
  { cstack := 8000, crc32 := fun name => name.sum, fmt := exampleFormatter, next := 1000,
    luaL_where := cstr "script.lua:1: " }

/-- A context as `OpenLuaContext` leaves it. -/
def openedInfo : LuaContextInfo :=
  { L := none, started := false, running := false, returned := false, crashed := false,
    restart := false, restartLater := false, worryCount := 0, stopWorrying := false,
    panic := false, ranExit := false, guiFuncsNeedDeferring := false,
    ranFrameAdvance := false, transparencyModifier := 255, speedMode := .SPEEDMODE_NORMAL,
    panicMessage := [], lastFilename := [], nextFilename := [], dataSaveKey := 0,
    dataLoadKey := 0, dataSaveLoadKeySet := false, rerecordCountingDisabled := false,
    persistVars := [], newDefaultData := [], numMemHooks := 0 }

/-- A context whose script body is running. -/
def runningInfo : LuaContextInfo :=
  { openedInfo with
    L := some { hookcount := HOOKCOUNT, registered := [], globals := [] }
    started := true, running := true, guiFuncsNeedDeferring := true }

/-- The state before any variable was declared. -/
def emptyPersistState : PersistState :=
  { globals := [], persistVars := [], newDefaultData := [] }

mutual
/-- Values whose rendering by `toCStringConverter` does not depend on table
addresses: every table passes the `lua_checkstack` test and is not on the
address stack when it is reached. -/
def printable (cstack : Nat) (addrs : List Nat) (top : Nat) : LuaValue → Bool
  | .table addr arr hash =>
      lua_checkstack cstack top 4 && !(addrs.contains addr)
        && printableList cstack (addr :: addrs) (top + 2) arr
        && printablePairs cstack (addr :: addrs) (top + 2) hash
  | _ => true
/-- Every slot of an array part is printable. -/
def printableList (cstack : Nat) (addrs : List Nat) (top : Nat) : List LuaValue → Bool
  | [] => true
  | v :: rest => printable cstack addrs top v && printableList cstack addrs top rest
/-- Every key and value of a hash part is printable. -/
def printablePairs (cstack : Nat) (addrs : List Nat) (top : Nat) :
    List (LuaValue × LuaValue) → Bool
  | [] => true
  | (k, v) :: rest =>
      printable cstack addrs top k && printable cstack addrs top v
        && printablePairs cstack addrs top rest
end

/-- The function `DeferGUIFuncIfNeeded` for a drawing call of the context: whether
the call was deferred, and the drawing queue afterwards.  The first statement of
the body is `return false;`, so the tests of `speedMode` and
`guiFuncsNeedDeferring` and the call of `DeferFunctionCall` below it are never
reached. -/
def DeferGUIFuncIfNeeded (_info : LuaContextInfo) (lazygui : List DeferredCall)
    (_call : DeferredCall) : Bool × List DeferredCall :=
  (false, lazygui)

/-- A C function for concrete evaluations: it records its number in the host
state, and function 1 defers a call of function 2 while it runs. -/
def exampleDeferring (call : DeferredCall) (host : List Nat) : List Nat × List DeferredCall :=
  (host ++ [call.cf], if call.cf == 1 then [{ cf := 2, args := [] }] else [])

/-- The number of bytes that hold a count: none for zero, one up to 255, two up
to 65535, four above. -/
def countWidth (n : Nat) : Nat :=
  if n = 0 then 0 else if n < 256 then 1 else if n < 65536 then 2 else 4

/-- The islands `Region<maxGap>::Calculate` leaves when the island being built
starts at `start`, the address before was `last`, and `rest` is still to come:
a new island is opened exactly when the loop test `addr < lastEnd || addr >
lastEnd + maxGap` holds.  It describes the result of the loop and is used to
reason about it. -/
def Region.grow (maxGap start last : Nat) : List Nat → List Island
  | [] => [{ start := start, end_ := last + 1 }]
  | addr :: rest =>
      if addr < last + 1 || addr > last + 1 + maxGap then
        { start := start, end_ := last + 1 } :: Region.grow maxGap addr addr rest
      else Region.grow maxGap start addr rest

/-- Whether an address lies in the half-open interval of an island. -/
def Island.covers (i : Island) (address : Nat) : Bool :=
  decide (i.start ≤ address) && decide (address < i.end_)

/-! ## Export and import of records -/

/-- The function `fwriteint`: the four bytes written, least significant first. -/
def fwriteint (value : Nat) : List Nat :=
  let w0 := value &&& 0xFF
  let value := value >>> 8
  let w1 := value &&& 0xFF
  let value := value >>> 8
  let w2 := value &&& 0xFF
  let value := value >>> 8
  let w3 := value &&& 0xFF
  [w0, w1, w2, w3]

/-- An open file being read: the bytes not yet read and the end-of-file
indicator, which a read sets when it asks for more bytes than are left. -/
structure FileStream where
  rest : List Nat
  eof : Bool
  deriving DecidableEq, Repr

/-- The call `fread(buf, size, 1, file)`: the bytes delivered and the stream
afterwards. -/
@[irreducible]
def fread (size : Nat) (file : FileStream) : List Nat × FileStream :=
  if size ≤ file.rest.length then (file.rest.take size, { file with rest := file.rest.drop size })
  else (file.rest, { rest := [], eof := true })

/-- The function `freadint`: each of the four reads stores one byte into `r`,
which stays 0 when nothing is read; the bytes are combined least significant
first and the result is converted to `unsigned int`. -/
@[irreducible]
def freadint (file : FileStream) : Nat × FileStream :=
  let step (i : Nat) : Nat × FileStream → Nat × FileStream
    | (rv, file) =>
      match fread 1 file with
      | (bytes, file) => (rv ||| (bytes.headD 0 <<< (i * 8)), file)
  match step 3 (step 2 (step 1 (step 0 (0, file)))) with
  | (rv, file) => (rv % 2 ^ 32, file)

/-- The method `LuaSaveData::ExportRecords` on an open file: the bytes written.
The field `size` of a record is the length of its data. -/
def LuaSaveData.ExportRecords : LuaSaveData → List Nat
  | [] => []
  | cur :: next =>
      fwriteint cur.key ++ fwriteint cur.data.length ++ cur.data
        ++ LuaSaveData.ExportRecords next

/-- One pass of the loop of `LuaSaveData::ImportRecords`: `none` when the loop is
left at `feof(file) || ferror(file)`, otherwise the record read and the stream
after it.  A record whose data is cut short by the end of the file keeps the
contents `fresh size` of the new buffer of `size` bytes in the bytes that were
not read. -/
def LuaSaveData.importPass (fresh : Nat → List Nat) (file : FileStream) :
    Option (Record × FileStream) :=
  match freadint file with
  | (key, file) =>
    match freadint file with
    | (size, file) =>
      if file.eof then none
      else
        match fread size file with
        | (data, file) =>
          some ({ key := key, data := data ++ ((fresh size).take size).drop data.length }, file)

/-- The loop `while(1)` of `LuaSaveData::ImportRecords`.  Every pass that does
not leave the loop reads eight bytes, so `fuel` passes suffice for a file of
fewer than `8 * fuel` bytes. -/
def LuaSaveData.importLoop (fresh : Nat → List Nat) :
    Nat → FileStream → LuaSaveData → Option LuaSaveData
  | 0, _, _ => none
  | fuel + 1, file, recordList =>
      match LuaSaveData.importPass fresh file with
      | none => some recordList
      | some (cur, file) => LuaSaveData.importLoop fresh fuel file (recordList ++ [cur])

/-- The method `LuaSaveData::ImportRecords` on a file opened for reading:
`ClearRecords` empties the store, then the records of the file are appended. -/
def LuaSaveData.ImportRecords (fresh : Nat → List Nat) (_recordList : LuaSaveData)
    (file : List Nat) : Option LuaSaveData :=
  LuaSaveData.importLoop fresh (file.length / 8 + 1) { rest := file, eof := false } []

/-! ## Dispatch of registered functions -/

def LUACALL_BEFOREEMULATION : Nat := 0
def LUACALL_AFTEREMULATION : Nat := 1
def LUACALL_AFTEREMULATIONGUI : Nat := 2
def LUACALL_BEFORESAVE : Nat := 4
def LUACALL_AFTERLOAD : Nat := 5

/-- The registry keys of the two deferred-call queues. -/
def deferredGUIIDString : List Nat := cstr "lazygui"
def deferredJoySetIDString : List Nat := cstr "lazyjoy"

/-- How the work of a dispatcher on one context ends: it goes on to the next
context, or `luaL_error` leaves the dispatcher through the call of the
interpreter that encloses it. -/
inductive DispatchResult where
  | returned (w : World)
  | raised (w : World)

/-- The function `HandleCallbackError` with `stopScript` set.  The test
`L->errfunc || L->errorJmp` holds exactly while a call into the interpreter of
the context is active, which is while `info.running` is set. -/
def HandleCallbackError_stopScript (env : Env) (fuel : Nat) (w : World) :
    Option DispatchResult :=
  let w := { w with info := { w.info with crashed := true } }
  if w.info.running then some (.raised w)
  else
    let w := { w with log := w.log ++ [HostEvent.print (cstr "error")] }
    match StopLuaScript env fuel w with
    | none => none
    | some w => some (.returned w)

/-- The part of `CallRegisteredLuaFunctions` before the registered function is
looked up: the deferral flag is cleared for the two after-emulation events and
the deferred queues are replayed. -/
def enterDispatch (calltype : Nat) (w : World) : World :=
  let w :=
    if calltype == LUACALL_AFTEREMULATIONGUI || calltype == LUACALL_AFTEREMULATION then
      { w with info := { w.info with guiFuncsNeedDeferring := false } }
    else w
  let w :=
    if calltype == LUACALL_AFTEREMULATIONGUI then
      { w with log := w.log ++
          [HostEvent.ClearLuaGui, HostEvent.CallDeferredFunctions deferredGUIIDString] }
    else w
  if calltype == LUACALL_BEFOREEMULATION then
    { w with log := w.log ++ [HostEvent.CallDeferredFunctions deferredJoySetIDString] }
  else w

/-- The context as a registered function starts: `running` is set and the call
is recorded. -/
def enterCallback (calltype nargs : Nat) (w : World) : World :=
  { w with
    info := { w.info with running := true }
    log := w.log ++ [HostEvent.lua_pcall calltype nargs] }

/-- The end of the work of `CallRegisteredLuaFunctions` on one context. -/
def leaveDispatch (w : World) : World :=
  let w := { w with info := { w.info with guiFuncsNeedDeferring := true } }
  if !w.info.crashed then
    -- lua_settop(L, top);
    if !w.info.panic then { w with info := dontworry w.info } else w
  else w

/-- The body of the loop of `CallRegisteredLuaFunctions` for one context. -/
def dispatchContext (env : Env) (fuel : Nat) (calltype : Nat) (w : World) :
    Option DispatchResult :=
  match w.info.L with
  | none => some (.returned w)
  | some L =>
    if !w.info.panic || calltype == LUACALL_BEFOREEXIT then
      let w := enterDispatch calltype w
      match registeredFunction L calltype with
      | some code =>
          let wasRunning := w.info.running
          match execActions env fuel code (enterCallback calltype 0 w) with
          | none => none
          | some (w, errorcode) =>
              let w := { w with info := { w.info with running := wasRunning } }
              if errorcode then
                match HandleCallbackError_stopScript env fuel w with
                | none => none
                | some (.raised w) => some (.raised w)
                | some (.returned w) => some (.returned (leaveDispatch w))
              else some (.returned (leaveDispatch w))
      | none => some (.returned (leaveDispatch w))
    else some (.returned w)

/-- The function `CallRegisteredLuaFunctions` over the contexts in map order:
the contexts afterwards, and whether the dispatcher was left by an error. -/
def CallRegisteredLuaFunctions (env : Env) (fuel : Nat) (calltype : Nat) :
    List World → Option (List World × Bool)
  | [] => some ([], false)
  | w :: rest =>
      match dispatchContext env fuel calltype w with
      | none => none
      | some (.raised w) => some (w :: rest, true)
      | some (.returned w) =>
          match CallRegisteredLuaFunctions env fuel calltype rest with
          | none => none
          | some (rest, raised) => some (w :: rest, raised)

/-- The method `LuaSaveData::SaveRecord`: the Lua stack of the context is
encoded into a new record and emptied; nothing is stored for a closed
interpreter or an empty stack. -/
def LuaSaveData.SaveRecord (recordList : LuaSaveData) (env : Env) (w : World) (key : Nat)
    (stack : List LuaValue) : LuaSaveData :=
  match w.info.L with
  | none => recordList
  | some _ =>
      match LuaStackToBinary env.cstack stack with
      | none => recordList
      | some data => recordList ++ [{ key := key, data := data }]

/-- The body of the loop of `CallRegisteredLuaSaveFunctions` for one context.
`results` gives the values a save function returns; after an error the stack
holds the error message. -/
def saveContext (env : Env) (fuel : Nat) (results : World → List LuaValue) (w : World)
    (saveData : LuaSaveData) : Option (DispatchResult × LuaSaveData) :=
  match w.info.L with
  | none => some (.returned w, saveData)
  | some L =>
      match registeredFunction L LUACALL_BEFORESAVE with
      | some code =>
          let wasRunning := w.info.running
          match execActions env fuel code (enterCallback LUACALL_BEFORESAVE 1 w) with
          | none => none
          | some (w, errorcode) =>
              let stack := if errorcode then [LuaValue.string (cstr "error")] else results w
              let w := { w with info := { w.info with running := wasRunning } }
              if errorcode then
                match HandleCallbackError_stopScript env fuel w with
                | none => none
                | some (.raised w) => some (.raised w, saveData)
                | some (.returned w) =>
                    some (.returned w, saveData.SaveRecord env w w.info.dataSaveKey stack)
              else some (.returned w, saveData.SaveRecord env w w.info.dataSaveKey stack)
      | none => some (.returned w, saveData)

/-- The function `CallRegisteredLuaSaveFunctions`. -/
def CallRegisteredLuaSaveFunctions (env : Env) (fuel : Nat)
    (results : World → List LuaValue) :
    List World → LuaSaveData → Option (List World × LuaSaveData × Bool)
  | [], saveData => some ([], saveData, false)
  | w :: rest, saveData =>
      match saveContext env fuel results w saveData with
      | none => none
      | some (.raised w, saveData) => some (w :: rest, saveData, true)
      | some (.returned w, saveData) =>
          match CallRegisteredLuaSaveFunctions env fuel results rest saveData with
          | none => none
          | some (rest, saveData, raised) => some (w :: rest, saveData, raised)

/-- The body of the loop of `CallRegisteredLuaLoadFunctions` for one context.
`numparams` is the parameter count of the registered function; the values of
the record are its arguments after the savestate number. -/
def loadContext (env : Env) (fuel : Nat) (numparams : LuaState → Nat) (w : World)
    (saveData : LuaSaveData) : Option DispatchResult :=
  match w.info.L with
  | none => some (.returned w)
  | some L =>
      match registeredFunction L LUACALL_AFTERLOAD with
      | some code =>
          let wasRunning := w.info.running
          let numParamsExpected := numparams L
          let numParamsExpected :=
            if numParamsExpected != 0 then numParamsExpected - 1 else numParamsExpected
          match saveData.LoadRecord env.next w.info.dataLoadKey numParamsExpected with
          | .error _ => none
          | .ok loaded =>
              let n := loaded.length + 1
              match execActions env fuel code (enterCallback LUACALL_AFTERLOAD n w) with
              | none => none
              | some (w, errorcode) =>
                  let w := { w with info := { w.info with running := wasRunning } }
                  if errorcode then HandleCallbackError_stopScript env fuel w
                  else some (.returned w)
      | none => some (.returned w)

/-- The function `CallRegisteredLuaLoadFunctions`. -/
def CallRegisteredLuaLoadFunctions (env : Env) (fuel : Nat) (numparams : LuaState → Nat)
    (saveData : LuaSaveData) : List World → Option (List World × Bool)
  | [] => some ([], false)
  | w :: rest =>
      match loadContext env fuel numparams w saveData with
      | none => none
      | some (.raised w) => some (w :: rest, true)
      | some (.returned w) =>
          match CallRegisteredLuaLoadFunctions env fuel numparams saveData rest with
          | none => none
          | some (rest, raised) => some (w :: rest, raised)

/-- The call ids of the registered functions that were called, in order. -/
def pcallEvents : List HostEvent → List Nat
  | [] => []
  | .lua_pcall calltype _ :: rest => calltype :: pcallEvents rest
  | _ :: rest => pcallEvents rest

/-- A context that was asked to abort between two callbacks: the interpreter is
live, the panic flag is set and the probe countdown is 1.  Its script has
registered a function for the before-save and the after-load event, each of
which reaches the probe at once. -/
def abortingWorld : World :=
  { info := { runningInfo with
      running := false
      returned := true
      panic := true
      L := some { hookcount := 1
                  registered := [(LUACALL_BEFORESAVE, [ScriptAction.probe]),
                                 (LUACALL_AFTERLOAD, [ScriptAction.probe]),
                                 (LUACALL_AFTEREMULATION, [ScriptAction.probe])]
                  globals := [] } }
    log := [], defaultsFile := none, exitFile := none, runs := [] }

/-- A context whose script has returned and left an exit function registered,
which reaches the probe once. -/
def exitWorld : World :=
  { info := { runningInfo with
      running := false
      returned := true
      L := some { hookcount := HOOKCOUNT
                  registered := [(LUACALL_BEFOREEXIT, [ScriptAction.probe])]
                  globals := [] } }
    log := [], defaultsFile := none, exitFile := none, runs := [] }

/-- A context between two frames: the interpreter is live, the deferral flag is
set, no abort is requested, and the script has registered a function for the
after-emulation event. -/
def dispatchWorld : World :=
  { info := { runningInfo with
      running := false
      returned := true
      L := some { hookcount := HOOKCOUNT
                  registered := [(LUACALL_AFTEREMULATION, [ScriptAction.probe])]
                  globals := [] } }
    log := [], defaultsFile := none, exitFile := none, runs := [] }

/-! ## Registering memory hooks -/

/-- The address-to-callback table of one hook kind in the registry of a script:
the addresses that hold a function, each with the function. -/
abbrev MemHookTable := List (Nat × Nat)

/-- The call `lua_rawgeti(L, -1, i)` on a hook table: the function at address
`i`, if the slot holds one. -/
def lua_rawgeti (table : MemHookTable) (i : Nat) : Option Nat :=
  (table.find? (fun e => e.1 == i)).map (fun e => e.2)

/-- The call `lua_rawseti(L, -2, i)` on a hook table: the slot is overwritten,
and storing nil empties it. -/
def lua_rawseti (table : MemHookTable) (value : Option Nat) (i : Nat) : MemHookTable :=
  let table := table.filter (fun e => e.1 != i)
  match value with
  | none => table
  | some f => (i, f) :: table

/-- The values of `i` in `for(unsigned int i = addr; i != addr+size; i++)` for a
size that is not negative. -/
def hookRange (addr size : Nat) : List Nat :=
  (List.range size).map (fun k => (addr + k) % 2 ^ 32)

/-- The arguments of a call of `memory.register...`: the address, the optional
size, and the callback (`none` for nil, which clears the hooks). -/
structure HookArgs where
  address : Int
  size : Option Int
  callback : Option Nat

/-- The part of `memory_registerHook` that reads the optional size argument:
the size and the first address of the range.  A negative size counts downwards
from the address.  The result is `none` when the size is `INT_MIN`, whose
negation overflows. -/
def hookExtent (defaultSize : Int) (addr : Nat) (size : Option Int) : Option (Int × Nat) :=
  match size with
  | none => some (defaultSize, addr)
  | some s =>
      let size := toSigned 32 (toUnsigned 32 s)
      if size < 0 then
        if size = -2147483648 then none
        else some (-size, toUnsigned 32 ((addr : Int) - (-size)))
      else some (size, addr)

/-- The function `memory_registerHook`, called by script code of the context.
`tables` are the hook tables of the registry by hook kind. -/
def memory_registerHook (env : Env) (fuel : Nat) (w : World) (tables : Nat → MemHookTable)
    (hookType : Nat) (defaultSize : Int) (args : HookArgs) :
    Option (World × (Nat → MemHookTable)) :=
  -- get first argument: address
  let addr := toUnsigned 32 args.address
  let addr := if addr &&& 0xFF000000 == 0xFF000000 then addr &&& 0xFFFFFF else addr
  -- get optional second argument: size
  match hookExtent defaultSize addr args.size with
  | none => none
  | some (size, addr) =>
    let clearing := args.callback.isNone
    let table := tables hookType
    -- count how many callback functions we'll be displacing
    let numFuncsAfter : Int := if clearing then 0 else size
    let numFuncsBefore : Int :=
      ((hookRange addr size.toNat).countP (fun i => (lua_rawgeti table i).isSome) : Nat)
    -- put the callback function in the address slots
    let table := (hookRange addr size.toNat).foldl (fun t i => lua_rawseti t args.callback i) table
    let tables := Function.update tables hookType table
    -- adjust the count of active hooks
    let w := { w with info := { w.info with
      numMemHooks := ((w.info.numMemHooks : Int) + (numFuncsAfter - numFuncsBefore)).toNat } }
    -- re-cache regions of hooked memory across all scripts
    let w := { w with log := w.log ++ [HostEvent.CalculateMemHookRegions hookType] }
    match StopScriptIfFinished env fuel w false with
    | none => none
    | some w => some (w, if w.info.L.isNone then fun _ => [] else tables)

/-- A sequence of calls of `memory_registerHook`, each with its hook kind and
default size. -/
def registerHooks (env : Env) (fuel : Nat) :
    List (Nat × Int × HookArgs) → World → (Nat → MemHookTable) →
      Option (World × (Nat → MemHookTable))
  | [], w, tables => some (w, tables)
  | (hookType, defaultSize, args) :: rest, w, tables =>
      match memory_registerHook env fuel w tables hookType defaultSize args with
      | none => none
      | some (w, tables) => registerHooks env fuel rest w tables

/-- The number of addresses that hold a callback, over all hook kinds. -/
def hookedAddresses (tables : Nat → MemHookTable) : Nat :=
  ((List.range LUAMEMHOOK_COUNT).map (fun k => (tables k).length)).sum

/-- Four calls for concrete evaluations: a write hook on four addresses, a
second one on an overlapping range given by a negative size, a read hook with
the default size, and the clearing of one address. -/
def exampleHookCalls : List (Nat × Int × HookArgs) :=
  [(0, 1, { address := 0x7E0010, size := some 4, callback := some 1 }),
   (0, 1, { address := 0x7E0012, size := some (-4), callback := some 2 }),
   (1, 1, { address := 5, size := none, callback := some 3 }),
   (0, 1, { address := 0x7E0011, size := some 1, callback := none })]

/-- A context whose script body is running, with its surroundings. -/
def runningWorld : World :=
  { info := runningInfo, log := [], defaultsFile := none, exitFile := none, runs := [] }

/-! ## The encoder on the heap of the interpreter -/

/-- A Lua value as the interpreter holds it: a table is a reference to an
object of the heap, so a table can contain itself. -/
inductive Ref where
  | nil
  | boolean (b : Bool)
  | lightuserdata (p : Nat)
  | integer (n : Int)
  | double (payload : List Nat)
  | string (s : List Nat)
  | table (addr : Nat)
  | func (p : Nat)
  | userdata (p : Nat)
  | thread (p : Nat)

/-- A table object of the heap: its address (`lua_topointer`), the slots
`1 .. lua_objlen` and the pairs `lua_next` yields after them. -/
structure HeapTable where
  addr : Nat
  arr : List Ref
  hash : List (Ref × Ref)

/-- The table objects of an interpreter. -/
abbrev Heap := List HeapTable

/-- The table object at an address; an address without an object in the list
is a table without entries. -/
def Heap.lookup (heap : Heap) (addr : Nat) : HeapTable :=
  (heap.find? (fun t => t.addr == addr)).getD { addr := addr, arr := [], hash := [] }

/-- A value that is not a table. -/
def Ref.leaf : Ref → Option LuaValue
  | .nil => some .nil
  | .boolean b => some (.boolean b)
  | .lightuserdata p => some (.lightuserdata p)
  | .integer n => some (.integer n)
  | .double payload => some (.double payload)
  | .string s => some (.string s)
  | .table _ => none
  | .func p => some (.func p)
  | .userdata p => some (.userdata p)
  | .thread p => some (.thread p)

/-- The test `lua_isnil` on a slot of a heap table. -/
def Ref.lua_isnil : Ref → Bool
  | .nil => true
  | _ => false

/-- The array loop of the table case over the slots of a heap table.  `conv` is
the recursive call of `LuaStackToBinaryConverter`; the vector
`s_tableAddressStack` is passed through, `nilcount` and `wasnil` are the loop
variables.  `none` is a recursive call that did not return. -/
def arrayLoop (conv : List Nat → Nat → Ref → Option (List Nat × List Nat)) (top : Nat) :
    List Nat → Nat → Bool → List Ref → Option (List Nat × List Nat)
  | addrs, nilcount, wasnil, [] => some (if wasnil then PushNils nilcount else [], addrs)
  | addrs, nilcount, wasnil, v :: rest =>
      if v.lua_isnil then arrayLoop conv top addrs (nilcount + 1) true rest
      else
        match conv addrs (top + 1) v with
        | none => none
        | some (bytes, s1) =>
            match arrayLoop conv top s1 (if wasnil then 0 else nilcount) false rest with
            | none => none
            | some (more, s2) =>
                some ((if wasnil then PushNils nilcount else []) ++ (bytes ++ more), s2)

/-- The `lua_next` loop of the table case over the pairs of a heap table, key
and value both on the stack while they are encoded. -/
def hashLoop (conv : List Nat → Nat → Ref → Option (List Nat × List Nat)) (top : Nat) :
    List Nat → List (Ref × Ref) → Option (List Nat × List Nat)
  | addrs, [] => some ([], addrs)
  | addrs, (k, v) :: rest =>
      match conv addrs (top + 2) k with
      | none => none
      | some (keyBytes, s1) =>
          match conv s1 (top + 2) v with
          | none => none
          | some (valueBytes, s2) =>
              match hashLoop conv top s2 rest with
              | none => none
              | some (more, s3) => some (keyBytes ++ (valueBytes ++ more), s3)

/-- The function `LuaStackToBinaryConverter` on a value of the heap: the bytes
appended to `output` and the vector `s_tableAddressStack` on return.  The head
of `addrs` is the back of the vector, so `push_back` is a cons and the
`pop_back` of `~Scope` is `tail`.  Each unit of fuel allows one level of
nested calls; `none` is a call that did not return within the fuel.  Nothing
but the test of the source stops the descent into a table. -/
def heapConverter (heap : Heap) (cstack : Nat) :
    Nat → List Nat → Nat → Ref → Option (List Nat × List Nat)
  | 0, _, _, _ => none
  | fuel + 1, addrs, top, ref =>
      match ref with
      | .table addr =>
          if lua_checkstack cstack top 4 && !(addrs.contains addr) then
            match arrayLoop (heapConverter heap cstack fuel) top (addr :: addrs) 0 false
                (heap.lookup addr).arr with
            | none => none
            | some (arrayBytes, s1) =>
                match hashLoop (heapConverter heap cstack fuel) top s1
                    (heap.lookup addr).hash with
                | none => none
                | some (hashBytes, s2) =>
                    let arraySize := (heap.lookup addr).arr.length
                    let hashSize := (heap.lookup addr).hash.length
                    let outputType := tableOutputType arraySize hashSize
                    some (outputType :: (tableCountBytes outputType arraySize hashSize
                      ++ (arrayBytes ++ hashBytes)), s2.tail)
          else some ([tableOutputType 0 0], addrs)
      | ref => ref.leaf.map (fun v => (LuaStackToBinaryConverter cstack addrs top v, addrs))

/-- A heap with one table that holds itself in its first slot. -/
def selfReferential : Heap := [{ addr := 1, arr := [Ref.table 1], hash := [] }]

/-- A heap with two tables that hold each other; the second also holds a
number, itself, and the first once more under a string key. -/
def mutualTables : Heap :=
  [{ addr := 1, arr := [Ref.table 2], hash := [] },
   { addr := 2, arr := [Ref.integer 7, Ref.table 1, Ref.table 2],
     hash := [(Ref.string [97], Ref.table 1)] }]

end LuaEngine

/-! # Theorems -/

namespace LuaEngine

/-! ## Codec: arithmetic of masks, counts and integers -/
theorem and_mask (u k m : Nat) : u &&& ((2 ^ m - 1) <<< k) = ((u >>> k) % 2 ^ m) <<< k := by
  apply Nat.eq_of_testBit_eq
  intro i
  simp only [Nat.testBit_and, Nat.testBit_shiftLeft, Nat.testBit_two_pow_sub_one,
    Nat.testBit_mod_two_pow, Nat.testBit_shiftRight]
  by_cases h : k ≤ i
  · simp [h, Bool.and_comm]
  · simp [h]
theorem and_FF (u : Nat) : u &&& 0xFF = u % 256 := by
  simpa using and_mask u 0 8
theorem and_FFFF (u : Nat) : u &&& 0xFFFF = u % 65536 := by
  simpa using and_mask u 0 16
theorem and_FF00 (u : Nat) : u &&& 0xFF00 = u / 256 % 256 * 256 := by
  simpa [Nat.shiftLeft_eq, Nat.shiftRight_eq_div_pow] using and_mask u 8 8
theorem and_FF0000 (u : Nat) : u &&& 0x00FF0000 = u / 65536 % 256 * 65536 := by
  simpa [Nat.shiftLeft_eq, Nat.shiftRight_eq_div_pow] using and_mask u 16 8
theorem and_FF000000 (u : Nat) : u &&& 0xFF000000 = u / 16777216 % 256 * 16777216 := by
  simpa [Nat.shiftLeft_eq, Nat.shiftRight_eq_div_pow] using and_mask u 24 8
theorem and_FFFF0000 (u : Nat) : u &&& 0xFFFF0000 = u / 65536 % 65536 * 65536 := by
  simpa [Nat.shiftLeft_eq, Nat.shiftRight_eq_div_pow] using and_mask u 16 16
theorem and_FFFFFF00 (u : Nat) : u &&& 0xFFFFFF00 = u / 256 % 16777216 * 256 := by
  simpa [Nat.shiftLeft_eq, Nat.shiftRight_eq_div_pow] using and_mask u 8 24

theorem or_shift (a b k : Nat) (h : a < 2 ^ k) : a ||| (b <<< k) = a + b * 2 ^ k := by
  rw [Nat.shiftLeft_eq, Nat.lor_comm, Nat.mul_comm, ← Nat.mul_add_lt_is_or h]
  omega


theorem toUnsigned32_eq (n : Int) : toUnsigned 32 n = (n % 4294967296).toNat := by
  unfold toUnsigned; norm_num

theorem toUnsigned16_eq (n : Int) : toUnsigned 16 n = (n % 65536).toNat := by
  unfold toUnsigned; norm_num

theorem toSigned16_eq (x : Nat) :
    toSigned 16 x = if x % 65536 < 32768 then ((x % 65536 : Nat) : Int)
      else ((x % 65536 : Nat) : Int) - 65536 := by
  unfold toSigned; norm_num

theorem toSigned32_eq (x : Nat) :
    toSigned 32 x = if x % 4294967296 < 2147483648 then ((x % 4294967296 : Nat) : Int)
      else ((x % 4294967296 : Nat) : Int) - 4294967296 := by
  unfold toSigned; norm_num

theorem integerType_cases (n : Int) (hlo : -2147483648 ≤ n) (hhi : n ≤ 2147483647) :
    integerType n =
      if 0 ≤ n ∧ n ≤ 255 then LUAEXT_TBYTE
      else if 0 ≤ n ∧ n ≤ 65535 then LUAEXT_TUSHORT
      else if -32768 ≤ n ∧ n < 0 then LUAEXT_TSHORT
      else LUAEXT_TLONG := by
  unfold integerType
  simp only [toUnsigned32_eq, and_FFFFFF00, and_FFFF, toSigned16_eq, beq_iff_eq]
  split_ifs <;> first | rfl | omega


theorem length_bytesLE (k x : Nat) : (bytesLE k x).length = k := by
  induction k generalizing x with
  | zero => rfl
  | succ k ih => simp [bytesLE, ih]

theorem fromLE_bytesLE (k x : Nat) : fromLE (bytesLE k x) = x % 256 ^ k := by
  induction k generalizing x with
  | zero => simp [bytesLE, fromLE, Nat.mod_one]
  | succ k ih =>
    simp only [bytesLE, fromLE, ih]
    rw [pow_succ, Nat.mul_comm (256 ^ k) 256, Nat.mod_mul]

theorem AdvanceByteStream_append (bs rest : List Nat) :
    AdvanceByteStream bs.length (bs ++ rest) = .ok (bs, rest) := by
  simp [AdvanceByteStream]

theorem AdvanceByteStream_push (k : Nat) (n : Int) (rest : List Nat) :
    AdvanceByteStream k (PushBinaryItem k n ++ rest) = .ok (PushBinaryItem k n, rest) := by
  have h := AdvanceByteStream_append (PushBinaryItem k n) rest
  rwa [show (PushBinaryItem k n).length = k from length_bytesLE _ _] at h

theorem AdvanceByteStream_one (b : Nat) (data : List Nat) :
    AdvanceByteStream 1 (b :: data) = .ok ([b], data) := by
  simp [AdvanceByteStream]

theorem fromLE_push_ushort (n : Int) (h0 : 0 ≤ n) (h1 : n ≤ 65535) :
    ((fromLE (PushBinaryItem 2 n) : Nat) : Int) = n := by
  rw [PushBinaryItem, fromLE_bytesLE, toUnsigned16_eq]
  omega

theorem fromLE_push_short (n : Int) (h0 : -32768 ≤ n) (h1 : n ≤ 32767) :
    toSigned 16 (fromLE (PushBinaryItem 2 n)) = n := by
  rw [PushBinaryItem, fromLE_bytesLE, toUnsigned16_eq, toSigned16_eq]
  split_ifs <;> omega

theorem fromLE_push_long (n : Int) (h0 : -2147483648 ≤ n) (h1 : n ≤ 2147483647) :
    toSigned 32 (fromLE (PushBinaryItem 4 n)) = n := by
  rw [PushBinaryItem, fromLE_bytesLE, toUnsigned32_eq, toSigned32_eq]
  split_ifs <;> omega

theorem fromLE_single (b : Nat) : fromLE [b] = b := by simp [fromLE]

theorem decode_integer (n : Int) (hlo : -2147483648 ≤ n) (hhi : n ≤ 2147483647)
    (fuel next : Nat) (rest : List Nat) :
    BinaryToLuaStackConverter (fuel + 1) next (encodeInteger n ++ rest)
      = .ok (some (.integer n), next, rest) := by
  unfold encodeInteger
  rw [integerType_cases n hlo hhi]
  by_cases c1 : 0 ≤ n ∧ n ≤ 255
  · simp only [if_pos c1]
    have e : ((toUnsigned 32 n % 256 : Nat) : Int) = n := by rw [toUnsigned32_eq]; omega
    simp [BinaryToLuaStackConverter, AdvanceByteStream_one, fromLE_single, LUAEXT_TBYTE, LUAEXT_TLONG,
      LUAEXT_TUSHORT, LUAEXT_TSHORT, LUA_TNIL, LUA_TBOOLEAN, LUA_TSTRING, LUA_TNUMBER, e]
  · simp only [if_neg c1]
    by_cases c2 : 0 ≤ n ∧ n ≤ 65535
    · simp only [if_pos c2]
      simp [BinaryToLuaStackConverter, AdvanceByteStream_one, AdvanceByteStream_push,
        fromLE_push_ushort n c2.1 c2.2, fromLE_single, LUAEXT_TBYTE, LUAEXT_TLONG,
        LUAEXT_TUSHORT, LUAEXT_TSHORT, LUA_TNIL, LUA_TBOOLEAN, LUA_TSTRING, LUA_TNUMBER]
    · simp only [if_neg c2]
      by_cases c3 : -32768 ≤ n ∧ n < 0
      · simp only [if_pos c3]
        simp [BinaryToLuaStackConverter, AdvanceByteStream_one, AdvanceByteStream_push,
          fromLE_push_short n c3.1 (by omega), fromLE_single, LUAEXT_TBYTE, LUAEXT_TLONG,
          LUAEXT_TUSHORT, LUAEXT_TSHORT, LUA_TNIL, LUA_TBOOLEAN, LUA_TSTRING, LUA_TNUMBER]
      · simp only [if_neg c3]
        simp [BinaryToLuaStackConverter, AdvanceByteStream_one, AdvanceByteStream_push,
          fromLE_push_long n hlo hhi, fromLE_single, LUAEXT_TBYTE, LUAEXT_TLONG,
          LUAEXT_TUSHORT, LUAEXT_TSHORT, LUA_TNIL, LUA_TBOOLEAN, LUA_TSTRING, LUA_TNUMBER]


theorem widthCode_lt (n : Nat) : widthCode n < 4 := by
  unfold widthCode; split_ifs <;> omega

theorem or_hbits : ∀ a < 4, (64 + a) ||| 12 = 64 + a + 12 ∧ (64 + a) ||| 8 = 64 + a + 8
    ∧ (64 + a) ||| 4 = 64 + a + 4 := by
  decide

theorem abits_eq (A : Nat) (hA : A < 4294967296) :
    (if (A &&& 0xFFFF0000) != 0 then LUAEXT_TTABLE ||| LUAEXT_BITS_4A
      else if (A &&& 0xFF00) != 0 then LUAEXT_TTABLE ||| LUAEXT_BITS_2A
      else if (A &&& 0xFF) != 0 then LUAEXT_TTABLE ||| LUAEXT_BITS_1A
      else LUAEXT_TTABLE) = 64 + widthCode A := by
  unfold widthCode
  simp only [and_FFFF0000, and_FF00, and_FF, bne_iff_ne, ne_eq, LUAEXT_TTABLE,
    LUAEXT_BITS_1A, LUAEXT_BITS_2A, LUAEXT_BITS_4A]
  have e3 : 64 ||| 3 = 64 + 3 := by decide
  have e2 : 64 ||| 2 = 64 + 2 := by decide
  have e1 : 64 ||| 1 = 64 + 1 := by decide
  rw [e3, e2, e1]
  split_ifs <;> omega

theorem hbits_eq (o H : Nat) (ho : o < 68) (ho2 : 64 ≤ o) (hH : H < 4294967296) :
    (if (H &&& 0xFFFF0000) != 0 then o ||| LUAEXT_BITS_4H
      else if (H &&& 0xFF00) != 0 then o ||| LUAEXT_BITS_2H
      else if (H &&& 0xFF) != 0 then o ||| LUAEXT_BITS_1H
      else o) = o + 4 * widthCode H := by
  have key : ∀ a < 4, (64 + a) ||| 12 = 64 + a + 12 ∧ (64 + a) ||| 8 = 64 + a + 8
    ∧ (64 + a) ||| 4 = 64 + a + 4 := by decide
  obtain ⟨k12, k8, k4⟩ := key (o - 64) (by omega)
  have eo : 64 + (o - 64) = o := by omega
  rw [eo] at k12 k8 k4
  unfold widthCode
  simp only [and_FFFF0000, and_FF00, and_FF, bne_iff_ne, ne_eq,
    LUAEXT_BITS_1H, LUAEXT_BITS_2H, LUAEXT_BITS_4H]
  rw [k12, k8, k4]
  split_ifs <;> omega

theorem tableOutputType_eq (A H : Nat) (hA : A < 4294967296) (hH : H < 4294967296) :
    tableOutputType A H = 64 + widthCode A + 4 * widthCode H := by
  unfold tableOutputType
  simp only [abits_eq A hA]
  exact hbits_eq _ H (by have := widthCode_lt A; omega) (by omega) hH

theorem bitmatch_table : ∀ a < 4, ∀ h < 4,
    BITMATCH (64 + a + 4 * h) 3 = decide (a = 3) ∧ BITMATCH (64 + a + 4 * h) 2 = decide (2 ≤ a)
    ∧ BITMATCH (64 + a + 4 * h) 1 = decide (a = 1 ∨ a = 3)
    ∧ BITMATCH (64 + a + 4 * h) 12 = decide (h = 3) ∧ BITMATCH (64 + a + 4 * h) 8 = decide (2 ≤ h)
    ∧ BITMATCH (64 + a + 4 * h) 4 = decide (h = 1 ∨ h = 3) := by
  decide

theorem count_bytes_value (n : Nat) :
    (n &&& 0xFF) = n % 256 ∧ ((n &&& 0xFF00) >>> 8) = n / 256 % 256
    ∧ ((n &&& 0x00FF0000) >>> 16) = n / 65536 % 256
    ∧ ((n &&& 0xFF000000) >>> 24) = n / 16777216 % 256 := by
  refine ⟨and_FF n, ?_, ?_, ?_⟩
  · rw [and_FF00, Nat.shiftRight_eq_div_pow]; norm_num
  · rw [and_FF0000, Nat.shiftRight_eq_div_pow]; norm_num
  · rw [and_FF000000, Nat.shiftRight_eq_div_pow]; norm_num

theorem or_bytes (b0 b1 b2 b3 : Nat) (h0 : b0 < 256) (h1 : b1 < 256) (h2 : b2 < 256) :
    (b0 ||| (b1 <<< 8)) = b0 + 256 * b1
    ∧ ((((b0 + 256 * b1) ||| (b2 <<< 16)) ||| (b3 <<< 24))
      = b0 + 256 * b1 + 65536 * b2 + 16777216 * b3) := by
  have e1 : (b0 ||| (b1 <<< 8)) = b0 + 256 * b1 := by
    rw [or_shift b0 b1 8 (by norm_num; omega)]; norm_num; omega
  have e2 : ((b0 + 256 * b1) ||| (b2 <<< 16)) = b0 + 256 * b1 + 65536 * b2 := by
    rw [or_shift _ b2 16 (by norm_num; omega)]; norm_num; omega
  have e3 : ((b0 + 256 * b1 + 65536 * b2) ||| (b3 <<< 24))
      = b0 + 256 * b1 + 65536 * b2 + 16777216 * b3 := by
    rw [or_shift _ b3 24 (by norm_num; omega)]; norm_num; omega
  rw [e1, e2, e3]
  exact ⟨rfl, rfl⟩

theorem readCount_spec (type b1 b2 b4 n : Nat) (rest : List Nat) (hn : n < 4294967296)
    (h4 : BITMATCH type b4 = decide (65536 ≤ n))
    (h2 : BITMATCH type b2 = decide (256 ≤ n))
    (h1 : BITMATCH type b1 = decide (65536 ≤ n ∨ (1 ≤ n ∧ n < 256))) :
    readCount type b1 b2 b4
      ((if BITMATCH type b4 || BITMATCH type b2 || BITMATCH type b1 then [n &&& 0xFF] else [])
        ++ ((if BITMATCH type b4 || BITMATCH type b2 then [(n &&& 0xFF00) >>> 8] else [])
        ++ ((if BITMATCH type b4
            then [(n &&& 0x00FF0000) >>> 16, (n &&& 0xFF000000) >>> 24] else []) ++ rest)))
      = .ok (n, rest) := by
  obtain ⟨c0, c1, c2, c3⟩ := count_bytes_value n
  obtain ⟨o1, o3⟩ := or_bytes (n % 256) (n / 256 % 256) (n / 65536 % 256)
    (n / 16777216 % 256) (by omega) (by omega) (by omega)
  unfold readCount
  rw [h4, h2, h1, c0, c1, c2, c3]
  by_cases r4 : 65536 ≤ n
  · have r2 : 256 ≤ n := by omega
    simp [r4, r2, AdvanceByteStream_one, fromLE_single, o3, o1]
    omega
  · by_cases r2 : 256 ≤ n
    · simp [r4, r2, AdvanceByteStream_one, fromLE_single, o1]
      omega
    · by_cases r1 : 1 ≤ n
      · have r1' : n < 256 := by omega
        simp [r4, r2, r1, r1', AdvanceByteStream_one, fromLE_single]
      · have r1' : ¬ (1 ≤ n ∧ n < 256) := by omega
        simp [r4, r2, r1']
        try omega

theorem widthCode_facts (n : Nat) :
    decide (widthCode n = 3) = decide (65536 ≤ n)
    ∧ decide (2 ≤ widthCode n) = decide (256 ≤ n)
    ∧ decide (widthCode n = 1 ∨ widthCode n = 3) = decide (65536 ≤ n ∨ (1 ≤ n ∧ n < 256)) := by
  unfold widthCode
  split_ifs <;> simp <;> omega

theorem readTableHeader_spec (A H : Nat) (hA : A < 4294967296) (hH : H < 4294967296)
    (rest : List Nat) :
    readTableHeader (tableOutputType A H)
      (tableCountBytes (tableOutputType A H) A H ++ rest) = .ok (A, H, rest) := by
  obtain ⟨a4, a2, a1, g4, g2, g1⟩ :=
    bitmatch_table (widthCode A) (widthCode_lt A) (widthCode H) (widthCode_lt H)
  rw [← tableOutputType_eq A H hA hH] at a4 a2 a1 g4 g2 g1
  obtain ⟨wa4, wa2, wa1⟩ := widthCode_facts A
  obtain ⟨wh4, wh2, wh1⟩ := widthCode_facts H
  rw [wa4] at a4; rw [wa2] at a2; rw [wa1] at a1
  rw [wh4] at g4; rw [wh2] at g2; rw [wh1] at g1
  unfold readTableHeader tableCountBytes
  simp only [List.append_assoc]
  rw [show LUAEXT_BITS_4A = 3 from rfl, show LUAEXT_BITS_2A = 2 from rfl,
    show LUAEXT_BITS_1A = 1 from rfl, show LUAEXT_BITS_4H = 12 from rfl,
    show LUAEXT_BITS_2H = 8 from rfl, show LUAEXT_BITS_1H = 4 from rfl]
  rw [readCount_spec _ 1 2 3 A _ hA a4 a2 a1]
  simp only
  rw [readCount_spec _ 4 8 12 H _ hH g4 g2 g1]

theorem set_replicate_self (a : LuaValue) (m j : Nat) :
    (List.replicate m a).set j a = List.replicate m a := by
  induction m generalizing j with
  | zero => simp
  | succ m ih =>
    cases j with
    | zero => simp [List.replicate_succ]
    | succ j => simp [List.replicate_succ, ih]

theorem set_append_replicate_self (q : List LuaValue) (a : LuaValue) (m j : Nat) :
    (q ++ List.replicate m a).set (q.length + j) a = q ++ List.replicate m a := by
  induction q with
  | nil => simp [set_replicate_self]
  | cons x q ih =>
    have e : (x :: q).length + j = (q.length + j) + 1 := by simp; omega
    rw [e]
    simp [ih]

theorem set_append_replicate_head (q : List LuaValue) (a v : LuaValue) (m : Nat) :
    (q ++ List.replicate (m + 1) a).set q.length v = (q ++ [v]) ++ List.replicate m a := by
  induction q with
  | nil => simp [List.replicate_succ]
  | cons x q ih => simp [ih]

theorem conv_nil (fuel next : Nat) (data : List Nat) :
    BinaryToLuaStackConverter (fuel + 1) next (LUA_TNIL :: data) = .ok (some .nil, next, data) := by
  simp [BinaryToLuaStackConverter, AdvanceByteStream_one, fromLE_single, LUA_TNIL]

theorem decodeArrayPart_done (fuel next : Nat) (data : List Nat) (n total : Nat)
    (arr : List LuaValue) (h : total < n) :
    decodeArrayPart (fuel + 1) next data n total arr = .ok (arr, next, data) := by
  have hn : ¬ n ≤ total := by omega
  cases data <;> simp only [decodeArrayPart, if_neg hn]

theorem decodeArrayPart_value (fuel next b : Nat) (tl : List Nat) (n total : Nat)
    (arr : List LuaValue) (h : n ≤ total) (hb : b ≠ LUAEXT_TNILS) :
    decodeArrayPart (fuel + 1) next (b :: tl) n total arr =
      match BinaryToLuaStackConverter fuel next (b :: tl) with
      | .error e => .error e
      | .ok (none, _, _) => .error .stackMisuse
      | .ok (some v, next', data) =>
        decodeArrayPart fuel next' data ((n + 1) % 2 ^ 32) total (arr.set (n - 1) v) := by
  simp only [decodeArrayPart, if_pos h, beq_iff_eq, if_neg hb]

theorem decodeArrayPart_nils (fuel next : Nat) (tl : List Nat) (n total : Nat)
    (arr : List LuaValue) (h : n ≤ total) :
    decodeArrayPart (fuel + 1) next (LUAEXT_TNILS :: tl) n total arr =
      match AdvanceByteStream 4 tl with
      | .error e => .error e
      | .ok (bs, data) =>
        decodeArrayPart fuel next data ((n + fromLE bs) % 2 ^ 32) total arr := by
  simp only [decodeArrayPart, if_pos h, beq_self_eq_true, if_true, AdvanceByteStream_one]

theorem decode_nil_bytes (k : Nat) : ∀ (fuel next : Nat) (data : List Nat) (n total : Nat)
    (arr : List LuaValue), 1 ≤ fuel → 1 ≤ n → n + k ≤ total + 1 → total + 1 < 4294967296 →
    (∀ j, j < k → arr.set (n - 1 + j) .nil = arr) →
    decodeArrayPart (fuel + k) next (List.replicate k LUA_TNIL ++ data) n total arr
      = decodeArrayPart fuel next data (n + k) total arr := by
  induction k with
  | zero => intros; rfl
  | succ k ih =>
    intro fuel next data n total arr hf hn hle htot hset
    obtain ⟨f, rfl⟩ : ∃ f, fuel = f + 1 := ⟨fuel - 1, by omega⟩
    have hlt : n ≤ total := by omega
    have h0 := hset 0 (by omega)
    simp only [Nat.add_zero] at h0
    have e1 : (n + 1) % 2 ^ 32 = n + 1 := Nat.mod_eq_of_lt (by norm_num; omega)
    rw [show f + 1 + (k + 1) = (f + k + 1) + 1 from by omega]
    rw [List.replicate_succ, List.cons_append]
    rw [decodeArrayPart_value _ _ _ _ _ _ _ hlt (by decide), conv_nil]
    simp only [e1, h0]
    have := ih (f + 1) next data (n + 1) total arr (by omega) (by omega) (by omega) htot
      (by
        intro j hj
        have := hset (j + 1) (by omega)
        rwa [show n - 1 + (j + 1) = n + 1 - 1 + j from by omega] at this)
    rw [show f + 1 + k = f + k + 1 from by omega] at this
    rw [show n + (k + 1) = n + 1 + k from by omega]
    exact this

theorem decode_PushNils (k : Nat) (hk : 1 ≤ k) (next : Nat) (data : List Nat) (n total : Nat)
    (arr : List LuaValue) (hn : 1 ≤ n) (hle : n + k ≤ total + 1) (htot : total + 1 < 4294967296)
    (hset : ∀ j, j < k → arr.set (n - 1 + j) .nil = arr) :
    ∃ c, 1 ≤ c ∧ c ≤ (PushNils k).length ∧ ∀ fuel, 1 ≤ fuel →
      decodeArrayPart (fuel + c) next (PushNils k ++ data) n total arr
        = decodeArrayPart fuel next data (n + k) total arr := by
  by_cases h6 : k < 6
  · refine ⟨k, hk, ?_, ?_⟩
    · simp [PushNils, h6]
    · intro fuel hf
      have := decode_nil_bytes k fuel next data n total arr hf hn hle htot hset
      simpa [PushNils, h6] using this
  · refine ⟨1, le_refl 1, ?_, ?_⟩
    · simp [PushNils, h6]
    · intro fuel _
      have e : PushNils k = LUAEXT_TNILS :: PushBinaryItem 4 k := by simp [PushNils, h6]
      have ek : fromLE (PushBinaryItem 4 (k : Int)) = k := by
        rw [PushBinaryItem, fromLE_bytesLE, toUnsigned32_eq]
        omega
      rw [e, List.cons_append, decodeArrayPart_nils _ _ _ _ _ _ (by omega),
        AdvanceByteStream_push]
      simp only [ek]
      rw [Nat.mod_eq_of_lt (by norm_num; omega)]

theorem readCString_spec (s rest : List Nat)
    (h : s.all (fun c => c != 0 && decide (c < 256)) = true) :
    readCString ((s.takeWhile (fun c => c != 0)).map (fun c => c % 256) ++ [0] ++ rest)
      = .ok (s, rest) := by
  induction s with
  | nil => simp [readCString]
  | cons c s ih =>
    simp only [List.all_cons, Bool.and_eq_true, bne_iff_ne, ne_eq, decide_eq_true_eq] at h
    obtain ⟨⟨hc0, hc⟩, hs⟩ := h
    have ih' := ih hs
    have e : c % 256 = c := Nat.mod_eq_of_lt hc
    simp only [List.takeWhile_cons, bne_iff_ne, ne_eq, hc0, not_false_eq_true, decide_True,
      if_true, List.map_cons, e, List.cons_append, readCString, beq_iff_eq, if_false]
    simp only [List.append_assoc, List.singleton_append, bne_iff_ne, ne_eq] at ih' ⊢
    rw [ih']

theorem conv_table (t fuel next : Nat) (data : List Nat) (h1 : 64 ≤ t) (h2 : t ≤ 79) :
    BinaryToLuaStackConverter (fuel + 1) next (t :: data) =
      match readTableHeader t data with
      | .error e => .error e
      | .ok (arraySize, hashSize, data) =>
        match decodeArrayPart fuel (next + 1) data 1 arraySize
            (List.replicate arraySize .nil) with
        | .error e => .error e
        | .ok (arr, next', data) =>
          match decodeHashPart fuel next' data 1 hashSize [] with
          | .error e => .error e
          | .ok (hash, next'', data) => .ok (some (.table next arr hash), next'', data) := by
  have e79 : (LUAEXT_TTABLE ||| LUAEXT_BITS_4A ||| LUAEXT_BITS_4H) = 79 := by decide
  simp only [BinaryToLuaStackConverter, AdvanceByteStream_one, fromLE_single, e79]
  have n0 : (t == LUA_TNIL) = false := by simp [LUA_TNIL]; omega
  have n1 : (t == LUA_TBOOLEAN) = false := by simp [LUA_TBOOLEAN]; omega
  have n2 : (t == LUA_TSTRING) = false := by simp [LUA_TSTRING]; omega
  have n3 : (t == LUA_TNUMBER) = false := by simp [LUA_TNUMBER]; omega
  have n4 : (t == LUAEXT_TLONG) = false := by simp [LUAEXT_TLONG]; omega
  have n5 : (t == LUAEXT_TUSHORT) = false := by simp [LUAEXT_TUSHORT]; omega
  have n6 : (t == LUAEXT_TSHORT) = false := by simp [LUAEXT_TSHORT]; omega
  have n7 : (t == LUAEXT_TBYTE) = false := by simp [LUAEXT_TBYTE]; omega
  have y : (decide (LUAEXT_TTABLE ≤ t) && decide (t ≤ 79)) = true := by
    simp [LUAEXT_TTABLE]; omega
  simp only [n0, n1, n2, n3, n4, n5, n6, n7, y, if_true, Bool.false_eq_true, if_false]

theorem lua_isnil_eraseAddr (a b : LuaValue) (h : eraseAddr a = eraseAddr b) :
    lua_isnil a = lua_isnil b := by
  cases a <;> cases b <;> simp [eraseAddr, lua_isnil] at h ⊢

theorem encode_head (cstack : Nat) (addrs : List Nat) (top : Nat) (v : LuaValue)
    (hs : supported cstack addrs top v = true) :
    ∃ b tl, LuaStackToBinaryConverter cstack addrs top v = b :: tl ∧ b ≠ LUAEXT_TNILS := by
  cases v with
  | nil => exact ⟨_, _, rfl, by decide⟩
  | boolean b => exact ⟨_, _, rfl, by decide⟩
  | double p => exact ⟨_, _, rfl, by decide⟩
  | string s =>
    exact ⟨LUA_TSTRING, (s.takeWhile (fun c => c != 0)).map (fun c => c % 256) ++ [0],
      by simp [LuaStackToBinaryConverter], by decide⟩
  | integer n =>
    simp only [supported, Bool.and_eq_true, decide_eq_true_eq] at hs
    refine ⟨integerType n, (encodeInteger n).tail, ?_, ?_⟩
    · simp only [LuaStackToBinaryConverter, encodeInteger]
      split_ifs <;> rfl
    · rw [integerType_cases n hs.1 hs.2]
      split_ifs <;> decide
  | table addr arr hash =>
    simp only [supported, Bool.and_eq_true, decide_eq_true_eq] at hs
    obtain ⟨⟨⟨⟨⟨hchk, hnot⟩, hal⟩, hhl⟩, _⟩, _⟩ := hs
    have hg : (lua_checkstack cstack top 4 && !(addrs.contains addr)) = true := by
      rw [hchk, hnot]; rfl
    refine ⟨tableOutputType arr.length hash.length,
      tableCountBytes (tableOutputType arr.length hash.length) arr.length hash.length
        ++ (encodeArrayPart cstack (addr :: addrs) top 0 false arr
        ++ encodeHashPart cstack (addr :: addrs) top hash), ?_, ?_⟩
    · simp only [LuaStackToBinaryConverter, hg, if_true]
    · rw [tableOutputType_eq _ _ (by omega) (by omega)]
      simp only [LUAEXT_TNILS]
      omega
  | lightuserdata p => simp [supported] at hs
  | func p => simp [supported] at hs
  | userdata p => simp [supported] at hs
  | thread p => simp [supported] at hs

mutual
theorem conv_roundtrip (cstack : Nat) : ∀ (v : LuaValue) (addrs : List Nat)
    (top fuel next : Nat) (rest : List Nat),
    supported cstack addrs top v = true →
    2 * (LuaStackToBinaryConverter cstack addrs top v).length ≤ fuel →
    ∃ v' next', BinaryToLuaStackConverter fuel next
        (LuaStackToBinaryConverter cstack addrs top v ++ rest) = .ok (some v', next', rest)
      ∧ eraseAddr v' = eraseAddr v
  | .nil, addrs, top, fuel, next, rest, _, hf => by
    simp only [LuaStackToBinaryConverter, List.length_singleton] at hf
    obtain ⟨f, rfl⟩ : ∃ f, fuel = f + 1 := ⟨fuel - 1, by omega⟩
    exact ⟨.nil, next, by simp [LuaStackToBinaryConverter, conv_nil], rfl⟩
  | .boolean b, addrs, top, fuel, next, rest, _, hf => by
    simp only [LuaStackToBinaryConverter, List.length_cons] at hf
    obtain ⟨f, rfl⟩ : ∃ f, fuel = f + 1 := ⟨fuel - 1, by omega⟩
    refine ⟨.boolean b, next, ?_, rfl⟩
    cases b <;>
      simp [LuaStackToBinaryConverter, BinaryToLuaStackConverter, AdvanceByteStream_one,
        fromLE_single, LUA_TNIL, LUA_TBOOLEAN]
  | .double p, addrs, top, fuel, next, rest, hs, hf => by
    simp only [LuaStackToBinaryConverter, List.length_cons] at hf
    obtain ⟨f, rfl⟩ : ∃ f, fuel = f + 1 := ⟨fuel - 1, by omega⟩
    simp only [supported, Bool.and_eq_true, beq_iff_eq] at hs
    have h8 := AdvanceByteStream_append p rest
    rw [hs.1] at h8
    refine ⟨.double p, next, ?_, rfl⟩
    simp [LuaStackToBinaryConverter, BinaryToLuaStackConverter, AdvanceByteStream_one,
      fromLE_single, LUA_TNIL, LUA_TBOOLEAN, LUA_TSTRING, LUA_TNUMBER, h8]
  | .string s, addrs, top, fuel, next, rest, hs, hf => by
    simp only [LuaStackToBinaryConverter, List.length_cons, List.length_append] at hf
    obtain ⟨f, rfl⟩ : ∃ f, fuel = f + 1 := ⟨fuel - 1, by omega⟩
    simp only [supported] at hs
    have hstr := readCString_spec s rest hs
    simp only [List.append_assoc, List.singleton_append] at hstr
    refine ⟨.string s, next, ?_, rfl⟩
    simp only [LuaStackToBinaryConverter, List.cons_append]
    simp [BinaryToLuaStackConverter, AdvanceByteStream_one,
      fromLE_single, LUA_TNIL, LUA_TBOOLEAN, LUA_TSTRING, hstr]
  | .integer n, addrs, top, fuel, next, rest, hs, hf => by
    simp only [supported, Bool.and_eq_true, decide_eq_true_eq] at hs
    have hlen : 1 ≤ (LuaStackToBinaryConverter cstack addrs top (.integer n)).length := by
      simp only [LuaStackToBinaryConverter, encodeInteger]
      split_ifs <;> simp
    obtain ⟨f, rfl⟩ : ∃ f, fuel = f + 1 := ⟨fuel - 1, by omega⟩
    exact ⟨.integer n, next, by
      simp only [LuaStackToBinaryConverter]; exact decode_integer n hs.1 hs.2 f next rest, rfl⟩
  | .table addr arr hash, addrs, top, fuel, next, rest, hs, hf => by
    simp only [supported, Bool.and_eq_true, decide_eq_true_eq] at hs
    obtain ⟨⟨⟨⟨⟨hchk, hnot⟩, hal⟩, hhl⟩, hsa⟩, hsh⟩ := hs
    have hg : (lua_checkstack cstack top 4 && !(addrs.contains addr)) = true := by
      rw [hchk, hnot]; rfl
    have henc : LuaStackToBinaryConverter cstack addrs top (.table addr arr hash)
        = tableOutputType arr.length hash.length ::
          (tableCountBytes (tableOutputType arr.length hash.length) arr.length hash.length
            ++ (encodeArrayPart cstack (addr :: addrs) top 0 false arr
            ++ encodeHashPart cstack (addr :: addrs) top hash)) := by
      simp only [LuaStackToBinaryConverter, hg, if_true]
    rw [henc] at hf ⊢
    simp only [List.length_cons, List.length_append] at hf
    obtain ⟨f, rfl⟩ : ∃ f, fuel = f + 1 := ⟨fuel - 1, by omega⟩
    have hA : arr.length < 4294967296 := by omega
    have hH : hash.length < 4294967296 := by omega
    have ht := tableOutputType_eq arr.length hash.length hA hH
    have hwa := widthCode_lt arr.length
    have hwh := widthCode_lt hash.length
    rw [List.cons_append, conv_table _ _ _ _ (by omega) (by omega)]
    rw [List.append_assoc, readTableHeader_spec _ _ hA hH]
    simp only
    obtain ⟨arr', next1, hdec1, herase1⟩ := arr_roundtrip cstack arr (addr :: addrs) top f
      (next + 1) (encodeHashPart cstack (addr :: addrs) top hash ++ rest) 0 false []
      arr.length hsa (by simp) (by simp) (by simp) (by omega) (by omega)
    simp only [List.length_nil, Nat.zero_add, List.nil_append, List.replicate_zero] at hdec1
    rw [List.append_assoc, hdec1]
    simp only
    obtain ⟨hash', next2, hdec2, herase2⟩ := hash_roundtrip cstack hash (addr :: addrs) top f
      next1 rest [] hash.length hsh (by simp) (by omega) (by omega)
    simp only [List.length_nil, Nat.zero_add, List.nil_append] at hdec2
    rw [hdec2]
    exact ⟨.table next arr' hash', next2, rfl, by simp [eraseAddr, herase1, herase2]⟩
  | .lightuserdata p, _, _, _, _, _, hs, _ => by simp [supported] at hs
  | .func p, _, _, _, _, _, hs, _ => by simp [supported] at hs
  | .userdata p, _, _, _, _, _, hs, _ => by simp [supported] at hs
  | .thread p, _, _, _, _, _, hs, _ => by simp [supported] at hs
theorem arr_roundtrip (cstack : Nat) : ∀ (l : List LuaValue) (addrs : List Nat)
    (top fuel next : Nat) (rest : List Nat) (k : Nat) (w : Bool) (q : List LuaValue)
    (total : Nat),
    supportedList cstack addrs (top + 1) l = true → (w = true → 1 ≤ k) → (w = false → k = 0) →
    total = q.length + k + l.length → total + 1 < 4294967296 →
    2 * (encodeArrayPart cstack addrs top k w l).length + 1 ≤ fuel →
    ∃ l' next', decodeArrayPart fuel next (encodeArrayPart cstack addrs top k w l ++ rest)
        (q.length + 1) total (q ++ List.replicate (k + l.length) .nil)
          = .ok (q ++ List.replicate k .nil ++ l', next', rest)
      ∧ eraseAddrList l' = eraseAddrList l
  | [], addrs, top, fuel, next, rest, k, w, q, total, _, hw1, hw0, htot, hlt, hf => by
    simp only [List.length_nil, Nat.add_zero] at htot ⊢
    cases w with
    | false =>
      have hk : k = 0 := hw0 rfl
      subst hk
      obtain ⟨f, rfl⟩ : ∃ f, fuel = f + 1 := ⟨fuel - 1, by omega⟩
      refine ⟨[], next, ?_, rfl⟩
      simp only [encodeArrayPart, Bool.false_eq_true, if_false, List.nil_append,
        List.replicate_zero, List.append_nil]
      rw [decodeArrayPart_done _ _ _ _ _ _ (by omega)]
    | true =>
      have hk : 1 ≤ k := hw1 rfl
      obtain ⟨c, hc1, hc2, hstep⟩ := decode_PushNils k hk next rest (q.length + 1) total
        (q ++ List.replicate k .nil) (by omega) (by omega) hlt
        (by
          intro j hj
          rw [show q.length + 1 - 1 + j = q.length + j from by omega]
          exact set_append_replicate_self q .nil k j)
      simp only [encodeArrayPart, if_true] at hf ⊢
      obtain ⟨f, rfl⟩ : ∃ f, fuel = f + 1 + c := ⟨fuel - 1 - c, by omega⟩
      refine ⟨[], next, ?_, rfl⟩
      rw [hstep (f + 1) (by omega), decodeArrayPart_done _ _ _ _ _ _ (by omega)]
      simp
  | v :: l, addrs, top, fuel, next, rest, k, w, q, total, hs, hw1, hw0, htot, hlt, hf => by
    simp only [supportedList, Bool.and_eq_true] at hs
    obtain ⟨hsv, hsl⟩ := hs
    simp only [List.length_cons] at htot ⊢
    by_cases hnil : lua_isnil v = true
    · have hv : v = .nil := by cases v <;> simp_all [lua_isnil]
      subst hv
      have henc : encodeArrayPart cstack addrs top k w (.nil :: l)
          = encodeArrayPart cstack addrs top (k + 1) true l := by
        simp [encodeArrayPart, lua_isnil]
      rw [henc] at hf ⊢
      obtain ⟨l', next', hdec, her⟩ := arr_roundtrip cstack l addrs top fuel next rest (k + 1)
        true q total hsl (by intro _; omega) (by intro h; cases h) (by omega) hlt hf
      refine ⟨.nil :: l', next', ?_, by simp [eraseAddrList, eraseAddr, her]⟩
      rw [show k + (l.length + 1) = k + 1 + l.length from by omega, hdec]
      simp [List.replicate_succ', List.append_assoc]
    · have step : ∀ (q' : List LuaValue) (f nxt : Nat), total = q'.length + (l.length + 1) →
          2 * ((LuaStackToBinaryConverter cstack addrs (top + 1) v).length
            + (encodeArrayPart cstack addrs top 0 false l).length) + 1 ≤ f →
          ∃ v' l' next', decodeArrayPart f nxt
              (LuaStackToBinaryConverter cstack addrs (top + 1) v
                ++ (encodeArrayPart cstack addrs top 0 false l ++ rest))
              (q'.length + 1) total (q' ++ List.replicate (l.length + 1) .nil)
                = .ok (q' ++ v' :: l', next', rest)
            ∧ eraseAddr v' = eraseAddr v ∧ eraseAddrList l' = eraseAddrList l := by
        intro q' f nxt htot' hf'
        obtain ⟨b, tl, hb, hne⟩ := encode_head cstack addrs (top + 1) v hsv
        have hlen : 1 ≤ (LuaStackToBinaryConverter cstack addrs (top + 1) v).length := by
          rw [hb]; simp
        obtain ⟨f0, rfl⟩ : ∃ f0, f = f0 + 1 := ⟨f - 1, by omega⟩
        obtain ⟨v', next1, hconv, herv⟩ := conv_roundtrip cstack v addrs (top + 1) f0 nxt
          (encodeArrayPart cstack addrs top 0 false l ++ rest) hsv (by omega)
        obtain ⟨l', next2, hdec, herl⟩ := arr_roundtrip cstack l addrs top f0 next1 rest 0
          false (q' ++ [v']) total hsl (by intro h; cases h) (by intro _; rfl)
          (by simp; omega) hlt (by omega)
        refine ⟨v', l', next2, ?_, herv, herl⟩
        have hval := decodeArrayPart_value f0 nxt b (tl ++ (encodeArrayPart cstack addrs top 0
          false l ++ rest)) (q'.length + 1) total (q' ++ List.replicate (l.length + 1) .nil)
          (by omega) hne
        rw [hb, List.cons_append] at hconv ⊢
        rw [hval, hconv]
        simp only
        rw [show q'.length + 1 - 1 = q'.length from by omega, set_append_replicate_head,
          Nat.mod_eq_of_lt (by norm_num; omega)]
        simp only [List.length_append, List.length_singleton, Nat.zero_add,
          List.replicate_zero, List.append_nil] at hdec
        rw [hdec]
        simp
      have hv : lua_isnil v = false := by simpa using hnil
      cases w with
      | false =>
        have hk : k = 0 := hw0 rfl
        subst hk
        have henc : encodeArrayPart cstack addrs top 0 false (v :: l)
            = LuaStackToBinaryConverter cstack addrs (top + 1) v
              ++ encodeArrayPart cstack addrs top 0 false l := by
          simp [encodeArrayPart, hv]
        rw [henc] at hf ⊢
        simp only [List.length_append] at hf
        obtain ⟨v', l', next', hdec, herv, herl⟩ := step q fuel next (by omega) (by omega)
        refine ⟨v' :: l', next', ?_, by simp [eraseAddrList, herv, herl]⟩
        rw [List.append_assoc, Nat.zero_add, hdec]
        simp
      | true =>
        have hk : 1 ≤ k := hw1 rfl
        have henc : encodeArrayPart cstack addrs top k true (v :: l)
            = PushNils k ++ (LuaStackToBinaryConverter cstack addrs (top + 1) v
              ++ encodeArrayPart cstack addrs top 0 false l) := by
          simp [encodeArrayPart, hv]
        rw [henc] at hf ⊢
        simp only [List.length_append] at hf
        obtain ⟨c, hc1, hc2, hstep⟩ := decode_PushNils k hk next
          (LuaStackToBinaryConverter cstack addrs (top + 1) v
              ++ (encodeArrayPart cstack addrs top 0 false l ++ rest)) (q.length + 1) total
          (q ++ List.replicate (k + (l.length + 1)) .nil) (by omega) (by omega) hlt
          (by
            intro j hj
            rw [show q.length + 1 - 1 + j = q.length + j from by omega]
            exact set_append_replicate_self q .nil _ j)
        obtain ⟨f, rfl⟩ : ∃ f, fuel = f + c := ⟨fuel - c, by omega⟩
        obtain ⟨v', l', next', hdec, herv, herl⟩ := step (q ++ List.replicate k .nil) f next
          (by simp; omega) (by omega)
        refine ⟨v' :: l', next', ?_, by simp [eraseAddrList, herv, herl]⟩
        rw [List.append_assoc, List.append_assoc, hstep f (by omega)]
        simp only [List.length_append, List.length_replicate, List.append_assoc] at hdec
        rw [List.replicate_add, show q.length + 1 + k = q.length + k + 1 from by omega, hdec]
        simp
theorem hash_roundtrip (cstack : Nat) : ∀ (l : List (LuaValue × LuaValue)) (addrs : List Nat)
    (top fuel next : Nat) (rest : List Nat) (acc : List (LuaValue × LuaValue)) (total : Nat),
    supportedPairs cstack addrs (top + 2) l = true →
    total = acc.length + l.length → total + 1 < 4294967296 →
    2 * (encodeHashPart cstack addrs top l).length + 1 ≤ fuel →
    ∃ l' next', decodeHashPart fuel next (encodeHashPart cstack addrs top l ++ rest)
        (acc.length + 1) total acc = .ok (acc ++ l', next', rest)
      ∧ eraseAddrPairs l' = eraseAddrPairs l
  | [], addrs, top, fuel, next, rest, acc, total, _, htot, hlt, hf => by
    simp only [List.length_nil, Nat.add_zero] at htot
    obtain ⟨f, rfl⟩ : ∃ f, fuel = f + 1 := ⟨fuel - 1, by omega⟩
    refine ⟨[], next, ?_, rfl⟩
    simp only [encodeHashPart, List.nil_append, decodeHashPart,
      if_neg (show ¬ acc.length + 1 ≤ total by omega), List.append_nil]
  | (k, v) :: l, addrs, top, fuel, next, rest, acc, total, hs, htot, hlt, hf => by
    simp only [supportedPairs, Bool.and_eq_true, Bool.not_eq_true'] at hs
    obtain ⟨⟨⟨⟨hk, hv⟩, hsk⟩, hsv⟩, hsl⟩ := hs
    simp only [List.length_cons] at htot
    simp only [encodeHashPart, List.length_append] at hf ⊢
    obtain ⟨f, rfl⟩ : ∃ f, fuel = f + 1 := ⟨fuel - 1, by omega⟩
    obtain ⟨_, _, hbk, _⟩ := encode_head cstack addrs (top + 2) k hsk
    obtain ⟨_, _, hbv, _⟩ := encode_head cstack addrs (top + 2) v hsv
    have hlk : 1 ≤ (LuaStackToBinaryConverter cstack addrs (top + 2) k).length := by
      rw [hbk]; simp
    have hlv : 1 ≤ (LuaStackToBinaryConverter cstack addrs (top + 2) v).length := by
      rw [hbv]; simp
    obtain ⟨k', next1, hconvk, herk⟩ := conv_roundtrip cstack k addrs (top + 2) f next
      (LuaStackToBinaryConverter cstack addrs (top + 2) v
        ++ (encodeHashPart cstack addrs top l ++ rest)) hsk (by omega)
    obtain ⟨v', next2, hconvv, herv⟩ := conv_roundtrip cstack v addrs (top + 2) f next1
      (encodeHashPart cstack addrs top l ++ rest) hsv (by omega)
    obtain ⟨l', next3, hdec, herl⟩ := hash_roundtrip cstack l addrs top f next2 rest
      (acc ++ [(k', v')]) total hsl (by simp; omega) hlt (by omega)
    have hk' : lua_isnil k' = false := by rw [lua_isnil_eraseAddr k' k herk]; exact hk
    have hv' : lua_isnil v' = false := by rw [lua_isnil_eraseAddr v' v herv]; exact hv
    refine ⟨(k', v') :: l', next3, ?_, by simp [eraseAddrPairs, herk, herv, herl]⟩
    simp only [List.append_assoc]
    simp only [decodeHashPart, if_pos (show acc.length + 1 ≤ total by omega), hconvk, hconvv,
      lua_rawset, hk', hv', Bool.false_eq_true, if_false]
    rw [Nat.mod_eq_of_lt (by norm_num; omega)]
    simp only [List.length_append, List.length_singleton] at hdec
    rw [hdec]
    simp
end

theorem eraseAddrList_eq_map (l : List LuaValue) : eraseAddrList l = l.map eraseAddr := by
  induction l with
  | nil => rfl
  | cons v l ih => simp [eraseAddrList, ih]

theorem supportedList_of_forall (cstack : Nat) (addrs : List Nat) (top : Nat)
    (l : List LuaValue) (h : ∀ v ∈ l, supported cstack addrs top v = true) :
    supportedList cstack addrs top l = true := by
  induction l with
  | nil => rfl
  | cons v l ih =>
    simp only [supportedList, Bool.and_eq_true]
    exact ⟨h v (List.mem_cons_self v l), ih (fun x hx => h x (List.mem_cons_of_mem v hx))⟩

theorem stack_roundtrip (cstack top : Nat) : ∀ (l : List LuaValue) (fuel next items : Nat)
    (pushed : List LuaValue), supportedList cstack [] top l = true → l.length ≤ items →
    2 * (encodeStack cstack top l).length + 1 ≤ fuel →
    ∃ l', decodeStack fuel next (encodeStack cstack top l) items pushed = .ok (pushed ++ l')
      ∧ eraseAddrList l' = eraseAddrList l := by
  intro l
  induction l with
  | nil =>
    intro fuel next items pushed _ _ hf
    obtain ⟨f, rfl⟩ : ∃ f, fuel = f + 1 := ⟨fuel - 1, by omega⟩
    exact ⟨[], by simp [encodeStack, decodeStack], rfl⟩
  | cons v l ih =>
    intro fuel next items pushed hs hitems hf
    simp only [supportedList, Bool.and_eq_true] at hs
    simp only [List.length_cons] at hitems
    simp only [encodeStack, List.length_append] at hf ⊢
    obtain ⟨b, tl, hb, _⟩ := encode_head cstack [] top v hs.1
    have hlen : 1 ≤ (LuaStackToBinaryConverter cstack [] top v).length := by rw [hb]; simp
    obtain ⟨f, rfl⟩ : ∃ f, fuel = f + 1 := ⟨fuel - 1, by omega⟩
    obtain ⟨v', next1, hconv, herv⟩ := conv_roundtrip cstack v [] top f next
      (encodeStack cstack top l) hs.1 (by omega)
    obtain ⟨l', hdec, herl⟩ := ih f next1 (items - 1) (pushed ++ [v']) hs.2 (by omega) (by omega)
    refine ⟨v' :: l', ?_, by simp [eraseAddrList, herv, herl]⟩
    have hpos : ((LuaStackToBinaryConverter cstack [] top v ++ encodeStack cstack top l).length > 0
        && items > 0) = true := by
      simp only [List.length_append, gt_iff_lt, Bool.and_eq_true, decide_eq_true_eq]
      omega
    simp only [decodeStack, hpos, if_true, hconv, hdec]
    simp

/-- C1: a non-empty list of supported values survives `LuaStackToBinary` followed by
`BinaryToLuaStack` with an item cap that does not cut the list. -/
theorem codec_round_trip (cstack : Nat) (stack : List LuaValue) (next itemsToLoad : Nat)
    (hne : stack ≠ [])
    (hs : ∀ v ∈ stack, supported cstack [] stack.length v = true)
    (hitems : stack.length ≤ itemsToLoad) :
    ∃ bytes decoded, LuaStackToBinary cstack stack = some bytes
      ∧ BinaryToLuaStack next bytes itemsToLoad = .ok decoded
      ∧ decoded.map eraseAddr = stack.map eraseAddr := by
  have hlen : ¬ stack.length = 0 := by
    intro h; exact hne (List.length_eq_zero.mp h)
  obtain ⟨l', hdec, her⟩ := stack_roundtrip cstack stack.length stack
    (2 * (encodeStack cstack stack.length stack).length + 2) next itemsToLoad []
    (supportedList_of_forall _ _ _ _ hs) hitems (by omega)
  refine ⟨luaBinaryMajorVersion :: luaBinaryMinorVersion :: encodeStack cstack stack.length stack,
    l', ?_, ?_, ?_⟩
  · simp [LuaStackToBinary, hlen]
  · simp only [BinaryToLuaStack, bne_self_eq_false, Bool.or_self, Bool.false_eq_true, if_false]
    simpa using hdec
  · rw [← eraseAddrList_eq_map, ← eraseAddrList_eq_map, her]

theorem codec_round_trip_witness :
    ∃ bytes decoded, LuaStackToBinary 8000 exampleStack = some bytes
      ∧ BinaryToLuaStack 100 bytes 4294967295 = .ok decoded
      ∧ decoded.map eraseAddr = exampleStack.map eraseAddr :=
  codec_round_trip 8000 exampleStack 100 4294967295 (by simp [exampleStack]) (by decide)
    (by decide)


/-! ## Hook regions and the watchdog probe -/

/-- C2 (defect of the code): a single context hooks address 0x7E0010.  The broad island
contains the one-byte access at that address, yet the full check
`TieredRegion::Contains` answers false, because `Region::Contains` of the two
finer tiers always returns false. -/
theorem tiered_contains_false_negative :
    CalculateMemHookRegions [⟨1, true, [(0x7E0010, true)]⟩]
        = some ⟨[⟨0x7E0010, 0x7E0011⟩], [⟨0x7E0010, 0x7E0011⟩], [⟨0x7E0010, 0x7E0011⟩]⟩
      ∧ Island.Contains ⟨0x7E0010, 0x7E0011⟩ 0x7E0010 1 = true
      ∧ TieredRegion.Contains
          ⟨[⟨0x7E0010, 0x7E0011⟩], [⟨0x7E0010, 0x7E0011⟩], [⟨0x7E0010, 0x7E0011⟩]⟩ 0x7E0010 1
        = some false
      ∧ CallRegisteredLuaMemHook
          ⟨[⟨0x7E0010, 0x7E0011⟩], [⟨0x7E0010, 0x7E0011⟩], [⟨0x7E0010, 0x7E0011⟩]⟩ 0x7E0010 1
        = some false := by
  decide

/-- C6: after `RequestAbortLuaScript` on a context with a live interpreter, the next call
of `LuaRescueHook` raises, with the panic message as its message, whatever the worry
count and the stop-worrying latch. -/
theorem abort_honoured_at_next_probe (env : Env) (info : LuaContextInfo)
    (message : Option (List Nat)) (hL : info.L.isSome = true) :
    ∃ info', LuaRescueHook (RequestAbortLuaScript env info message)
        = .raised info' (RequestAbortLuaScript env info message).panicMessage
      ∧ info'.panic = true := by
  obtain ⟨L, hL'⟩ := Option.isSome_iff_exists.mp hL
  simp [RequestAbortLuaScript, hL', LuaRescueHook]

theorem abort_honoured_at_next_probe_witness :
    ∃ info', LuaRescueHook (RequestAbortLuaScript exampleEnv
          { runningInfo with worryCount := 17, stopWorrying := true } none)
        = .raised info' (RequestAbortLuaScript exampleEnv
          { runningInfo with worryCount := 17, stopWorrying := true } none).panicMessage
      ∧ info'.panic = true :=
  abort_honoured_at_next_probe exampleEnv
    { runningInfo with worryCount := 17, stopWorrying := true } none (by decide)

/-- C7 (as stated, refuted): with no abort requested and the latch clear, a probe that takes
the worry count from 6000 to 6001 returns normally; it sets the latch and clears the
count. -/
theorem worry_threshold_does_not_raise :
    (LuaRescueHook { runningInfo with worryCount := 6000 }).isRaised = false
      ∧ (LuaRescueHook { runningInfo with worryCount := 6000 }).info.stopWorrying = true
      ∧ (LuaRescueHook { runningInfo with worryCount := 6000 }).info.worryCount = 0 := by
  decide

/-- C7 (amended): with no abort requested `LuaRescueHook` never raises; when the latch is
clear and the incremented worry count exceeds `MAX_WORRY_COUNT`, it returns with the count
reset to zero, the stop-worrying latch set and the panic flag clear. -/
theorem worry_threshold_sets_latch (info : LuaContextInfo) (hp : info.panic = false) :
    (LuaRescueHook info).isRaised = false
      ∧ (info.stopWorrying = false → MAX_WORRY_COUNT < (info.worryCount + 1) % 2 ^ 32 →
          (LuaRescueHook info).info.worryCount = 0
            ∧ (LuaRescueHook info).info.stopWorrying = true
            ∧ (LuaRescueHook info).info.panic = false) := by
  constructor
  · simp only [LuaRescueHook, hp]
    split_ifs <;> simp_all [HookResult.isRaised]
  · intro hs hw
    have hw' : MAX_WORRY_COUNT < (info.worryCount + 1) % 4294967296 := by simpa using hw
    simp [LuaRescueHook, hp, hs, hw', HookResult.info]

theorem worry_threshold_sets_latch_witness :
    (LuaRescueHook { runningInfo with worryCount := 6000 }).isRaised = false
      ∧ (({ runningInfo with worryCount := 6000 } : LuaContextInfo).stopWorrying = false →
          MAX_WORRY_COUNT
            < (({ runningInfo with worryCount := 6000 } : LuaContextInfo).worryCount + 1) % 2 ^ 32 →
          (LuaRescueHook { runningInfo with worryCount := 6000 }).info.worryCount = 0
            ∧ (LuaRescueHook { runningInfo with worryCount := 6000 }).info.stopWorrying = true
            ∧ (LuaRescueHook { runningInfo with worryCount := 6000 }).info.panic = false) :=
  worry_threshold_sets_latch { runningInfo with worryCount := 6000 } (by decide)


/-! ## Stopping a running script and replaying deferred calls -/

/-- C9: `StopLuaScript` on a running context with a live interpreter only requests the
abort: the probe countdown is set to 1, the panic flag and the panic message are set, and
every other field of the context, the log of host effects (so the exit function is not
called), the persistence files and the interpreter handle are unchanged. -/
theorem stop_running_only_requests_abort (env : Env) (fuel : Nat) (w : World) (L : LuaState)
    (hrun : w.info.running = true) (hL : w.info.L = some L) :
    StopLuaScript env (fuel + 1) w
      = some { w with info := { w.info with
          L := some { L with hookcount := 1 }
          panic := true
          panicMessage := (env.luaL_where ++ cstr "script terminated").take 71 } } := by
  simp [StopLuaScript, hrun, RequestAbortLuaScript, hL]

theorem stop_running_only_requests_abort_witness :
    StopLuaScript exampleEnv (0 + 1)
        ⟨runningInfo, [], none, none, []⟩
      = some { (⟨runningInfo, [], none, none, []⟩ : World) with info :=
          { (⟨runningInfo, [], none, none, []⟩ : World).info with
          L := some { (⟨HOOKCOUNT, [], []⟩ : LuaState) with hookcount := 1 }
          panic := true
          panicMessage := (exampleEnv.luaL_where ++ cstr "script terminated").take 71 } } :=
  stop_running_only_requests_abort exampleEnv 0 ⟨runningInfo, [], none, none, []⟩
    ⟨HOOKCOUNT, [], []⟩ rfl rfl

theorem deferred_loop (σ : Type) (cf : DeferredCall → σ → σ × List DeferredCall) :
    ∀ (l pre extra : List DeferredCall) (host : σ),
      ∃ extra', CallDeferredFunctions.loop cf l.length (pre.length + 1) host (pre ++ l ++ extra)
        = some (l.foldl (fun s c => (cf c s).1) host, pre ++ l ++ extra') := by
  intro l
  induction l with
  | nil => intro pre extra host; exact ⟨extra, rfl⟩
  | cons c l ih =>
    intro pre extra host
    have hget : (pre ++ c :: l ++ extra).get? (pre.length + 1 - 1) = some c := by
      rw [Nat.add_sub_cancel, List.append_assoc, List.get?_eq_getElem?,
        List.getElem?_append_right (Nat.le_refl _)]
      simp
    obtain ⟨extra', h⟩ := ih (pre ++ [c]) (extra ++ (cf c host).2) (cf c host).1
    refine ⟨extra', ?_⟩
    simp only [List.length_cons, CallDeferredFunctions.loop, hget]
    have hq : List.foldl DeferFunctionCall (pre ++ c :: l ++ extra) (cf c host).2
        = pre ++ [c] ++ l ++ (extra ++ (cf c host).2) := by
      have : ∀ (d q : List DeferredCall), List.foldl DeferFunctionCall q d = q ++ d := by
        intro d
        induction d with
        | nil => intro q; simp
        | cons x d ihd => intro q; simp [List.foldl, DeferFunctionCall, ihd]
      rw [this]; simp
    rw [hq]
    simp only [List.length_append, List.length_singleton] at h
    rw [h]
    simp

/-- C10: one replay cycle invokes exactly the calls that were in the queue when it
started, each once and in queue order (the host state is the fold of their effects), it
invokes none of the calls deferred meanwhile, and it leaves the queue empty. -/
theorem deferred_replay (σ : Type) (cf : DeferredCall → σ → σ × List DeferredCall)
    (host : σ) (queue : List DeferredCall) :
    CallDeferredFunctions cf host queue
      = some (queue.foldl (fun s c => (cf c s).1) host, []) := by
  obtain ⟨extra', h⟩ := deferred_loop σ cf queue [] [] host
  simp only [List.length_nil, Nat.zero_add, List.nil_append, List.append_nil] at h
  simp [CallDeferredFunctions, h]


/-! ## Starting a script while it runs -/

theorem dofileEvents_append (a b : List HostEvent) :
    dofileEvents (a ++ b) = dofileEvents a ++ dofileEvents b := by
  induction a with
  | nil => rfl
  | cons e a ih => cases e <;> simp [dofileEvents, ih]

theorem dofileEvents_calc (l : List Nat) :
    dofileEvents (l.map HostEvent.CalculateMemHookRegions) = [] := by
  induction l with
  | nil => rfl
  | cons x l ih => simp [dofileEvents, ih]

theorem dontworry_fields (info : LuaContextInfo) :
    (dontworry info).restart = info.restart ∧ (dontworry info).nextFilename = info.nextFilename
      ∧ (dontworry info).running = info.running ∧ (dontworry info).L = info.L
      ∧ (dontworry info).ranExit = info.ranExit ∧ (dontworry info).started = info.started
      ∧ (dontworry info).crashed = info.crashed := by
  unfold dontworry
  split_ifs <;> simp

/-- Stopping a context whose script is not running and has no exit function registered:
the restart flag, the next file name, the pending runs and the `luaL_dofile` events are
left as they are. -/
theorem stop_finished (env : Env) (f : Nat) (w : World) (L : LuaState)
    (hrun : w.info.running = false) (hL : w.info.L = some L)
    (hreg : registeredFunction L LUACALL_BEFOREEXIT = none) (hexit : w.info.ranExit = false) :
    ∃ w', StopLuaScript env (f + 2) w = some w' ∧ w'.info.restart = w.info.restart
      ∧ w'.info.nextFilename = w.info.nextFilename
      ∧ dofileEvents w'.log = dofileEvents w.log ∧ w'.runs = w.runs
      ∧ w'.info.running = false := by
  obtain ⟨d1, d2, d3, d4, d5, d6, d7⟩ := dontworry_fields w.info
  simp only [StopLuaScript, hrun, Bool.false_eq_true, if_false, hL, CallExitFunction, d5, hexit,
    Bool.not_false, if_true, hreg, d4]
  split_ifs <;>
    refine ⟨_, rfl, ?_⟩ <;>
    simp [writePersistFiles, dontworry, dofileEvents_append, dofileEvents, dofileEvents_calc,
      hrun] <;> split_ifs <;> simp_all

/-- The end of one pass of the loop of `RunLuaScriptFile`, for a script that registered
nothing: whether the body failed or returned, the context is stopped and the restart
request is kept. -/
theorem finish_run (env : Env) (f : Nat) (w : World) (L : LuaState) (errorcode : Bool)
    (hrun : w.info.running = false) (hret : w.info.returned = true) (hL : w.info.L = some L)
    (hreg : L.registered = []) (hexit : w.info.ranExit = false)
    (hhooks : w.info.numMemHooks = 0) :
    ∃ w', (if errorcode then
          StopLuaScript env (f + 3)
            { w with info := { w.info with crashed := true }
                     log := w.log ++ [HostEvent.print (cstr "error")] }
        else StopScriptIfFinished env (f + 3) w true) = some w'
      ∧ w'.info.restart = w.info.restart ∧ w'.info.nextFilename = w.info.nextFilename
      ∧ dofileEvents w'.log = dofileEvents w.log ∧ w'.runs = w.runs
      ∧ w'.info.running = false := by
  have hnone : ∀ calltype, registeredFunction L calltype = none := by
    intro calltype; simp [registeredFunction, hreg]
  cases errorcode with
  | true =>
    obtain ⟨w', h, h1, h2, h3, h4, h5⟩ := stop_finished env (f + 1)
      { w with info := { w.info with crashed := true }
               log := w.log ++ [HostEvent.print (cstr "error")] } L hrun hL (hnone _) hexit
    refine ⟨w', by simpa using h, h1, h2, ?_, h4, h5⟩
    rw [h3]; simp [dofileEvents_append, dofileEvents]
  | false =>
    obtain ⟨w', h, h1, h2, h3, h4, h5⟩ := stop_finished env f
      { w with log := w.log ++ [HostEvent.print (cstr "script finished running\r\n")] }
      L hrun hL (hnone _) hexit
    refine ⟨w', ?_, h1, h2, ?_, h4, h5⟩
    · simp only [Bool.false_eq_true, if_false, StopScriptIfFinished, hret, Bool.not_true, hhooks,
        hL, hnone]
      simpa using h
    · rw [h3]; simp [dofileEvents_append, dofileEvents]

/-- A start request that arrives while the context is running. -/
theorem start_while_running (env : Env) (f : Nat) (w : World) (filename : List Nat)
    (hrun : w.info.running = true) :
    RunLuaScriptFile env (f + 2) w filename
      = some { w with info := { RequestAbortLuaScript env w.info none with
          nextFilename := filename, restart := true } } := by
  have hr : (RequestAbortLuaScript env w.info none).running = true := by
    unfold RequestAbortLuaScript; split <;> simp [hrun]
  simp [RunLuaScriptFile, StopLuaScript, hrun, hr]

/-- The state after a start request while running, on a live interpreter. -/
theorem start_while_running_state (env : Env) (w : World) (L : LuaState) (filename : List Nat)
    (hL : w.info.L = some L) :
    ({ w with info := { RequestAbortLuaScript env w.info none with
        nextFilename := filename, restart := true } } : World)
      = { w with info := { w.info with
          L := some { L with hookcount := 1 }, panic := true,
          panicMessage := (env.luaL_where ++ cstr "script terminated").take 71,
          nextFilename := filename, restart := true } } := by
  simp [RequestAbortLuaScript, hL]

theorem exec_starts (env : Env) : ∀ (files : List (List Nat)) (w : World) (L : LuaState)
    (m : Nat) (first : List Nat), w.info.running = true → w.info.L = some L →
    execActions env ((first :: files).length + 2 + m)
        ((first :: files).map ScriptAction.RunLuaScriptFile) w
      = some ({ w with info := { w.info with
          L := some { L with hookcount := 1 }, panic := true,
          panicMessage := (env.luaL_where ++ cstr "script terminated").take 71,
          nextFilename := (first :: files).getLast (List.cons_ne_nil _ _),
          restart := true } }, false) := by
  intro files
  induction files with
  | nil =>
    intro w L m first hrun hL
    have h := start_while_running env m w first hrun
    rw [start_while_running_state env w L first hL] at h
    simp only [List.length_singleton, List.map_cons, List.map_nil, execActions]
    rw [show 1 + 2 + m = (m + 2) + 1 from by omega]
    simp only [execActions, h, List.getLast_singleton]
  | cons second files ih =>
    intro w L m first hrun hL
    have h := start_while_running env (files.length + 1 + m) w first hrun
    rw [start_while_running_state env w L first hL] at h
    rw [show (first :: second :: files).length + 2 + m
      = ((second :: files).length + 2 + m) + 1 from by simp; omega]
    simp only [List.map_cons, execActions]
    rw [show (second :: files).length + 2 + m = files.length + 1 + m + 2 from by simp; omega, h]
    simp only
    have ih' := ih { w with info := { w.info with
          L := some { L with hookcount := 1 }, panic := true,
          panicMessage := (env.luaL_where ++ cstr "script terminated").take 71,
          nextFilename := first, restart := true } } { L with hookcount := 1 } m second hrun rfl
    rw [show files.length + 1 + m + 2 = (second :: files).length + 2 + m from by simp; omega]
    simp only [List.map_cons] at ih'
    rw [ih']
    simp [List.getLast_cons]

theorem runLoop_step (env : Env) (f : Nat) (w wb w' : World) (run : ScriptRun) (raised : Bool)
    (h1 : nextRun w = run)
    (h2 : execActions env f run.actions (prepareRun env w) = some (wb, raised))
    (h3 : (if (raised || run.errorcode) = true then
          StopLuaScript env f
            { ({ wb with info := { wb.info with running := false, returned := true } } : World)
              with
              info := { ({ wb with info := { wb.info with running := false, returned := true } }
                : World).info with crashed := true }
              log := ({ wb with info := { wb.info with running := false, returned := true } }
                : World).log ++ [HostEvent.print (cstr "error")] }
        else StopScriptIfFinished env f
          { wb with info := { wb.info with running := false, returned := true } } true)
        = some w') :
    runLoop env (f + 1) w = if w'.info.restart then runLoop env f w' else some w' := by
  subst h1
  simp only [runLoop, h2]
  simp only [h3]

theorem run_idle (env : Env) (f : Nat) (w : World) (file : List Nat)
    (hrun : w.info.running = false) (hL : w.info.L = none) :
    RunLuaScriptFile env (f + 2) w file
      = runLoop env (f + 1) { w with info := { w.info with nextFilename := file } } := by
  simp [RunLuaScriptFile, StopLuaScript, hrun, hL]

/-- C8: a context that is not running is started with `file`; while its body runs,
`RunLuaScriptFile` is called again `n >= 1` times (with the file names `first :: others`).
With enough fuel the outer call returns, `luaL_dofile` has run exactly twice: once for
`file` and once, after the body returned, for the file name of the last request.  None of
the nested calls ran the script, and no restart request is left. -/
theorem restart_queued_once (env : Env) (w : World) (file first : List Nat)
    (others : List (List Nat)) (e1 e2 : Bool) (rest : List ScriptRun) (m : Nat)
    (hrun : w.info.running = false) (hL : w.info.L = none)
    (hruns : w.runs = ⟨(first :: others).map ScriptAction.RunLuaScriptFile, e1⟩
      :: ⟨[], e2⟩ :: rest) :
    ∃ w', RunLuaScriptFile env ((first :: others).length + 6 + m) w file = some w'
      ∧ dofileEvents w'.log
          = dofileEvents w.log ++ [file, (first :: others).getLast (List.cons_ne_nil _ _)]
      ∧ w'.info.restart = false ∧ w'.info.running = false ∧ w'.runs = rest := by
  -- the body of the first run
  have hbody := exec_starts env others
    (prepareRun env { w with info := { w.info with nextFilename := file } })
    { hookcount := HOOKCOUNT, registered := [], globals := [] } (m + 2) first
    (by simp [prepareRun]) (by simp [prepareRun])
  generalize hn : (first :: others).length = n at hbody ⊢
  generalize hlast : (first :: others).getLast (List.cons_ne_nil _ _) = last at hbody ⊢
  have hrun1 : nextRun { w with info := { w.info with nextFilename := file } }
      = ⟨(first :: others).map ScriptAction.RunLuaScriptFile, e1⟩ := by
    simp [nextRun, hruns]
  -- the end of the first run
  obtain ⟨w2, hfin, hrestart2, hnext2, hlog2, hruns2, hrun2⟩ := finish_run env (n + 1 + m)
    { (prepareRun env { w with info := { w.info with nextFilename := file } }) with
      info := { (prepareRun env { w with info := { w.info with nextFilename := file } }).info with
        L := some { hookcount := 1, registered := [], globals := [] }, panic := true,
        panicMessage := (env.luaL_where ++ cstr "script terminated").take 71,
        nextFilename := last,
        restart := true, running := false, returned := true } }
    { hookcount := 1, registered := [], globals := [] } (false || e1)
    rfl rfl rfl rfl (by simp [prepareRun, ResetInfo, SetSaveKey])
    (by simp [prepareRun, ResetInfo, SetSaveKey])
  rw [show n + 1 + m + 3 = n + 2 + (m + 2) from by omega] at hfin
  have step1 := runLoop_step env (n + 2 + (m + 2))
    { w with info := { w.info with nextFilename := file } } _ w2 _ false hrun1 hbody hfin
  -- the second run
  have hrun2' : nextRun w2 = ⟨[], e2⟩ := by
    simp [nextRun, hruns2, prepareRun, hruns]
  obtain ⟨w4, hfin4, hrestart4, hnext4, hlog4, hruns4, hrun4⟩ := finish_run env (n + m)
    { (prepareRun env w2) with
      info := { (prepareRun env w2).info with running := false, returned := true } }
    { hookcount := HOOKCOUNT, registered := [], globals := [] } (false || e2)
    rfl rfl (by simp [prepareRun]) rfl (by simp [prepareRun, ResetInfo, SetSaveKey])
    (by simp [prepareRun, ResetInfo, SetSaveKey])
  have hexec2 : execActions env (n + m + 3) (⟨[], e2⟩ : ScriptRun).actions (prepareRun env w2)
      = some (prepareRun env w2, false) := by
    simp [execActions]
  have step2 := runLoop_step env (n + m + 3) w2 _ w4 _ false hrun2' hexec2 hfin4
  have hr4 : w4.info.restart = false := by
    rw [hrestart4]; simp [prepareRun, ResetInfo, SetSaveKey]
  have hr2 : w2.info.restart = true := by rw [hrestart2]
  refine ⟨w4, ?_, ?_, hr4, hrun4, ?_⟩
  · rw [show n + 6 + m = (n + 2 + (m + 2)) + 2 from by omega, run_idle env _ w file hrun hL,
      step1, if_pos hr2, show n + 2 + (m + 2) = (n + m + 3) + 1 from by omega, step2]
    simp [hr4]
  · rw [hlog4]
    simp only [prepareRun, dofileEvents_append, dofileEvents, hlog2, hnext2]
    simp
  · rw [hruns4]; simp [prepareRun, hruns2, hruns]

theorem restart_queued_once_witness :
    ∃ w', RunLuaScriptFile exampleEnv
        ((cstr "a.lua" :: [cstr "b.lua", cstr "c.lua"]).length + 6 + 0)
        ⟨openedInfo, [], none, none,
          [⟨(cstr "a.lua" :: [cstr "b.lua", cstr "c.lua"]).map ScriptAction.RunLuaScriptFile,
            true⟩, ⟨[], false⟩]⟩ (cstr "main.lua") = some w'
      ∧ dofileEvents w'.log
          = dofileEvents ([] : List HostEvent)
            ++ [cstr "main.lua", (cstr "a.lua" :: [cstr "b.lua", cstr "c.lua"]).getLast
              (List.cons_ne_nil _ _)]
      ∧ w'.info.restart = false ∧ w'.info.running = false ∧ w'.runs = [] :=
  restart_queued_once exampleEnv
    ⟨openedInfo, [], none, none,
      [⟨(cstr "a.lua" :: [cstr "b.lua", cstr "c.lua"]).map ScriptAction.RunLuaScriptFile, true⟩,
        ⟨[], false⟩]⟩
    (cstr "main.lua") (cstr "a.lua") [cstr "b.lua", cstr "c.lua"] true false [] 0 rfl rfl rfl


/-! ## Deferred calls across cycles -/

/-- C11 (as stated, refuted): function 1 is replayed and defers function 2 meanwhile.  The
cycle runs function 1 only and leaves an empty queue, and the next cycle on that queue runs
nothing: function 2 is never executed. -/
theorem deferred_during_replay_lost :
    CallDeferredFunctions exampleDeferring [] [⟨1, []⟩] = some ([1], [])
      ∧ CallDeferredFunctions exampleDeferring [1] [] = some ([1], []) :=
  ⟨rfl, rfl⟩

/-- C11 (amended): whatever the replayed calls defer during a cycle is dropped when the
queue is cleared at the end of the cycle.  The next cycle executes exactly the calls
`later` that were deferred after the first cycle ended, in order. -/
theorem deferred_next_cycle (σ : Type) (cf : DeferredCall → σ → σ × List DeferredCall)
    (host : σ) (queue later : List DeferredCall) :
    ∃ host1, CallDeferredFunctions cf host queue = some (host1, [])
      ∧ CallDeferredFunctions cf host1 (later.foldl DeferFunctionCall [])
        = some (later.foldl (fun s c => (cf c s).1) host1, []) := by
  have hfold : ∀ (d q : List DeferredCall), List.foldl DeferFunctionCall q d = q ++ d := by
    intro d
    induction d with
    | nil => intro q; simp
    | cons x d ihd => intro q; simp [List.foldl, DeferFunctionCall, ihd]
  have cycle : ∀ (h : σ) (q : List DeferredCall),
      CallDeferredFunctions cf h q = some (q.foldl (fun s c => (cf c s).1) h, []) := by
    intro h q
    obtain ⟨extra', hl⟩ := deferred_loop σ cf q [] [] h
    simp only [List.length_nil, Nat.zero_add, List.nil_append, List.append_nil] at hl
    simp [CallDeferredFunctions, hl]
  refine ⟨queue.foldl (fun s c => (cf c s).1) host, cycle host queue, ?_⟩
  rw [hfold, List.nil_append]
  exact cycle _ later

/-- C12 (defect of the code): the deferral flag is set and the speed mode is normal, yet
`DeferGUIFuncIfNeeded` returns false and the drawing queue stays empty. -/
theorem defer_gui_returns_false :
    runningInfo.guiFuncsNeedDeferring = true
      ∧ runningInfo.speedMode = SpeedMode.SPEEDMODE_NORMAL
      ∧ (DeferGUIFuncIfNeeded runningInfo [] ⟨0, [.integer 10, .integer 20, .string [104, 105]]⟩).1
          = false
      ∧ (DeferGUIFuncIfNeeded runningInfo [] ⟨0, [.integer 10, .integer 20, .string [104, 105]]⟩).2.length
          = 0 := by
  decide


/-! ## Integer widths -/

/-- C13: for a number that equals the `INT32` value `n`, the encoder emits the tag
`LUAEXT_TBYTE` with one payload byte exactly when `0 <= n <= 255`, `LUAEXT_TUSHORT` with two
bytes exactly when `256 <= n <= 65535`, `LUAEXT_TSHORT` with two bytes exactly when
`-32768 <= n <= -1` and `LUAEXT_TLONG` with four bytes exactly in the remaining cases, and
the decoder returns `n` from these bytes. -/
theorem integer_width_minimised (cstack : Nat) (addrs : List Nat) (top : Nat) (n : Int)
    (hlo : -2147483648 ≤ n) (hhi : n ≤ 2147483647) :
    ∃ tag payload, LuaStackToBinaryConverter cstack addrs top (.integer n) = tag :: payload
      ∧ ((tag = LUAEXT_TBYTE ∧ payload.length = 1) ↔ (0 ≤ n ∧ n ≤ 255))
      ∧ ((tag = LUAEXT_TUSHORT ∧ payload.length = 2) ↔ (256 ≤ n ∧ n ≤ 65535))
      ∧ ((tag = LUAEXT_TSHORT ∧ payload.length = 2) ↔ (-32768 ≤ n ∧ n ≤ -1))
      ∧ ((tag = LUAEXT_TLONG ∧ payload.length = 4) ↔ (n < -32768 ∨ 65535 < n))
      ∧ ∀ fuel next rest, BinaryToLuaStackConverter (fuel + 1) next (tag :: payload ++ rest)
          = .ok (some (.integer n), next, rest) := by
  have hdec := decode_integer n hlo hhi
  have hty := integerType_cases n hlo hhi
  by_cases c1 : 0 ≤ n ∧ n ≤ 255
  · rw [if_pos c1] at hty
    have henc : encodeInteger n = [LUAEXT_TBYTE, toUnsigned 32 n % 256] := by
      simp [encodeInteger, hty, LUAEXT_TBYTE, LUAEXT_TLONG, LUAEXT_TUSHORT, LUAEXT_TSHORT]
    refine ⟨LUAEXT_TBYTE, [toUnsigned 32 n % 256], by simp [LuaStackToBinaryConverter, henc],
      ?_, ?_, ?_, ?_, ?_⟩
    · simp [c1]
    · simp [LUAEXT_TBYTE, LUAEXT_TUSHORT]; omega
    · simp [LUAEXT_TBYTE, LUAEXT_TSHORT]; omega
    · simp [LUAEXT_TBYTE, LUAEXT_TLONG]; omega
    · intro fuel next rest; rw [← henc]; exact hdec fuel next rest
  · rw [if_neg c1] at hty
    by_cases c2 : 0 ≤ n ∧ n ≤ 65535
    · rw [if_pos c2] at hty
      have henc : encodeInteger n = LUAEXT_TUSHORT :: PushBinaryItem 2 n := by
        simp [encodeInteger, hty, LUAEXT_TBYTE, LUAEXT_TLONG, LUAEXT_TUSHORT, LUAEXT_TSHORT]
      refine ⟨LUAEXT_TUSHORT, PushBinaryItem 2 n, by simp [LuaStackToBinaryConverter, henc],
        ?_, ?_, ?_, ?_, ?_⟩
      · simp [LUAEXT_TBYTE, LUAEXT_TUSHORT]; omega
      · simp [PushBinaryItem, length_bytesLE]; omega
      · simp [LUAEXT_TUSHORT, LUAEXT_TSHORT]; omega
      · simp [LUAEXT_TUSHORT, LUAEXT_TLONG]; omega
      · intro fuel next rest; rw [← henc]; exact hdec fuel next rest
    · rw [if_neg c2] at hty
      by_cases c3 : -32768 ≤ n ∧ n < 0
      · rw [if_pos c3] at hty
        have henc : encodeInteger n = LUAEXT_TSHORT :: PushBinaryItem 2 n := by
          simp [encodeInteger, hty, LUAEXT_TBYTE, LUAEXT_TLONG, LUAEXT_TUSHORT, LUAEXT_TSHORT]
        refine ⟨LUAEXT_TSHORT, PushBinaryItem 2 n, by simp [LuaStackToBinaryConverter, henc],
          ?_, ?_, ?_, ?_, ?_⟩
        · simp [LUAEXT_TBYTE, LUAEXT_TSHORT]; omega
        · simp [LUAEXT_TUSHORT, LUAEXT_TSHORT]; omega
        · simp [PushBinaryItem, length_bytesLE]; omega
        · simp [LUAEXT_TSHORT, LUAEXT_TLONG]; omega
        · intro fuel next rest; rw [← henc]; exact hdec fuel next rest
      · rw [if_neg c3] at hty
        have henc : encodeInteger n = LUAEXT_TLONG :: PushBinaryItem 4 n := by
          simp [encodeInteger, hty, LUAEXT_TBYTE, LUAEXT_TLONG, LUAEXT_TUSHORT, LUAEXT_TSHORT]
        refine ⟨LUAEXT_TLONG, PushBinaryItem 4 n, by simp [LuaStackToBinaryConverter, henc],
          ?_, ?_, ?_, ?_, ?_⟩
        · simp [LUAEXT_TBYTE, LUAEXT_TLONG]; omega
        · simp [LUAEXT_TUSHORT, LUAEXT_TLONG]; omega
        · simp [LUAEXT_TSHORT, LUAEXT_TLONG]; omega
        · simp [PushBinaryItem, length_bytesLE]; omega
        · intro fuel next rest; rw [← henc]; exact hdec fuel next rest

theorem integer_width_minimised_witness :
    ∃ tag payload, LuaStackToBinaryConverter 8000 [] 1 (.integer (-3)) = tag :: payload
      ∧ ((tag = LUAEXT_TBYTE ∧ payload.length = 1) ↔ (0 ≤ (-3 : Int) ∧ (-3 : Int) ≤ 255))
      ∧ ((tag = LUAEXT_TUSHORT ∧ payload.length = 2) ↔ (256 ≤ (-3 : Int) ∧ (-3 : Int) ≤ 65535))
      ∧ ((tag = LUAEXT_TSHORT ∧ payload.length = 2) ↔ (-32768 ≤ (-3 : Int) ∧ (-3 : Int) ≤ -1))
      ∧ ((tag = LUAEXT_TLONG ∧ payload.length = 4) ↔ ((-3 : Int) < -32768 ∨ 65535 < (-3 : Int)))
      ∧ ∀ fuel next rest, BinaryToLuaStackConverter (fuel + 1) next (tag :: payload ++ rest)
          = .ok (some (.integer (-3)), next, rest) :=
  integer_width_minimised 8000 [] 1 (-3) (by decide) (by decide)


/-! ## Nil runs -/

/-- A value whose address-erased form is nil is nil. -/
theorem eraseAddr_eq_nil (v : LuaValue) (h : eraseAddr v = .nil) : v = .nil := by
  cases v <;> simp [eraseAddr] at h ⊢

/-- C14: a table whose array part holds a run of `L` nil slots (between any slots `pre`
and `post`) is decoded, from the bytes the encoder emits for it, to a table whose array
part has the same length, the same values up to table addresses, and nil in each of the
`L` slots of the run. -/
theorem nil_run_round_trip (cstack : Nat) (addrs : List Nat) (top addr : Nat)
    (pre post : List LuaValue) (hash : List (LuaValue × LuaValue)) (L fuel next : Nat)
    (rest : List Nat)
    (hs : supported cstack addrs top
      (.table addr (pre ++ List.replicate L LuaValue.nil ++ post) hash) = true)
    (hf : 2 * (LuaStackToBinaryConverter cstack addrs top
      (.table addr (pre ++ List.replicate L LuaValue.nil ++ post) hash)).length ≤ fuel) :
    ∃ addr' arr' hash' next', BinaryToLuaStackConverter fuel next
        (LuaStackToBinaryConverter cstack addrs top
          (.table addr (pre ++ List.replicate L LuaValue.nil ++ post) hash) ++ rest)
        = .ok (some (.table addr' arr' hash'), next', rest)
      ∧ arr'.length = pre.length + L + post.length
      ∧ arr'.map eraseAddr = (pre ++ List.replicate L LuaValue.nil ++ post).map eraseAddr
      ∧ ∀ i, pre.length ≤ i → i < pre.length + L → arr'[i]? = some .nil := by
  obtain ⟨v', next', hdec, her⟩ := conv_roundtrip cstack _ addrs top fuel next rest hs hf
  cases v' with
  | table addr' arr' hash' =>
    simp only [eraseAddr, LuaValue.table.injEq, true_and] at her
    have hmap : arr'.map eraseAddr
        = (pre ++ List.replicate L LuaValue.nil ++ post).map eraseAddr := by
      rw [← eraseAddrList_eq_map, ← eraseAddrList_eq_map]; exact her.1
    have hlen : arr'.length = pre.length + L + post.length := by
      have := congrArg List.length hmap
      simp at this; omega
    refine ⟨addr', arr', hash', next', hdec, hlen, hmap, ?_⟩
    intro i h1 h2
    have hi := congrArg (fun l => l[i]?) hmap
    simp only [List.getElem?_map] at hi
    have hr : (pre ++ List.replicate L LuaValue.nil ++ post)[i]? = some .nil := by
      rw [List.getElem?_append_left (by simp; omega),
        List.getElem?_append_right h1, List.getElem?_replicate]
      simp; omega
    rw [hr] at hi
    cases hx : arr'[i]? with
    | none => rw [hx] at hi; simp at hi
    | some x =>
      rw [hx] at hi
      simp only [Option.map_some', Option.some.injEq] at hi
      have : eraseAddr LuaValue.nil = LuaValue.nil := rfl
      rw [this] at hi
      rw [eraseAddr_eq_nil x hi]
  | _ => simp [eraseAddr] at her

theorem nil_run_round_trip_witness :
    ∃ addr' arr' hash' next', BinaryToLuaStackConverter 100 7
        (LuaStackToBinaryConverter 8000 [] 1
          (.table 1 ([LuaValue.integer 1] ++ List.replicate 6 LuaValue.nil ++ [LuaValue.integer 2]) []) ++ [])
        = .ok (some (.table addr' arr' hash'), next', [])
      ∧ arr'.length = [LuaValue.integer 1].length + 6 + [LuaValue.integer 2].length
      ∧ arr'.map eraseAddr
        = ([LuaValue.integer 1] ++ List.replicate 6 LuaValue.nil ++ [LuaValue.integer 2]).map eraseAddr
      ∧ ∀ i, [LuaValue.integer 1].length ≤ i → i < [LuaValue.integer 1].length + 6 →
          arr'[i]? = some .nil :=
  nil_run_round_trip 8000 [] 1 1 [.integer 1] [.integer 2] [] 6 100 7 [] (by decide)
    (by decide)


/-! ## Nil-run threshold and unsupported values -/

/-- C15 (counterexample): a run of exactly six nils is emitted in the run-length form, one
`LUAEXT_TNILS` marker and the count 6 in four bytes, not as six nil tag bytes. -/
theorem nil_run_of_six_is_run_length :
    PushNils 6 = [LUAEXT_TNILS, 6, 0, 0, 0] ∧ PushNils 6 ≠ List.replicate 6 LUA_TNIL := by
  decide

/-- C15 (amended): `PushNils` emits the run-length form, the `LUAEXT_TNILS` marker followed
by the count in four little-endian bytes, exactly when the run has six or more nils; a run
of fewer than six is emitted as that many nil tag bytes. -/
theorem nil_run_threshold (L : Nat) :
    (PushNils L = LUAEXT_TNILS :: PushBinaryItem 4 L ↔ 6 ≤ L)
      ∧ (PushNils L = List.replicate L LUA_TNIL ↔ L < 6)
      ∧ (PushBinaryItem 4 L).length = 4 := by
  refine ⟨?_, ?_, by simp [PushBinaryItem, length_bytesLE]⟩
  · constructor
    · intro h
      by_contra hlt
      have hL : L < 6 := by omega
      simp only [PushNils, hL, if_true] at h
      cases L with
      | zero => simp at h
      | succ m => simp [List.replicate_succ, LUA_TNIL, LUAEXT_TNILS] at h
    · intro h
      have hL : ¬ L < 6 := by omega
      simp [PushNils, hL]
  · constructor
    · intro h
      by_contra hge
      simp only [PushNils, hge, if_false] at h
      have hlen := congrArg List.length h
      simp [PushBinaryItem, length_bytesLE] at hlen
      omega
    · intro h
      simp [PushNils, h]

/-- C16 (counterexample): the stack holding the number 1 and a function is encoded with one
byte more than the stack holding the number 1 alone: the type tag `LUA_TFUNCTION` of the
unsupported value is in the output. -/
theorem unsupported_value_leaves_tag :
    LuaStackToBinary 8000 [.integer 1, .func 0] = some [9, 1, LUAEXT_TBYTE, 1, LUA_TFUNCTION]
      ∧ LuaStackToBinary 8000 [.integer 1] = some [9, 1, LUAEXT_TBYTE, 1] := by
  decide

/-- C16 (amended): for a value of an unsupported type (function, userdata, light userdata,
thread) the encoder appends exactly one byte, the Lua type tag of the value, and goes on
with the remaining values; the decoder pushes no value for such a byte. -/
theorem unsupported_value_one_tag_byte (cstack top : Nat) (addrs : List Nat) (v : LuaValue)
    (before after : List LuaValue)
    (hv : lua_type v = LUA_TLIGHTUSERDATA ∨ lua_type v = LUA_TFUNCTION
      ∨ lua_type v = LUA_TUSERDATA ∨ lua_type v = LUA_TTHREAD) :
    LuaStackToBinaryConverter cstack addrs top v = [lua_type v]
      ∧ encodeStack cstack top (before ++ v :: after)
        = encodeStack cstack top before ++ lua_type v :: encodeStack cstack top after
      ∧ ∀ fuel next rest, BinaryToLuaStackConverter (fuel + 1) next (lua_type v :: rest)
          = .ok (none, next, rest) := by
  have hconv : LuaStackToBinaryConverter cstack addrs top v = [lua_type v] ∧
      LuaStackToBinaryConverter cstack [] top v = [lua_type v] := by
    cases v <;> simp [lua_type, LUA_TLIGHTUSERDATA, LUA_TFUNCTION, LUA_TUSERDATA, LUA_TTHREAD,
      LUA_TNIL, LUA_TBOOLEAN, LUA_TNUMBER, LUA_TSTRING, LUA_TTABLE] at hv
      <;> simp [LuaStackToBinaryConverter, lua_type]
  refine ⟨hconv.1, ?_, ?_⟩
  · induction before with
    | nil => simp [encodeStack, hconv.2]
    | cons b bs ih => simp [encodeStack, ih]
  · intro fuel next rest
    cases v <;> simp [lua_type, LUA_TLIGHTUSERDATA, LUA_TFUNCTION, LUA_TUSERDATA, LUA_TTHREAD,
      LUA_TNIL, LUA_TBOOLEAN, LUA_TNUMBER, LUA_TSTRING, LUA_TTABLE] at hv
      <;> simp [BinaryToLuaStackConverter, AdvanceByteStream_one, fromLE_single, lua_type,
        LUAEXT_BITS_4A, LUAEXT_BITS_4H, LUA_TLIGHTUSERDATA, LUA_TFUNCTION,
        LUA_TUSERDATA, LUA_TTHREAD, LUA_TNIL, LUA_TBOOLEAN, LUA_TNUMBER, LUA_TSTRING,
        LUA_TTABLE, LUAEXT_TLONG, LUAEXT_TUSHORT, LUAEXT_TSHORT, LUAEXT_TBYTE, LUAEXT_TNILS,
        LUAEXT_TTABLE, BITMATCH]

theorem unsupported_value_one_tag_byte_witness :
    LuaStackToBinaryConverter 8000 [] 2 (.func 0) = [lua_type (.func 0)]
      ∧ encodeStack 8000 2 ([.integer 1] ++ .func 0 :: [])
        = encodeStack 8000 2 [.integer 1] ++ lua_type (.func 0) :: encodeStack 8000 2 []
      ∧ ∀ fuel next rest, BinaryToLuaStackConverter (fuel + 1) next (lua_type (.func 0) :: rest)
          = .ok (none, next, rest) :=
  unsupported_value_one_tag_byte 8000 2 [] (.func 0) [.integer 1] []
    (Or.inr (Or.inl rfl))


/-! ## Version gate, malformed streams, table headers, tier shape -/

/-- C17: the stream `LuaStackToBinary` returns for a non-empty stack and the record data
`SaveRecordPartial` stores are the version pair (9, 1) followed by the encodings of the
values, with no further version bytes; and `BinaryToLuaStack` on a stream whose first two
bytes differ from the version pair pushes no value and reports no error. -/
theorem version_gate (cstack : Nat) (stack : List LuaValue) (recordList : LuaSaveData)
    (top key : Nat) (v : LuaValue) (next major minor : Nat) (rest : List Nat)
    (itemsToLoad : Nat) (hne : stack ≠ [])
    (hver : major ≠ luaBinaryMajorVersion ∨ minor ≠ luaBinaryMinorVersion) :
    LuaStackToBinary cstack stack = some (9 :: 1 :: encodeStack cstack stack.length stack)
      ∧ LuaSaveData.SaveRecordPartial recordList cstack top key v
        = recordList ++ [⟨key, 9 :: 1 :: LuaStackToBinaryConverter cstack [] top v⟩]
      ∧ BinaryToLuaStack next (major :: minor :: rest) itemsToLoad = .ok [] := by
  have hlen : ¬ stack.length = 0 := by
    intro h; exact hne (List.length_eq_zero.mp h)
  refine ⟨by simp [LuaStackToBinary, hlen, luaBinaryMajorVersion, luaBinaryMinorVersion],
    by simp [LuaSaveData.SaveRecordPartial, luaBinaryMajorVersion, luaBinaryMinorVersion], ?_⟩
  have hgate : (luaBinaryMajorVersion != major || luaBinaryMinorVersion != minor) = true := by
    rcases hver with h | h
    · simp [Ne.symm h]
    · simp [Ne.symm h]
  simp only [BinaryToLuaStack, hgate, if_true]

theorem version_gate_witness :
    LuaStackToBinary 8000 [.integer 1]
        = some (9 :: 1 :: encodeStack 8000 [LuaValue.integer 1].length [.integer 1])
      ∧ LuaSaveData.SaveRecordPartial [] 8000 1 120 (.integer 1)
        = [] ++ [⟨120, 9 :: 1 :: LuaStackToBinaryConverter 8000 [] 1 (.integer 1)⟩]
      ∧ BinaryToLuaStack 0 (9 :: 0 :: [33, 1]) 1 = .ok [] :=
  version_gate 8000 [.integer 1] [] 1 120 (.integer 1) 0 9 0 [33, 1] 1 (by simp)
    (Or.inr (by decide))

/-- C18 (defect of the code): the four-byte buffer `09 01 04 41` holds the version pair and
a string item whose terminating zero byte is missing.  The decoder scans for the zero byte
without a bound, so it reads past the end of the buffer. -/
theorem truncated_string_reads_past_end :
    BinaryToLuaStack 0 [9, 1, LUA_TSTRING, 65] 1 = .error .readPastEnd
      ∧ BinaryToLuaStack 0 [9, 1, LUAEXT_TLONG, 7] 1 = .error .readPastEnd
      ∧ BinaryToLuaStack 0 [9] 1 = .error .readPastEnd := by
  refine ⟨rfl, rfl, rfl⟩

theorem count_bytes_eq (n : Nat) (c4 c2 c1 : Bool) (hn : n < 4294967296)
    (h4 : c4 = decide (65536 ≤ n)) (h2 : c2 = decide (256 ≤ n))
    (h1 : c1 = decide (65536 ≤ n ∨ (1 ≤ n ∧ n < 256))) :
    (if c4 || c2 || c1 then [n &&& 0xFF] else [])
      ++ ((if c4 || c2 then [(n &&& 0xFF00) >>> 8] else [])
      ++ (if c4 then [(n &&& 0x00FF0000) >>> 16, (n &&& 0xFF000000) >>> 24] else []))
      = bytesLE (countWidth n) n := by
  obtain ⟨e0, e1, e2, e3⟩ := count_bytes_value n
  rw [e0, e1, e2, e3]
  subst h4 h2 h1
  unfold countWidth
  by_cases a : n = 0
  · subst a; simp [bytesLE]
  · by_cases b : n < 256
    · have x1 : ¬ 65536 ≤ n := by omega
      have x2 : ¬ 256 ≤ n := by omega
      have x3 : 1 ≤ n := by omega
      simp [a, b, x1, x2, x3, bytesLE]
    · by_cases c : n < 65536
      · have x1 : ¬ 65536 ≤ n := by omega
        have x2 : 256 ≤ n := by omega
        simp [a, b, c, x1, x2, bytesLE]
      · have x1 : 65536 ≤ n := by omega
        have x2 : 256 ≤ n := by omega
        simp [a, b, c, x1, x2, bytesLE]
        refine ⟨?_, ?_⟩ <;> omega

theorem fromLE_countWidth (n : Nat) (hn : n < 4294967296) :
    fromLE (bytesLE (countWidth n) n) = n := by
  rw [fromLE_bytesLE]
  unfold countWidth
  split_ifs with a b c
  · simp [a]
  · exact Nat.mod_eq_of_lt (by omega)
  · exact Nat.mod_eq_of_lt (by omega)
  · exact Nat.mod_eq_of_lt (by omega)

theorem table_tag_bits (A H : Nat) :
    64 + widthCode A + 4 * widthCode H
      = LUAEXT_TTABLE
          ||| (if A = 0 then 0 else if A < 256 then LUAEXT_BITS_1A
            else if A < 65536 then LUAEXT_BITS_2A else LUAEXT_BITS_4A)
          ||| (if H = 0 then 0 else if H < 256 then LUAEXT_BITS_1H
            else if H < 65536 then LUAEXT_BITS_2H else LUAEXT_BITS_4H) := by
  have hA : widthCode A = (if A = 0 then 0 else if A < 256 then 1
      else if A < 65536 then 2 else 3) := by
    unfold widthCode; split_ifs <;> first | rfl | omega
  have hH : widthCode H = (if H = 0 then 0 else if H < 256 then 1
      else if H < 65536 then 2 else 3) := by
    unfold widthCode; split_ifs <;> first | rfl | omega
  rw [hA, hH]
  split_ifs <;> rfl

/-- C19: for counts below 2^31 the tag byte of a table is `0x40 | arrayBits | hashBits`,
where the bits of each count name the fewest bytes that hold it (none for 0, one for
1..255, two for 256..65535, four above), chosen independently; the counts follow the tag
byte in that many bytes, little-endian, array count first; and the decoder reads the two
counts back from this header. -/
theorem table_count_widths (A H : Nat) (hA : A < 2147483648) (hH : H < 2147483648)
    (rest : List Nat) :
    tableOutputType A H
        = LUAEXT_TTABLE
          ||| (if A = 0 then 0 else if A < 256 then LUAEXT_BITS_1A
            else if A < 65536 then LUAEXT_BITS_2A else LUAEXT_BITS_4A)
          ||| (if H = 0 then 0 else if H < 256 then LUAEXT_BITS_1H
            else if H < 65536 then LUAEXT_BITS_2H else LUAEXT_BITS_4H)
      ∧ tableCountBytes (tableOutputType A H) A H
        = bytesLE (countWidth A) A ++ bytesLE (countWidth H) H
      ∧ (bytesLE (countWidth A) A).length = countWidth A
      ∧ fromLE (bytesLE (countWidth A) A) = A
      ∧ (bytesLE (countWidth H) H).length = countWidth H
      ∧ fromLE (bytesLE (countWidth H) H) = H
      ∧ readTableHeader (tableOutputType A H)
          (tableCountBytes (tableOutputType A H) A H ++ rest) = .ok (A, H, rest) := by
  have hA' : A < 4294967296 := by omega
  have hH' : H < 4294967296 := by omega
  refine ⟨?_, ?_, length_bytesLE _ _, fromLE_countWidth A hA', length_bytesLE _ _,
    fromLE_countWidth H hH', readTableHeader_spec A H hA' hH' rest⟩
  · rw [tableOutputType_eq A H hA' hH']; exact table_tag_bits A H
  · obtain ⟨a4, a2, a1, g4, g2, g1⟩ :=
      bitmatch_table (widthCode A) (widthCode_lt A) (widthCode H) (widthCode_lt H)
    rw [← tableOutputType_eq A H hA' hH'] at a4 a2 a1 g4 g2 g1
    obtain ⟨wa4, wa2, wa1⟩ := widthCode_facts A
    obtain ⟨wh4, wh2, wh1⟩ := widthCode_facts H
    rw [wa4] at a4; rw [wa2] at a2; rw [wa1] at a1
    rw [wh4] at g4; rw [wh2] at g2; rw [wh1] at g1
    unfold tableCountBytes
    simp only [List.append_assoc]
    rw [show LUAEXT_BITS_4A = 3 from rfl, show LUAEXT_BITS_2A = 2 from rfl,
      show LUAEXT_BITS_1A = 1 from rfl, show LUAEXT_BITS_4H = 12 from rfl,
      show LUAEXT_BITS_2H = 8 from rfl, show LUAEXT_BITS_1H = 4 from rfl]
    rw [← count_bytes_eq A _ _ _ hA' a4 a2 a1, ← count_bytes_eq H _ _ _ hH' g4 g2 g1]
    simp only [List.append_assoc]

theorem table_count_widths_witness :
    tableOutputType 300 0
        = LUAEXT_TTABLE
          ||| (if 300 = 0 then 0 else if 300 < 256 then LUAEXT_BITS_1A
            else if 300 < 65536 then LUAEXT_BITS_2A else LUAEXT_BITS_4A)
          ||| (if 0 = 0 then 0 else if 0 < 256 then LUAEXT_BITS_1H
            else if 0 < 65536 then LUAEXT_BITS_2H else LUAEXT_BITS_4H)
      ∧ tableCountBytes (tableOutputType 300 0) 300 0
        = bytesLE (countWidth 300) 300 ++ bytesLE (countWidth 0) 0
      ∧ (bytesLE (countWidth 300) 300).length = countWidth 300
      ∧ fromLE (bytesLE (countWidth 300) 300) = 300
      ∧ (bytesLE (countWidth 0) 0).length = countWidth 0
      ∧ fromLE (bytesLE (countWidth 0) 0) = 0
      ∧ readTableHeader (tableOutputType 300 0)
          (tableCountBytes (tableOutputType 300 0) 300 0 ++ [7]) = .ok (300, 0, [7]) :=
  table_count_widths 300 0 (by decide) (by decide) [7]

/-- C20 (defect of the code): two contexts hook address 0x7E0010 and one of them also
hooks 0x7E0020.  The sorted list holds 0x7E0010 twice, and `Region::Calculate` opens a new
island at the repeated address: the broad tier has two overlapping islands, the narrow
tier holds the same island twice, and `broad.islands[0]`, the island the full check
consults, does not contain the hooked address 0x7E0020. -/
theorem duplicate_address_splits_islands :
    CalculateMemHookRegions
        [⟨1, true, [(0x7E0010, true)]⟩, ⟨2, true, [(0x7E0010, true), (0x7E0020, true)]⟩]
      = some ⟨[⟨0x7E0010, 0x7E0011⟩, ⟨0x7E0010, 0x7E0021⟩],
          [⟨0x7E0010, 0x7E0011⟩, ⟨0x7E0010, 0x7E0021⟩],
          [⟨0x7E0010, 0x7E0011⟩, ⟨0x7E0010, 0x7E0011⟩, ⟨0x7E0020, 0x7E0021⟩]⟩
      ∧ Island.Contains ⟨0x7E0010, 0x7E0011⟩ 0x7E0020 1 = false := by
  decide


/-! ## Comparing defaults and restoring persisted variables -/

theorem lua_isstring_eraseAddr (a b : LuaValue) (h : eraseAddr a = eraseAddr b) :
    lua_isstring_value a = lua_isstring_value b := by
  cases a <;> cases b <;> simp [eraseAddr, lua_isstring_value] at h ⊢

theorem keyIsIndex_eraseAddr (a b : LuaValue) (h : eraseAddr a = eraseAddr b) (n : Nat) :
    keyIsIndex a n = keyIsIndex b n := by
  cases a <;> cases b <;> simp [eraseAddr, keyIsIndex] at h ⊢
  subst h; rfl

theorem keyOpen_eraseAddr (a b : LuaValue) (h : eraseAddr a = eraseAddr b) :
    keyOpen a = keyOpen b := by
  cases a <;> cases b <;> simp [eraseAddr, keyOpen] at h ⊢
  subst h; rfl

theorem keyClose_eraseAddr (a b : LuaValue) (h : eraseAddr a = eraseAddr b) :
    keyClose a = keyClose b := by
  cases a <;> cases b <;> simp [eraseAddr, keyClose] at h ⊢
  subst h; rfl

theorem indexOf?_none_of_not_contains (addrs : List Nat) (addr : Nat)
    (h : addrs.contains addr = false) : addrs.indexOf? addr = none := by
  induction addrs with
  | nil => rfl
  | cons x xs ih =>
    simp only [List.contains_cons, Bool.or_eq_false_iff] at h
    have hx : (x == addr) = false := by
      have := h.1
      simp only [beq_eq_false_iff_ne, ne_eq] at this ⊢
      exact fun e => this e.symm
    simp [List.indexOf?, List.findIdx?_cons, hx]
    simpa [List.indexOf?] using ih h.2
mutual
theorem render_congr (fmt : Formatter) (cstack : Nat) : ∀ (a b : LuaValue)
    (addrsA addrsB : List Nat) (top : Nat) (buf : PrintBuf),
    eraseAddr a = eraseAddr b → printable cstack addrsA top a = true →
    printable cstack addrsB top b = true →
    toCStringConverter fmt cstack addrsA top a buf
      = toCStringConverter fmt cstack addrsB top b buf
  | .table addr arr hash, b, addrsA, addrsB, top, buf, h, ha, hb => by
    cases b with
    | table addr' arr' hash' =>
      simp only [eraseAddr, LuaValue.table.injEq, true_and] at h
      simp only [printable, Bool.and_eq_true, Bool.not_eq_true'] at ha hb
      obtain ⟨⟨⟨hc, hna⟩, hla⟩, hpa⟩ := ha
      obtain ⟨⟨⟨_, hnb⟩, hlb⟩, hpb⟩ := hb
      have e1 := entries_congr fmt cstack arr arr' (addr :: addrsA) (addr' :: addrsB) top
        h.1 hla hlb
      have e2 := pairs_congr fmt cstack hash hash' (addr :: addrsA) (addr' :: addrsB) top
        h.2 hpa hpb
      simp only [toCStringConverter, hc, Bool.not_true, Bool.false_eq_true, if_false,
        indexOf?_none_of_not_contains _ _ hna, indexOf?_none_of_not_contains _ _ hnb, e1, e2]
    | _ => simp [eraseAddr] at h
  | .nil, b, addrsA, addrsB, top, buf, h, _, _ => by
    cases b <;> simp [eraseAddr] at h
    simp only [toCStringConverter]
  | .boolean x, b, addrsA, addrsB, top, buf, h, _, _ => by
    cases b <;> simp [eraseAddr] at h
    subst h; simp only [toCStringConverter]
  | .lightuserdata x, b, addrsA, addrsB, top, buf, h, _, _ => by
    cases b <;> simp [eraseAddr] at h
    subst h; simp only [toCStringConverter]
  | .integer x, b, addrsA, addrsB, top, buf, h, _, _ => by
    cases b <;> simp [eraseAddr] at h
    subst h; simp only [toCStringConverter]
  | .double x, b, addrsA, addrsB, top, buf, h, _, _ => by
    cases b <;> simp [eraseAddr] at h
    subst h; simp only [toCStringConverter]
  | .string x, b, addrsA, addrsB, top, buf, h, _, _ => by
    cases b <;> simp [eraseAddr] at h
    subst h; simp only [toCStringConverter]
  | .func x, b, addrsA, addrsB, top, buf, h, _, _ => by
    cases b <;> simp [eraseAddr] at h
    subst h; simp only [toCStringConverter]
  | .userdata x, b, addrsA, addrsB, top, buf, h, _, _ => by
    cases b <;> simp [eraseAddr] at h
    subst h; simp only [toCStringConverter]
  | .thread x, b, addrsA, addrsB, top, buf, h, _, _ => by
    cases b <;> simp [eraseAddr] at h
    subst h; simp only [toCStringConverter]
theorem entries_congr (fmt : Formatter) (cstack : Nat) : ∀ (la lb : List LuaValue)
    (addrsA addrsB : List Nat) (top : Nat),
    eraseAddrList la = eraseAddrList lb → printableList cstack addrsA (top + 2) la = true →
    printableList cstack addrsB (top + 2) lb = true →
    ∀ (index : Nat) (st : PrintLoop), printEntries fmt cstack addrsA top la index st
      = printEntries fmt cstack addrsB top lb index st
  | [], lb, addrsA, addrsB, top, h, _, _ => by
    cases lb with
    | nil => intro index st; simp only [printEntries]
    | cons w lb => simp [eraseAddrList] at h
  | v :: rest, lb, addrsA, addrsB, top, h, ha, hb => by
    cases lb with
    | nil => simp [eraseAddrList] at h
    | cons w rest' =>
      simp only [eraseAddrList, List.cons.injEq] at h
      simp only [printableList, Bool.and_eq_true] at ha hb
      have hv := render_congr fmt cstack v w addrsA addrsB (top + 2)
      have ih := entries_congr fmt cstack rest rest' addrsA addrsB top h.2 ha.2 hb.2
      intro index st
      simp only [printEntries, lua_isnil_eraseAddr v w h.1, lua_isstring_eraseAddr v w h.1,
        fun buf => hv buf h.1 ha.1 hb.1, ih]
theorem pairs_congr (fmt : Formatter) (cstack : Nat) : ∀ (la lb : List (LuaValue × LuaValue))
    (addrsA addrsB : List Nat) (top : Nat),
    eraseAddrPairs la = eraseAddrPairs lb → printablePairs cstack addrsA (top + 2) la = true →
    printablePairs cstack addrsB (top + 2) lb = true →
    ∀ (st : PrintLoop), printPairs fmt cstack addrsA top la st
      = printPairs fmt cstack addrsB top lb st
  | [], lb, addrsA, addrsB, top, h, _, _ => by
    cases lb with
    | nil => intro st; simp only [printPairs]
    | cons w lb => obtain ⟨k, v⟩ := w; simp [eraseAddrPairs] at h
  | (k, v) :: rest, lb, addrsA, addrsB, top, h, ha, hb => by
    cases lb with
    | nil => simp [eraseAddrPairs] at h
    | cons w rest' =>
      obtain ⟨k', v'⟩ := w
      simp only [eraseAddrPairs, List.cons.injEq, Prod.mk.injEq] at h
      simp only [printablePairs, Bool.and_eq_true] at ha hb
      have hk := render_congr fmt cstack k k' addrsA addrsB (top + 2)
      have hv := render_congr fmt cstack v v' addrsA addrsB (top + 2)
      have ih := pairs_congr fmt cstack rest rest' addrsA addrsB top h.2 ha.2 hb.2
      intro st
      simp only [printPairs, lua_isstring_eraseAddr v v' h.1.2, keyIsIndex_eraseAddr k k' h.1.1,
        keyOpen_eraseAddr k k' h.1.1, keyClose_eraseAddr k k' h.1.1,
        fun buf => hk buf h.1.1 ha.1.1 hb.1.1, fun buf => hv buf h.1.2 ha.1.2 hb.1.2, ih]
end

theorem lookupGlobal_head (name : List Nat) (v : LuaValue)
    (globals : List (List Nat × LuaValue)) : lookupGlobal ((name, v) :: globals) name = v := by
  simp [lookupGlobal]

/-- C4 (counterexample): the defaults store holds no record for the variable `x`, the
exit-values store records 7, and the script declares `x` with the default nil.  The global
is set to the exit value 7, not to the declared default. -/
theorem nil_default_loads_exit_value :
    (emu_persistglobalvariables exampleEnv [] [⟨120, [9, 1, 33, 7]⟩]
        [[(.integer 1, .string [120])]] emptyPersistState).map
        (fun st => lookupGlobal st.globals [120]) = some (.integer 7)
      ∧ persistEntry (.integer 1) (.string [120]) = some ([120], .nil) := by
  exact ⟨rfl, rfl⟩

/-- C4 (amended): when the defaults store holds no record under the key of the variable,
the declared default `D` is compared with nil by `luaValueContentsDiffer`.  If the texts
differ the global is set to `D` and the exit-values store is not read; if they do not
differ, as for the default nil, the global is set to the value the exit-values store
yields for the key, and to `D` when it yields none. -/
theorem missing_default_compares_with_nil (env : Env) (defaultData exitData : LuaSaveData)
    (defaultIndex : Nat) (st : PersistState) (varName : List Nat) (D : LuaValue)
    (differ : Bool)
    (hd : defaultData.find? (fun cur => cur.key == env.crc32 varName) = none)
    (hcmp : luaValueContentsDiffer env.fmt env.cstack (defaultIndex + 1) D .nil
      = some differ) :
    (persistVariable env defaultData exitData defaultIndex st varName D).map
        (fun st' => lookupGlobal st'.globals varName)
      = (if differ then some D
        else match exitData.LoadRecord env.next (env.crc32 varName) 1 with
          | .error _ => none
          | .ok [] => some D
          | .ok (E :: _) => some E)
      ∧ luaValueContentsDiffer env.fmt env.cstack (defaultIndex + 1) .nil .nil
        = some false := by
  refine ⟨?_, by simp [luaValueContentsDiffer, toCStringConverter, APPENDPRINT]⟩
  have hl : defaultData.LoadRecord env.next (env.crc32 varName) 1 = .ok [] := by
    simp only [LuaSaveData.LoadRecord, hd]
  simp only [persistVariable, hl, List.length_append, List.length_cons, List.length_nil,
    List.nil_append, List.headD_cons, hcmp]
  cases differ with
  | true => simp [lookupGlobal_head]
  | false =>
    simp only [Bool.not_false, if_true, Bool.false_eq_true, if_false]
    cases he : exitData.LoadRecord env.next (env.crc32 varName) 1 with
    | error e => simp
    | ok l =>
      cases l with
      | nil => simp [lookupGlobal_head]
      | cons E tl => simp [lookupGlobal_head]

theorem missing_default_compares_with_nil_witness :
    (persistVariable exampleEnv [] [⟨120, [9, 1, 33, 7]⟩] 4 emptyPersistState [120]
        (.boolean true)).map (fun st' => lookupGlobal st'.globals [120])
      = (if true then some (.boolean true)
        else match LuaSaveData.LoadRecord [⟨120, [9, 1, 33, 7]⟩] exampleEnv.next
            (exampleEnv.crc32 [120]) 1 with
          | .error _ => none
          | .ok [] => some (.boolean true)
          | .ok (E :: _) => some E)
      ∧ luaValueContentsDiffer exampleEnv.fmt exampleEnv.cstack (4 + 1) .nil .nil
        = some false :=
  missing_default_compares_with_nil exampleEnv [] [⟨120, [9, 1, 33, 7]⟩] 4 emptyPersistState
    [120] (.boolean true) true rfl (by decide)

/-- C28: `LuaRescueHook` raises exactly when the panic flag is set on entry.  When it
returns, the panic flag is false, the worry count is at most `MAX_WORRY_COUNT` (6000), and
it is at most `MAX_WORRY_COUNT / 4` (1500) when the stop-worrying latch was set on entry. -/
theorem probe_raises_only_on_request (info : LuaContextInfo) :
    ((LuaRescueHook info).isRaised = true ↔ info.panic = true)
      ∧ ((LuaRescueHook info).isRaised = false →
          (LuaRescueHook info).info.panic = false
            ∧ (LuaRescueHook info).info.worryCount ≤ MAX_WORRY_COUNT
            ∧ (info.stopWorrying = true →
                (LuaRescueHook info).info.worryCount ≤ MAX_WORRY_COUNT / 4)) := by
  cases hp : info.panic <;> cases hs : info.stopWorrying <;>
    simp only [LuaRescueHook, hp, hs, MAX_WORRY_COUNT] <;>
    split_ifs <;> (simp_all [HookResult.isRaised, HookResult.info]; try omega)


/-! ## Shape of the three tiers -/

theorem calculateLoop_grow (g : Nat) : ∀ (rest : List Nat) (s last : Nat) (acc : List Island),
    last < 0xFFFFFFFF → (∀ x ∈ rest, x < 0xFFFFFFFF) →
    Region.calculateLoop g rest ({ start := s, end_ := last + 1 } :: acc) (last + 1)
      = some ((Region.grow g s last rest).reverse ++ acc) := by
  intro rest
  induction rest with
  | nil => intro s last acc _ _; simp [Region.calculateLoop, Region.grow]
  | cons addr rest ih =>
    intro s last acc hl hr
    have ha : addr < 0xFFFFFFFF := hr addr (List.mem_cons_self _ _)
    have hr' : ∀ x ∈ rest, x < 0xFFFFFFFF := fun x hx => hr x (List.mem_cons_of_mem _ hx)
    have hmod : (addr + 1) % 2 ^ 32 = addr + 1 := Nat.mod_eq_of_lt (by omega)
    by_cases c : (decide (addr < last + 1) || decide (addr > last + 1 + g)) = true
    · simp only [Region.calculateLoop, Region.grow, c, if_true, hmod]
      rw [ih addr addr _ ha hr']
      simp
    · simp only [Region.calculateLoop, Region.grow, c, if_false, hmod, Bool.false_eq_true]
      rw [ih s addr _ ha hr']

theorem Calculate_grow (g a : Nat) (rest : List Nat)
    (hb : ∀ x ∈ a :: rest, x < 0xFFFFFFFF) :
    Region.Calculate g (a :: rest) = some (Region.grow g a a rest) := by
  have ha : a < 0xFFFFFFFF := hb a (List.mem_cons_self _ _)
  have hr : ∀ x ∈ rest, x < 0xFFFFFFFF := fun x hx => hb x (List.mem_cons_of_mem _ hx)
  have hmod : (a + 1) % 2 ^ 32 = a + 1 := Nat.mod_eq_of_lt (by omega)
  have c : (decide (a < 0xFFFFFFFF) || decide (a > 0xFFFFFFFF + g)) = true := by simp [ha]
  simp only [Region.Calculate, Region.calculateLoop, c, if_true, hmod]
  rw [calculateLoop_grow g rest a a [] ha hr]
  simp

theorem Calculate_nil (g : Nat) : Region.Calculate g [] = some [] := rfl

theorem grow_head (g : Nat) : ∀ (rest : List Nat) (s last : Nat),
    ∃ e tl, Region.grow g s last rest = { start := s, end_ := e } :: tl ∧ last + 1 ≤ e := by
  intro rest
  induction rest with
  | nil => intro s last; exact ⟨last + 1, [], rfl, le_refl _⟩
  | cons addr rest ih =>
    intro s last
    by_cases c : (decide (addr < last + 1) || decide (addr > last + 1 + g)) = true
    · exact ⟨last + 1, Region.grow g addr addr rest,
        by simp only [Region.grow, c, if_true], le_refl _⟩
    · obtain ⟨e, tl, h, he⟩ := ih s addr
      refine ⟨e, tl, by simp only [Region.grow, c, h, Bool.false_eq_true, if_false], ?_⟩
      simp only [Bool.or_eq_true, decide_eq_true_eq, not_or, not_lt] at c
      omega

theorem grow_narrow_mem : ∀ (rest : List Nat) (s last : Nat), s ≤ last → ∀ x,
    (∃ i ∈ Region.grow 0 s last rest, i.covers x = true) ↔ ((s ≤ x ∧ x ≤ last) ∨ x ∈ rest) := by
  intro rest
  induction rest with
  | nil =>
    intro s last _ x
    simp [Region.grow, Island.covers]
    omega
  | cons addr rest ih =>
    intro s last hsl x
    by_cases c : (decide (addr < last + 1) || decide (addr > last + 1 + 0)) = true
    · simp only [Region.grow, c, if_true, List.mem_cons, exists_eq_or_imp, ih addr addr (le_refl _) x]
      simp only [Island.covers, Bool.and_eq_true, decide_eq_true_eq, List.mem_cons]
      have e1 : (s ≤ x ∧ x < last + 1) ↔ (s ≤ x ∧ x ≤ last) := by omega
      have e2 : (addr ≤ x ∧ x ≤ addr) ↔ x = addr := by omega
      rw [e1, e2]
    · simp only [Region.grow, c, Bool.false_eq_true, if_false]
      simp only [Bool.or_eq_true, decide_eq_true_eq, not_or, not_lt] at c
      rw [ih s addr (by omega) x]
      simp only [List.mem_cons]
      have e1 : (s ≤ x ∧ x ≤ addr) ↔ ((s ≤ x ∧ x ≤ last) ∨ x = addr) := by omega
      rw [e1, or_assoc]

theorem grow_narrow_chain : ∀ (rest : List Nat) (s last : Nat),
    (last :: rest).Chain' (fun a b => a < b) →
    (Region.grow 0 s last rest).Chain' (fun i j => i.end_ < j.start) := by
  intro rest
  induction rest with
  | nil => intro s last _; simp [Region.grow]
  | cons addr rest ih =>
    intro s last hc
    rw [List.chain'_cons] at hc
    by_cases c : (decide (addr < last + 1) || decide (addr > last + 1 + 0)) = true
    · simp only [Region.grow, c, if_true]
      obtain ⟨e, tl, h, _⟩ := grow_head 0 rest addr addr
      have ht := ih addr addr hc.2
      rw [h] at ht ⊢
      rw [List.chain'_cons]
      refine ⟨?_, ht⟩
      simp only [Bool.or_eq_true, decide_eq_true_eq] at c
      show last + 1 < addr
      omega
    · simp only [Region.grow, c, Bool.false_eq_true, if_false]
      exact ih s addr hc.2

theorem grow_nested (g1 g2 : Nat) (hg : g1 ≤ g2) : ∀ (rest : List Nat) (s1 s2 last : Nat),
    s2 ≤ s1 → s1 ≤ last →
    ∀ i ∈ Region.grow g1 s1 last rest, ∃ j ∈ Region.grow g2 s2 last rest,
      j.start ≤ i.start ∧ i.end_ ≤ j.end_ := by
  intro rest
  induction rest with
  | nil =>
    intro s1 s2 last h21 _ i hi
    simp only [Region.grow, List.mem_singleton] at hi ⊢
    subst hi
    exact ⟨_, rfl, h21, le_refl _⟩
  | cons addr rest ih =>
    intro s1 s2 last h21 h1l i hi
    by_cases c2 : (decide (addr < last + 1) || decide (addr > last + 1 + g2)) = true
    · have c1 : (decide (addr < last + 1) || decide (addr > last + 1 + g1)) = true := by
        simp only [Bool.or_eq_true, decide_eq_true_eq] at c2 ⊢
        omega
      simp only [Region.grow, c1, c2, if_true, List.mem_cons] at hi ⊢
      rcases hi with hi | hi
      · subst hi
        exact ⟨_, Or.inl rfl, h21, le_refl _⟩
      · obtain ⟨j, hj, hjs⟩ := ih addr addr addr (le_refl _) (le_refl _) i hi
        exact ⟨j, Or.inr hj, hjs⟩
    · have hge : last + 1 ≤ addr := by
        simp only [Bool.or_eq_true, decide_eq_true_eq, not_or, not_lt] at c2
        omega
      by_cases c1 : (decide (addr < last + 1) || decide (addr > last + 1 + g1)) = true
      · simp only [Region.grow, c1, c2, if_true, Bool.false_eq_true, if_false,
          List.mem_cons] at hi ⊢
        rcases hi with hi | hi
        · subst hi
          obtain ⟨e, tl, h, he⟩ := grow_head g2 rest s2 addr
          refine ⟨{ start := s2, end_ := e }, by rw [h]; exact List.mem_cons_self _ _, h21, ?_⟩
          show last + 1 ≤ e
          omega
        · exact ih addr s2 addr (by omega) (le_refl _) i hi
      · simp only [Region.grow, c1, c2, Bool.false_eq_true, if_false] at hi ⊢
        exact ih s1 s2 addr h21 (by omega) i hi
theorem grow_cons_break (g s last addr : Nat) (rest : List Nat)
    (c : (decide (addr < last + 1) || decide (addr > last + 1 + g)) = true) :
    Region.grow g s last (addr :: rest)
      = { start := s, end_ := last + 1 } :: Region.grow g addr addr rest := by
  simp only [Region.grow, c, if_true]

theorem grow_cons_keep (g s last addr : Nat) (rest : List Nat)
    (c : ¬ (decide (addr < last + 1) || decide (addr > last + 1 + g)) = true) :
    Region.grow g s last (addr :: rest) = Region.grow g s addr rest := by
  simp only [Region.grow, c, Bool.false_eq_true, if_false]

theorem grow_starts (g : Nat) : ∀ (rest : List Nat) (s last : Nat), s ≤ last →
    (last :: rest).Sorted (fun a b => a ≤ b) →
    ∀ i ∈ Region.grow g s last rest, s ≤ i.start := by
  intro rest
  induction rest with
  | nil =>
    intro s last _ _ i hi
    simp only [Region.grow, List.mem_singleton] at hi
    subst hi; exact le_refl _
  | cons addr rest ih =>
    intro s last hsl hsorted i hi
    have hla : last ≤ addr := List.rel_of_sorted_cons hsorted addr (List.mem_cons_self _ _)
    have htl : (addr :: rest).Sorted (fun a b => a ≤ b) := hsorted.of_cons
    by_cases c : (decide (addr < last + 1) || decide (addr > last + 1 + g)) = true
    · simp only [Region.grow, c, if_true, List.mem_cons] at hi
      rcases hi with hi | hi
      · subst hi; exact le_refl _
      · have := ih addr addr (le_refl _) htl i hi
        omega
    · simp only [Region.grow, c, Bool.false_eq_true, if_false] at hi
      exact ih s addr (by omega) htl i hi

theorem grow_append (g : Nat) : ∀ (pre : List Nat) (s last a : Nat) (rest : List Nat),
    s ≤ last → (last :: (pre ++ a :: rest)).Sorted (fun a b => a ≤ b) →
    ∃ init s', Region.grow g s last (pre ++ a :: rest) = init ++ Region.grow g s' a rest
      ∧ s' ≤ a ∧ ∀ i ∈ init, i.end_ ≤ a + 1 := by
  intro pre
  induction pre with
  | nil =>
    intro s last a rest hsl hsorted
    have hla : last ≤ a := List.rel_of_sorted_cons hsorted a (List.mem_cons_self _ _)
    by_cases c : (decide (a < last + 1) || decide (a > last + 1 + g)) = true
    · refine ⟨[{ start := s, end_ := last + 1 }], a, ?_, le_refl _, ?_⟩
      · simp only [List.nil_append, Region.grow, c, if_true, List.singleton_append]
      · intro i hi
        simp only [List.mem_singleton] at hi
        subst hi
        show last + 1 ≤ a + 1
        omega
    · refine ⟨[], s, ?_, by omega, ?_⟩
      · simp only [List.nil_append, Region.grow, c, Bool.false_eq_true, if_false]
      · intro i hi; simp at hi
  | cons p pre ih =>
    intro s last a rest hsl hsorted
    have hlp : last ≤ p := List.rel_of_sorted_cons hsorted p (List.mem_cons_self _ _)
    have hla : last ≤ a := List.rel_of_sorted_cons hsorted a (by simp)
    have htl : (p :: (pre ++ a :: rest)).Sorted (fun a b => a ≤ b) := hsorted.of_cons
    by_cases c : (decide (p < last + 1) || decide (p > last + 1 + g)) = true
    · obtain ⟨init, s', h, hs', hinit⟩ := ih p p a rest (le_refl _) htl
      refine ⟨{ start := s, end_ := last + 1 } :: init, s', ?_, hs', ?_⟩
      · rw [List.cons_append, grow_cons_break g s last p _ c, h, List.cons_append]
      · intro i hi
        simp only [List.mem_cons] at hi
        rcases hi with hi | hi
        · subst hi
          show last + 1 ≤ a + 1
          omega
        · exact hinit i hi
    · obtain ⟨init, s', h, hs', hinit⟩ := ih s p a rest (by omega) htl
      exact ⟨init, s', by rw [List.cons_append, grow_cons_keep g s last p _ c, h], hs', hinit⟩

theorem grow_share (g : Nat) (init : List Island) (s' a b : Nat) (post : List Nat)
    (hs : s' ≤ a) (hab : a < b) (hsorted : (b :: post).Sorted (fun a b => a ≤ b))
    (hinit : ∀ i ∈ init, i.end_ ≤ a + 1) :
    (∃ i ∈ init ++ Region.grow g s' a (b :: post), i.covers a = true ∧ i.covers b = true)
      ↔ b - (a + 1) ≤ g := by
  by_cases c : (decide (b < a + 1) || decide (b > a + 1 + g)) = true
  · have hgap : ¬ b - (a + 1) ≤ g := by
      simp only [Bool.or_eq_true, decide_eq_true_eq] at c
      omega
    simp only [Region.grow, c, if_true, hgap, iff_false, not_exists, not_and,
      List.mem_append, List.mem_cons]
    intro i hi ha hb
    simp only [Island.covers, Bool.and_eq_true, decide_eq_true_eq] at ha hb
    rcases hi with hi | hi | hi
    · have := hinit i hi
      omega
    · subst hi
      have := hb.2
      change b < a + 1 at this
      omega
    · have := grow_starts g post b b (le_refl _) hsorted i hi
      omega
  · have hgap : b - (a + 1) ≤ g := by
      simp only [Bool.or_eq_true, decide_eq_true_eq, not_or, not_lt] at c
      omega
    simp only [Region.grow, c, Bool.false_eq_true, if_false, hgap, iff_true]
    obtain ⟨e, tl, h, he⟩ := grow_head g post s' b
    refine ⟨{ start := s', end_ := e }, by rw [h]; simp, ?_, ?_⟩
    · simp only [Island.covers, Bool.and_eq_true, decide_eq_true_eq]; omega
    · simp only [Island.covers, Bool.and_eq_true, decide_eq_true_eq]; omega

/-- C21: for a sorted list of addresses below 0xFFFFFFFF, `TieredRegion::Calculate`
succeeds, every island of the narrow tier lies inside an island of the mid tier, every
island of the mid tier lies inside an island of the broad tier, and two neighbours
`a < b` of the list lie in one common island of the mid tier exactly when
`b - (a + 1) <= 4096`. -/
theorem tiers_progressively_tighter (bytes : List Nat)
    (hb : ∀ x ∈ bytes, x < 0xFFFFFFFF) (hs : bytes.Sorted (fun a b => a ≤ b)) :
    ∃ r, TieredRegion.Calculate bytes = some r
      ∧ (∀ i ∈ r.narrow, ∃ j ∈ r.mid, j.start ≤ i.start ∧ i.end_ ≤ j.end_)
      ∧ (∀ i ∈ r.mid, ∃ j ∈ r.broad, j.start ≤ i.start ∧ i.end_ ≤ j.end_)
      ∧ (∀ pre a b post, bytes = pre ++ a :: b :: post → a < b →
          ((∃ i ∈ r.mid, i.covers a = true ∧ i.covers b = true) ↔ b - (a + 1) ≤ 4096)) := by
  have hsort : bytes.insertionSort (fun a b => a ≤ b) = bytes := hs.insertionSort_eq
  cases bytes with
  | nil =>
    refine ⟨⟨[], [], []⟩, rfl, by simp, by simp, ?_⟩
    intro pre a b post h; simp at h
  | cons x rest =>
    refine ⟨⟨Region.grow 0xFFFFFFFF x x rest, Region.grow 0x1000 x x rest,
      Region.grow 0 x x rest⟩, ?_, ?_, ?_, ?_⟩
    · simp only [TieredRegion.Calculate, hsort, Calculate_grow _ x rest hb]
    · exact grow_nested 0 0x1000 (by decide) rest x x x (le_refl _) (le_refl _)
    · exact grow_nested 0x1000 0xFFFFFFFF (by decide) rest x x x (le_refl _) (le_refl _)
    · intro pre a b post h hab
      show (∃ i ∈ Region.grow 0x1000 x x rest, _) ↔ _
      cases pre with
      | nil =>
        simp only [List.nil_append, List.cons.injEq] at h
        obtain ⟨rfl, rfl⟩ := h
        have := grow_share 0x1000 [] x x b post (le_refl _) hab hs.of_cons (by simp)
        simpa using this
      | cons p pre =>
        simp only [List.cons_append, List.cons.injEq] at h
        obtain ⟨rfl, rfl⟩ := h
        obtain ⟨init, s', hg, hs', hinit⟩ :=
          grow_append 0x1000 pre x x a (b :: post) (le_refl _) hs
        rw [hg]
        have hbp : (b :: post).Sorted (fun a b => a ≤ b) := by
          have h1 := hs.of_cons
          have h2 : (pre ++ a :: b :: post).Sorted (fun a b => a ≤ b) := h1
          have h3 := (List.pairwise_append.mp h2).2.1
          exact h3.of_cons
        exact grow_share 0x1000 init s' a b post hs' hab hbp hinit

theorem tiers_progressively_tighter_witness :
    ∃ r, TieredRegion.Calculate [0x7E0010, 0x7E0011, 0x7E0800, 0x7E2000] = some r
      ∧ (∀ i ∈ r.narrow, ∃ j ∈ r.mid, j.start ≤ i.start ∧ i.end_ ≤ j.end_)
      ∧ (∀ i ∈ r.mid, ∃ j ∈ r.broad, j.start ≤ i.start ∧ i.end_ ≤ j.end_)
      ∧ (∀ pre a b post, [0x7E0010, 0x7E0011, 0x7E0800, 0x7E2000] = pre ++ a :: b :: post →
          a < b →
          ((∃ i ∈ r.mid, i.covers a = true ∧ i.covers b = true) ↔ b - (a + 1) ≤ 4096)) :=
  tiers_progressively_tighter [0x7E0010, 0x7E0011, 0x7E0800, 0x7E2000] (by decide)
    (by decide)

/-- C29: for a list of addresses below 0xFFFFFFFF, `Region<0>::Calculate` succeeds and an
address lies inside some island `[start, end)` of the result exactly when it is one of the
addresses of the list; when the list is strictly increasing, the islands are in increasing
order with a gap between neighbours, so each is a maximal run of consecutive addresses. -/
theorem narrow_tier_exact (bytes : List Nat) (hb : ∀ x ∈ bytes, x < 0xFFFFFFFF) :
    ∃ islands, Region.Calculate 0 bytes = some islands
      ∧ (∀ x, (∃ i ∈ islands, i.covers x = true) ↔ x ∈ bytes)
      ∧ (bytes.Chain' (fun a b => a < b) →
          islands.Chain' (fun i j => i.end_ < j.start)) := by
  cases bytes with
  | nil => exact ⟨[], rfl, by simp, by simp⟩
  | cons a rest =>
    refine ⟨Region.grow 0 a a rest, Calculate_grow 0 a rest hb, ?_, ?_⟩
    · intro x
      rw [grow_narrow_mem rest a a (le_refl _) x, List.mem_cons]
      have e : (a ≤ x ∧ x ≤ a) ↔ x = a := by omega
      rw [e]
    · exact grow_narrow_chain rest a a

theorem narrow_tier_exact_witness :
    ∃ islands, Region.Calculate 0 [0x7E0010, 0x7E0011, 0x7E0020] = some islands
      ∧ (∀ x, (∃ i ∈ islands, i.covers x = true) ↔ x ∈ [0x7E0010, 0x7E0011, 0x7E0020])
      ∧ (([0x7E0010, 0x7E0011, 0x7E0020] : List Nat).Chain' (fun a b => a < b) →
          islands.Chain' (fun i j => i.end_ < j.start)) :=
  narrow_tier_exact [0x7E0010, 0x7E0011, 0x7E0020] (by decide)


/-! ## Export and import of records -/

theorem fwriteint_eq (v : Nat) :
    fwriteint v = [v % 256, v / 256 % 256, v / 65536 % 256, v / 16777216 % 256] := by
  simp only [fwriteint, and_FF, Nat.shiftRight_eq_div_pow]
  norm_num [Nat.div_div_eq_div_mul]

theorem freadint_bytes (b0 b1 b2 b3 : Nat) (rest : List Nat) (h0 : b0 < 256) (h1 : b1 < 256)
    (h2 : b2 < 256) (h3 : b3 < 256) :
    freadint { rest := b0 :: b1 :: b2 :: b3 :: rest, eof := false }
      = (b0 + 256 * b1 + 65536 * b2 + 16777216 * b3, { rest := rest, eof := false }) := by
  obtain ⟨e1, e2⟩ := or_bytes b0 b1 b2 b3 h0 h1 h2
  unfold freadint fread
  simp [e1, e2]
  omega

theorem freadint_fwriteint (v : Nat) (hv : v < 2 ^ 32) (rest : List Nat) :
    freadint { rest := fwriteint v ++ rest, eof := false }
      = (v, { rest := rest, eof := false }) := by
  rw [fwriteint_eq]
  simp only [List.cons_append, List.nil_append]
  rw [freadint_bytes _ _ _ _ rest (Nat.mod_lt _ (by norm_num)) (Nat.mod_lt _ (by norm_num))
    (Nat.mod_lt _ (by norm_num)) (Nat.mod_lt _ (by norm_num))]
  congr 1
  omega

theorem freadint_eof (eof : Bool) :
    freadint { rest := [], eof := eof } = (0, { rest := [], eof := true }) := by
  simp [freadint, fread]

theorem fread_exact (data rest : List Nat) :
    fread data.length { rest := data ++ rest, eof := false }
      = (data, { rest := rest, eof := false }) := by
  unfold fread
  simp

theorem importPass_record (fresh : Nat → List Nat) (r : Record) (rest : List Nat)
    (hk : r.key < 2 ^ 32) (hd : r.data.length < 2 ^ 32) :
    LuaSaveData.importPass fresh
      { rest := fwriteint r.key ++ fwriteint r.data.length ++ r.data ++ rest, eof := false }
      = some (r, { rest := rest, eof := false }) := by
  unfold LuaSaveData.importPass
  rw [List.append_assoc, List.append_assoc, freadint_fwriteint _ hk]
  simp only
  rw [freadint_fwriteint _ hd]
  simp only [Bool.false_eq_true, if_false]
  rw [fread_exact]
  simp [List.drop_take]

theorem importPass_eof (fresh : Nat → List Nat) :
    LuaSaveData.importPass fresh { rest := [], eof := false } = none := by
  unfold LuaSaveData.importPass
  rw [freadint_eof]
  simp only
  rw [freadint_eof]
  simp

theorem length_ExportRecords (records : LuaSaveData) :
    8 * records.length ≤ (LuaSaveData.ExportRecords records).length := by
  induction records with
  | nil => simp
  | cons r rs ih =>
    simp only [LuaSaveData.ExportRecords, fwriteint_eq, List.length_append, List.length_cons,
      List.length_nil]
    omega

theorem importLoop_export (fresh : Nat → List Nat) : ∀ (records : LuaSaveData) (fuel : Nat)
    (acc : LuaSaveData), records.length + 1 ≤ fuel →
    (∀ r ∈ records, r.key < 2 ^ 32 ∧ r.data.length < 2 ^ 32) →
    LuaSaveData.importLoop fresh fuel
      { rest := LuaSaveData.ExportRecords records, eof := false } acc = some (acc ++ records) := by
  intro records
  induction records with
  | nil =>
    intro fuel acc hf _
    obtain ⟨f, rfl⟩ : ∃ f, fuel = f + 1 := ⟨fuel - 1, by simp at hf; omega⟩
    simp only [LuaSaveData.importLoop, LuaSaveData.ExportRecords, importPass_eof,
      List.append_nil]
  | cons r rs ih =>
    intro fuel acc hf hr
    obtain ⟨f, rfl⟩ : ∃ f, fuel = f + 1 := ⟨fuel - 1, by simp at hf; omega⟩
    have hk := (hr r (List.mem_cons_self _ _)).1
    have hd := (hr r (List.mem_cons_self _ _)).2
    simp only [LuaSaveData.importLoop, LuaSaveData.ExportRecords]
    rw [importPass_record fresh r _ hk hd]
    simp only
    rw [ih f (acc ++ [r]) (by simp at hf; omega)
      (fun x hx => hr x (List.mem_cons_of_mem _ hx))]
    simp
theorem freadint_consumes (file : FileStream) (h : (freadint file).2.eof = false) :
    (freadint file).2.rest.length + 4 = file.rest.length := by
  obtain ⟨rest, eof⟩ := file
  rcases rest with _ | ⟨b0, _ | ⟨b1, _ | ⟨b2, _ | ⟨b3, rest⟩⟩⟩⟩ <;>
    unfold freadint fread at h ⊢ <;> simp at h ⊢

theorem freadint_eof_sticky (file : FileStream) (h : file.eof = true) :
    (freadint file).2.eof = true := by
  obtain ⟨rest, eof⟩ := file
  simp only at h
  subst h
  rcases rest with _ | ⟨b0, _ | ⟨b1, _ | ⟨b2, _ | ⟨b3, rest⟩⟩⟩⟩ <;>
    unfold freadint fread <;> simp

theorem importPass_consumes (fresh : Nat → List Nat) (file file' : FileStream) (cur : Record)
    (h : LuaSaveData.importPass fresh file = some (cur, file')) :
    file'.rest.length + 8 ≤ file.rest.length := by
  unfold LuaSaveData.importPass at h
  simp only at h
  by_cases he : (freadint (freadint file).2).2.eof = true
  · simp [he] at h
  · simp only [he, if_false, Option.some.injEq, Prod.mk.injEq, Bool.false_eq_true] at h
    have he' : (freadint (freadint file).2).2.eof = false := by simpa using he
    have h2 := freadint_consumes _ he'
    have he1 : (freadint file).2.eof = false := by
      by_contra hc
      have hc' : (freadint file).2.eof = true := by simpa using hc
      exact he (freadint_eof_sticky _ hc')
    have h1 := freadint_consumes _ he1
    rw [← h.2]
    have h3 : ∀ (n : Nat) (f : FileStream), (fread n f).2.rest.length ≤ f.rest.length := by
      intro n f
      unfold fread
      split_ifs <;> simp
    have := h3 (freadint (freadint file).2).1 (freadint (freadint file).2).2
    omega

theorem importLoop_total (fresh : Nat → List Nat) : ∀ (fuel : Nat) (file : FileStream)
    (acc : LuaSaveData), file.rest.length / 8 + 1 ≤ fuel →
    ∃ l, LuaSaveData.importLoop fresh fuel file acc = some l := by
  intro fuel
  induction fuel with
  | zero => intro file acc h; omega
  | succ f ih =>
    intro file acc h
    cases hp : LuaSaveData.importPass fresh file with
    | none => exact ⟨acc, by simp only [LuaSaveData.importLoop, hp]⟩
    | some p =>
      obtain ⟨cur, file'⟩ := p
      have hc := importPass_consumes fresh file file' cur hp
      obtain ⟨l, hl⟩ := ih file' (acc ++ [cur]) (by omega)
      exact ⟨l, by simp only [LuaSaveData.importLoop, hp, hl]⟩

/-- C24: `ExportRecords` writes, for each record in list order, the key in four
little-endian bytes, the size in four little-endian bytes and then the data, and nothing
else; `ImportRecords` on these bytes discards the old contents of the store and yields the
same records in the same order.  (Keys and sizes are `unsigned int`.)  On any file at all
`ImportRecords` returns. -/
theorem export_import_round_trip (fresh : Nat → List Nat) (records old : LuaSaveData)
    (file : List Nat) (hr : ∀ r ∈ records, r.key < 2 ^ 32 ∧ r.data.length < 2 ^ 32) :
    LuaSaveData.ExportRecords records
        = (records.map (fun r =>
            bytesLE 4 r.key ++ bytesLE 4 r.data.length ++ r.data)).flatten
      ∧ LuaSaveData.ImportRecords fresh old (LuaSaveData.ExportRecords records) = some records
      ∧ ∃ l, LuaSaveData.ImportRecords fresh old file = some l := by
  refine ⟨?_, ?_, ?_⟩
  · induction records with
    | nil => rfl
    | cons r rs ih =>
      have e : ∀ v, fwriteint v = bytesLE 4 v := by
        intro v
        rw [fwriteint_eq]
        simp only [bytesLE, List.cons.injEq, and_true, true_and]
        omega
      simp only [LuaSaveData.ExportRecords, List.map_cons, List.flatten_cons, e,
        ih (fun x hx => hr x (List.mem_cons_of_mem _ hx))]
  · have hlen := length_ExportRecords records
    have := importLoop_export fresh records
      ((LuaSaveData.ExportRecords records).length / 8 + 1) [] (by omega) hr
    simpa [LuaSaveData.ImportRecords] using this
  · exact importLoop_total fresh _ _ [] (le_refl _)

theorem export_import_round_trip_witness :
    LuaSaveData.ExportRecords [⟨120, [9, 1, 33, 7]⟩, ⟨0xFFFFFFFF, []⟩]
        = (([⟨120, [9, 1, 33, 7]⟩, ⟨0xFFFFFFFF, []⟩] : LuaSaveData).map (fun r =>
            bytesLE 4 r.key ++ bytesLE 4 r.data.length ++ r.data)).flatten
      ∧ LuaSaveData.ImportRecords (fun n => List.replicate n 0) [⟨5, [1]⟩]
          (LuaSaveData.ExportRecords [⟨120, [9, 1, 33, 7]⟩, ⟨0xFFFFFFFF, []⟩])
        = some [⟨120, [9, 1, 33, 7]⟩, ⟨0xFFFFFFFF, []⟩]
      ∧ ∃ l, LuaSaveData.ImportRecords (fun n => List.replicate n 0) [⟨5, [1]⟩]
          [120, 0, 0, 0, 4, 0, 0] = some l :=
  export_import_round_trip (fun n => List.replicate n 0) [⟨120, [9, 1, 33, 7]⟩, ⟨0xFFFFFFFF, []⟩]
    [⟨5, [1]⟩] [120, 0, 0, 0, 4, 0, 0] (by decide)


/-! ## Capped lookup of a record -/

theorem encodeStack_append (cstack top : Nat) (a b : List LuaValue) :
    encodeStack cstack top (a ++ b) = encodeStack cstack top a ++ encodeStack cstack top b := by
  induction a with
  | nil => rfl
  | cons v a ih => simp [encodeStack, ih]

theorem stack_roundtrip_capped (cstack top : Nat) : ∀ (l : List LuaValue) (fuel next : Nat)
    (pushed : List LuaValue) (tail : List Nat), supportedList cstack [] top l = true →
    2 * (encodeStack cstack top l).length + 1 ≤ fuel →
    ∃ l', decodeStack fuel next (encodeStack cstack top l ++ tail) l.length pushed
        = .ok (pushed ++ l')
      ∧ eraseAddrList l' = eraseAddrList l := by
  intro l
  induction l with
  | nil =>
    intro fuel next pushed tail _ hf
    obtain ⟨f, rfl⟩ : ∃ f, fuel = f + 1 := ⟨fuel - 1, by omega⟩
    exact ⟨[], by simp [encodeStack, decodeStack], rfl⟩
  | cons v l ih =>
    intro fuel next pushed tail hs hf
    simp only [supportedList, Bool.and_eq_true] at hs
    simp only [encodeStack, List.length_append] at hf ⊢
    obtain ⟨b, tl, hb, _⟩ := encode_head cstack [] top v hs.1
    have hlen : 1 ≤ (LuaStackToBinaryConverter cstack [] top v).length := by rw [hb]; simp
    obtain ⟨f, rfl⟩ : ∃ f, fuel = f + 1 := ⟨fuel - 1, by omega⟩
    obtain ⟨v', next1, hconv, herv⟩ := conv_roundtrip cstack v [] top f next
      (encodeStack cstack top l ++ tail) hs.1 (by omega)
    obtain ⟨l', hdec, herl⟩ := ih f next1 (pushed ++ [v']) tail hs.2 (by omega)
    refine ⟨v' :: l', ?_, by simp [eraseAddrList, herv, herl]⟩
    have hpos : (((LuaStackToBinaryConverter cstack [] top v ++ encodeStack cstack top l)
        ++ tail).length > 0 && (v :: l).length > 0) = true := by
      simp only [List.length_append, List.length_cons, gt_iff_lt, Bool.and_eq_true,
        decide_eq_true_eq]
      omega
    rw [List.append_assoc] at hpos ⊢
    simp only [decodeStack, hpos, if_true, hconv]
    simp only [List.length_cons, Nat.add_sub_cancel, hdec]
    simp

theorem find?_first_key (before after : LuaSaveData) (r : Record)
    (h : ∀ x ∈ before, x.key ≠ r.key) :
    (before ++ r :: after).find? (fun cur => cur.key == r.key) = some r := by
  induction before with
  | nil => simp
  | cons x xs ih =>
    have hx : (x.key == r.key) = false := by
      simpa using h x (List.mem_cons_self _ _)
    simp only [List.cons_append, List.find?_cons, hx]
    exact ih (fun y hy => h y (List.mem_cons_of_mem _ hy))

theorem find?_no_key (l : LuaSaveData) (key : Nat) (h : ∀ x ∈ l, x.key ≠ key) :
    l.find? (fun cur => cur.key == key) = none := by
  simp only [List.find?_eq_none, beq_iff_eq]
  exact fun x hx => h x hx

/-- C25: `LoadRecord` pushes nothing when no record of the store has the key.  Otherwise it
decodes the first record with the key: when that record holds the encoding of `n`
supported values and the cap is `k`, exactly the first `min k n` values are pushed, in
order (up to table addresses); and for `k <= n` the result is the same whatever bytes
follow the encoding of the first `k` values, so the rest is not decoded. -/
theorem capped_lookup (cstack next key k : Nat) (absent before after : LuaSaveData)
    (stack : List LuaValue) (tail : List Nat) (hne : stack ≠ [])
    (hs : ∀ v ∈ stack, supported cstack [] stack.length v = true)
    (habs : ∀ r ∈ absent, r.key ≠ key) (hkey : ∀ r ∈ before, r.key ≠ key) :
    LuaSaveData.LoadRecord absent next key k = .ok []
      ∧ (∃ bytes decoded, LuaStackToBinary cstack stack = some bytes
          ∧ LuaSaveData.LoadRecord (before ++ ⟨key, bytes⟩ :: after) next key k = .ok decoded
          ∧ decoded.length = min k stack.length
          ∧ decoded.map eraseAddr = (stack.take k).map eraseAddr)
      ∧ (k ≤ stack.length → ∃ decoded,
          LuaSaveData.LoadRecord (before ++ ⟨key, luaBinaryMajorVersion :: luaBinaryMinorVersion
              :: (encodeStack cstack stack.length (stack.take k) ++ tail)⟩ :: after) next key k
            = .ok decoded
          ∧ decoded.map eraseAddr = (stack.take k).map eraseAddr) := by
  have hlen : ¬ stack.length = 0 := by
    intro h; exact hne (List.length_eq_zero.mp h)
  have htake : supportedList cstack [] stack.length (stack.take k) = true :=
    supportedList_of_forall _ _ _ _ (fun v hv => hs v (List.mem_of_mem_take hv))
  -- decoding the encoding of the first `k` values followed by anything
  have capped : ∀ tail : List Nat, k ≤ stack.length → ∃ decoded,
      BinaryToLuaStack next (luaBinaryMajorVersion :: luaBinaryMinorVersion
        :: (encodeStack cstack stack.length (stack.take k) ++ tail)) k = .ok decoded
      ∧ eraseAddrList decoded = eraseAddrList (stack.take k) := by
    intro tail hk
    obtain ⟨l', hdec, her⟩ := stack_roundtrip_capped cstack stack.length (stack.take k)
      (2 * (encodeStack cstack stack.length (stack.take k) ++ tail).length + 2) next [] tail
      htake (by simp only [List.length_append]; omega)
    refine ⟨l', ?_, her⟩
    simp only [BinaryToLuaStack, bne_self_eq_false, Bool.or_self, Bool.false_eq_true, if_false]
    rw [List.length_take, Nat.min_eq_left hk] at hdec
    simpa using hdec
  refine ⟨?_, ?_, ?_⟩
  · simp only [LuaSaveData.LoadRecord, find?_no_key absent key habs]
  · refine ⟨luaBinaryMajorVersion :: luaBinaryMinorVersion
      :: encodeStack cstack stack.length stack, ?_⟩
    have hfind := find?_first_key before after
      ⟨key, luaBinaryMajorVersion :: luaBinaryMinorVersion
        :: encodeStack cstack stack.length stack⟩ hkey
    by_cases hk : k ≤ stack.length
    · obtain ⟨decoded, hdec, her⟩ := capped (encodeStack cstack stack.length (stack.drop k)) hk
      rw [← encodeStack_append, List.take_append_drop] at hdec
      refine ⟨decoded, by simp [LuaStackToBinary, hlen], ?_, ?_, ?_⟩
      · simp only [LuaSaveData.LoadRecord, hfind, hdec]
      · have := congrArg List.length her
        rw [eraseAddrList_eq_map, eraseAddrList_eq_map] at this
        simpa using this
      · rw [← eraseAddrList_eq_map, ← eraseAddrList_eq_map, her]
    · obtain ⟨l', hdec, her⟩ := stack_roundtrip cstack stack.length stack
        (2 * (encodeStack cstack stack.length stack).length + 2) next k []
        (supportedList_of_forall _ _ _ _ hs) (by omega) (by omega)
      have hall : stack.take k = stack := List.take_of_length_le (by omega)
      refine ⟨l', by simp [LuaStackToBinary, hlen], ?_, ?_, ?_⟩
      · simp only [LuaSaveData.LoadRecord, hfind, BinaryToLuaStack, bne_self_eq_false,
          Bool.or_self, Bool.false_eq_true, if_false]
        simpa using hdec
      · have := congrArg List.length her
        rw [eraseAddrList_eq_map, eraseAddrList_eq_map] at this
        simp only [List.length_map] at this
        rw [this]; omega
      · rw [hall, ← eraseAddrList_eq_map, ← eraseAddrList_eq_map, her]
  · intro hk
    obtain ⟨decoded, hdec, her⟩ := capped tail hk
    have hfind := find?_first_key before after
      ⟨key, luaBinaryMajorVersion :: luaBinaryMinorVersion
        :: (encodeStack cstack stack.length (stack.take k) ++ tail)⟩ hkey
    refine ⟨decoded, ?_, ?_⟩
    · simp only [LuaSaveData.LoadRecord, hfind, hdec]
    · rw [← eraseAddrList_eq_map, ← eraseAddrList_eq_map, her]

theorem capped_lookup_witness :
    LuaSaveData.LoadRecord [⟨5, [9, 1, 0]⟩] 100 120 2 = .ok []
      ∧ (∃ bytes decoded, LuaStackToBinary 8000 exampleStack = some bytes
          ∧ LuaSaveData.LoadRecord ([⟨5, [9, 1, 0]⟩] ++ ⟨120, bytes⟩ :: [⟨120, [9, 1, 1, 1]⟩])
              100 120 2 = .ok decoded
          ∧ decoded.length = min 2 exampleStack.length
          ∧ decoded.map eraseAddr = (exampleStack.take 2).map eraseAddr)
      ∧ (2 ≤ exampleStack.length → ∃ decoded,
          LuaSaveData.LoadRecord ([⟨5, [9, 1, 0]⟩] ++ ⟨120,
              luaBinaryMajorVersion :: luaBinaryMinorVersion
              :: (encodeStack 8000 exampleStack.length (exampleStack.take 2) ++ [200, 201])⟩
              :: [⟨120, [9, 1, 1, 1]⟩]) 100 120 2
            = .ok decoded
          ∧ decoded.map eraseAddr = (exampleStack.take 2).map eraseAddr) :=
  capped_lookup 8000 100 120 2 [⟨5, [9, 1, 0]⟩] [⟨5, [9, 1, 0]⟩] [⟨120, [9, 1, 1, 1]⟩]
    exampleStack [200, 201] (by simp [exampleStack]) (by decide) (by decide) (by decide)


/-! ## Script code that runs while the context is marked running -/

theorem RequestAbort_fields (env : Env) (info : LuaContextInfo) (m : Option (List Nat)) :
    (RequestAbortLuaScript env info m).running = info.running
      ∧ (RequestAbortLuaScript env info m).ranExit = info.ranExit
      ∧ (RequestAbortLuaScript env info m).L.isSome = info.L.isSome
      ∧ (RequestAbortLuaScript env info m).guiFuncsNeedDeferring = info.guiFuncsNeedDeferring
      ∧ (RequestAbortLuaScript env info m).crashed = info.crashed
      ∧ (RequestAbortLuaScript env info m).started = info.started
      ∧ (RequestAbortLuaScript env info m).numMemHooks = info.numMemHooks
      ∧ (RequestAbortLuaScript env info m).persistVars = info.persistVars
      ∧ (RequestAbortLuaScript env info m).newDefaultData = info.newDefaultData := by
  unfold RequestAbortLuaScript
  split <;> simp_all

theorem LuaRescueHook_fields (info : LuaContextInfo) :
    (LuaRescueHook info).info.running = info.running
      ∧ (LuaRescueHook info).info.ranExit = info.ranExit
      ∧ (LuaRescueHook info).info.L = info.L
      ∧ (LuaRescueHook info).info.guiFuncsNeedDeferring = info.guiFuncsNeedDeferring
      ∧ (LuaRescueHook info).info.crashed = info.crashed
      ∧ (LuaRescueHook info).info.started = info.started
      ∧ (LuaRescueHook info).info.numMemHooks = info.numMemHooks
      ∧ (LuaRescueHook info).info.persistVars = info.persistVars
      ∧ (LuaRescueHook info).info.newDefaultData = info.newDefaultData := by
  unfold LuaRescueHook
  simp only
  split_ifs <;> simp [HookResult.info]

/-- Script code that runs while `running` is set ends, with enough fuel, and leaves the
log of host effects, the persistence files and the listed fields of the context as they
were: every host call it can make only requests an abort or a restart. -/
theorem exec_running (env : Env) : ∀ (code : List ScriptAction) (fuel : Nat) (w : World),
    w.info.running = true → code.length + 3 ≤ fuel →
    ∃ w' err, execActions env fuel code w = some (w', err)
      ∧ w'.info.running = true ∧ w'.info.ranExit = w.info.ranExit ∧ w'.log = w.log
      ∧ w'.defaultsFile = w.defaultsFile ∧ w'.exitFile = w.exitFile ∧ w'.runs = w.runs
      ∧ w'.info.L.isSome = w.info.L.isSome
      ∧ w'.info.guiFuncsNeedDeferring = w.info.guiFuncsNeedDeferring
      ∧ w'.info.crashed = w.info.crashed ∧ w'.info.started = w.info.started
      ∧ w'.info.persistVars = w.info.persistVars
      ∧ w'.info.newDefaultData = w.info.newDefaultData := by
  intro code
  induction code with
  | nil =>
    intro fuel w hrun hf
    obtain ⟨f, rfl⟩ : ∃ f, fuel = f + 1 := ⟨fuel - 1, by omega⟩
    exact ⟨w, false, by simp only [execActions], hrun, rfl, rfl, rfl, rfl, rfl, rfl, rfl, rfl,
      rfl, rfl, rfl⟩
  | cons action rest ih =>
    intro fuel w hrun hf
    simp only [List.length_cons] at hf
    obtain ⟨f, rfl⟩ : ∃ f, fuel = f + 3 := ⟨fuel - 3, by omega⟩
    obtain ⟨a1, a2, a3, a4, a5, a6, a7, a8, a9⟩ := RequestAbort_fields env w.info none
    cases action with
    | RunLuaScriptFile filename =>
      have h := start_while_running env f w filename hrun
      obtain ⟨w', err, he, h1, h2, h3, h4, h5, h6, h7, h8, h9, h10, h11, h12⟩ :=
        ih (f + 2) { w with info := { RequestAbortLuaScript env w.info none with
          nextFilename := filename, restart := true } } (by simp [a1, hrun]) (by omega)
      refine ⟨w', err, ?_, h1, ?_, h3, h4, h5, h6, ?_, ?_, ?_, ?_, ?_, ?_⟩
      · simp only [execActions, h, he]
      all_goals simp_all
    | StopLuaScript =>
      have h : StopLuaScript env (f + 2) w
          = some { w with info := RequestAbortLuaScript env w.info none } := by
        simp [StopLuaScript, hrun]
      obtain ⟨w', err, he, h1, h2, h3, h4, h5, h6, h7, h8, h9, h10, h11, h12⟩ :=
        ih (f + 2) { w with info := RequestAbortLuaScript env w.info none }
          (by simp [a1, hrun]) (by omega)
      refine ⟨w', err, ?_, h1, ?_, h3, h4, h5, h6, ?_, ?_, ?_, ?_, ?_, ?_⟩
      · simp only [execActions, h, he]
      all_goals simp_all
    | probe =>
      obtain ⟨b1, b2, b3, b4, b5, b6, b7, b8, b9⟩ := LuaRescueHook_fields w.info
      cases hh : LuaRescueHook w.info with
      | returned info =>
        rw [hh] at b1 b2 b3 b4 b5 b6 b7 b8 b9
        simp only [HookResult.info] at b1 b2 b3 b4 b5 b6 b7 b8 b9
        obtain ⟨w', err, he, h1, h2, h3, h4, h5, h6, h7, h8, h9, h10, h11, h12⟩ :=
          ih (f + 2) { w with info := info } (by simp [b1, hrun]) (by omega)
        refine ⟨w', err, ?_, h1, ?_, h3, h4, h5, h6, ?_, ?_, ?_, ?_, ?_, ?_⟩
        · simp only [execActions, hh, he]
        all_goals simp_all
      | raised info msg =>
        rw [hh] at b1 b2 b3 b4 b5 b6 b7 b8 b9
        simp only [HookResult.info] at b1 b2 b3 b4 b5 b6 b7 b8 b9
        refine ⟨{ w with info := info }, true, ?_, ?_, ?_, rfl, rfl, rfl, rfl, ?_, ?_, ?_, ?_,
          ?_, ?_⟩
        · simp only [execActions, hh]
        all_goals simp_all
    | register calltype code =>
      cases hL : w.info.L with
      | none =>
        obtain ⟨w', err, he, h⟩ := ih (f + 2) w hrun (by omega)
        refine ⟨w', err, by simp only [execActions, hL, he], ?_⟩
        rw [hL] at h
        exact h
      | some L =>
        obtain ⟨w', err, he, h1, h2, h3, h4, h5, h6, h7, h8, h9, h10, h11, h12⟩ :=
          ih (f + 2) { w with info := { w.info with
            L := some { L with registered := (calltype, code) :: L.registered } } }
            hrun (by omega)
        refine ⟨w', err, ?_, h1, ?_, h3, h4, h5, h6, ?_, ?_, ?_, ?_, ?_, ?_⟩
        · simp only [execActions, hL, he]
        all_goals simp_all
    | setGlobal name value =>
      cases hL : w.info.L with
      | none =>
        obtain ⟨w', err, he, h⟩ := ih (f + 2) w hrun (by omega)
        refine ⟨w', err, by simp only [execActions, hL, he], ?_⟩
        rw [hL] at h
        exact h
      | some L =>
        obtain ⟨w', err, he, h1, h2, h3, h4, h5, h6, h7, h8, h9, h10, h11, h12⟩ :=
          ih (f + 2) { w with info := { w.info with
            L := some { L with globals := (name, value) :: L.globals } } }
            hrun (by omega)
        refine ⟨w', err, ?_, h1, ?_, h3, h4, h5, h6, ?_, ?_, ?_, ?_, ?_, ?_⟩
        · simp only [execActions, hL, he]
        all_goals simp_all
    | error =>
      exact ⟨w, true, by simp only [execActions], hrun, rfl, rfl, rfl, rfl, rfl, rfl, rfl, rfl,
        rfl, rfl, rfl⟩


/-! ## Dispatch of registered functions -/

/-- C22 (defect of the code): a context with a live interpreter whose panic flag is set has
registered functions for the after-emulation, before-save and after-load events.
`CallRegisteredLuaFunctions` skips the context, but `CallRegisteredLuaSaveFunctions` and
`CallRegisteredLuaLoadFunctions` call its registered function: they test only that the
interpreter is live. -/
theorem save_load_dispatch_ignores_abort :
    abortingWorld.info.panic = true
      ∧ (CallRegisteredLuaFunctions exampleEnv 2 LUACALL_AFTEREMULATION [abortingWorld]).map
          (fun r => r.1.map (fun w => pcallEvents w.log)) = some [[]]
      ∧ (CallRegisteredLuaSaveFunctions exampleEnv 2 (fun _ => []) [abortingWorld] []).map
          (fun r => r.1.map (fun w => pcallEvents w.log)) = some [[LUACALL_BEFORESAVE]]
      ∧ (CallRegisteredLuaLoadFunctions exampleEnv 2 (fun _ => 1) [] [abortingWorld]).map
          (fun r => r.1.map (fun w => pcallEvents w.log)) = some [[LUACALL_AFTERLOAD]] := by
  refine ⟨rfl, ?_, ?_, ?_⟩
  · simp [CallRegisteredLuaFunctions, dispatchContext, abortingWorld, runningInfo, openedInfo,
      LUACALL_AFTEREMULATION, LUACALL_BEFOREEXIT, pcallEvents]
  · simp [CallRegisteredLuaSaveFunctions, saveContext, abortingWorld, runningInfo, openedInfo,
      registeredFunction, LUACALL_BEFORESAVE, LUACALL_AFTERLOAD, LUACALL_AFTEREMULATION,
      LUACALL_BEFOREEXIT, enterCallback, execActions, LuaRescueHook, MAX_WORRY_COUNT,
      HandleCallbackError_stopScript, StopLuaScript, CallExitFunction, dontworry,
      writePersistFiles, gatherExitData, LuaSaveData.SaveRecord, pcallEvents, HOOKCOUNT]
  · simp [CallRegisteredLuaLoadFunctions, loadContext, abortingWorld, runningInfo, openedInfo,
      registeredFunction, LUACALL_BEFORESAVE, LUACALL_AFTERLOAD, LUACALL_AFTEREMULATION,
      LUACALL_BEFOREEXIT, enterCallback, execActions, LuaRescueHook, MAX_WORRY_COUNT,
      HandleCallbackError_stopScript, StopLuaScript, CallExitFunction, dontworry,
      writePersistFiles, gatherExitData, LuaSaveData.LoadRecord, pcallEvents, HOOKCOUNT]


/-! ## The exit function runs once -/

theorem CallExitFunction_ranExit (env : Env) (f : Nat) (v : World)
    (hv : v.info.ranExit = true) :
    ∃ v', CallExitFunction env (f + 1) v = some v'
      ∧ v'.log = v.log ∧ v'.defaultsFile = v.defaultsFile ∧ v'.exitFile = v.exitFile
      ∧ v'.info.ranExit = true ∧ v'.info.started = v.info.started
      ∧ v'.info.crashed = v.info.crashed := by
  obtain ⟨d1, d2, d3, d4, d5, d6, d7⟩ := dontworry_fields v.info
  cases hL : v.info.L with
  | none => exact ⟨v, by simp only [CallExitFunction, hL], rfl, rfl, rfl, hv, rfl, rfl⟩
  | some L =>
    refine ⟨{ v with info := dontworry v.info }, ?_, rfl, rfl, rfl, ?_, d6, d7⟩
    · simp only [CallExitFunction, hL, d5, hv, Bool.not_true, Bool.false_eq_true, if_false]
    · simp only [d5, hv]

/-- Script code that runs while `running` is set leaves in the registry only functions
that were there before or that one of its own actions registered. -/
theorem exec_registered (env : Env) : ∀ (code : List ScriptAction) (fuel : Nat) (w w' : World)
    (err : Bool), w.info.running = true → execActions env fuel code w = some (w', err) →
    ∀ L', w'.info.L = some L' → ∃ L0, w.info.L = some L0 ∧
      ∀ p ∈ L'.registered, p ∈ L0.registered ∨ ScriptAction.register p.1 p.2 ∈ code := by
  intro code
  induction code with
  | nil =>
    intro fuel w w' err _ h L' hL'
    cases fuel with
    | zero => simp [execActions] at h
    | succ f =>
      simp only [execActions, Option.some.injEq, Prod.mk.injEq] at h
      obtain ⟨rfl, _⟩ := h
      exact ⟨L', hL', fun p hp => Or.inl hp⟩
  | cons action rest ih =>
    intro fuel w w' err hrun h L' hL'
    cases fuel with
    | zero => simp [execActions] at h
    | succ f =>
      obtain ⟨a1, _, _, _, _, _, _, _, _⟩ := RequestAbort_fields env w.info none
      have habort : ∀ L1, (RequestAbortLuaScript env w.info none).L = some L1 →
          ∃ L0, w.info.L = some L0 ∧ L1.registered = L0.registered := by
        intro L1 h1
        unfold RequestAbortLuaScript at h1
        cases hL : w.info.L with
        | none => simp [hL] at h1
        | some L0 =>
          simp only [hL, Option.some.injEq] at h1
          exact ⟨L0, rfl, by rw [← h1]⟩
      cases action with
      | RunLuaScriptFile filename =>
        cases f with
        | zero => simp [execActions, RunLuaScriptFile] at h
        | succ f =>
          cases f with
          | zero => simp [execActions, RunLuaScriptFile, StopLuaScript] at h
          | succ f =>
            rw [execActions, start_while_running env f w filename hrun] at h
            simp only at h
            obtain ⟨L1, h1, hreg⟩ := ih _ _ _ _ (by simp [a1, hrun]) h L' hL'
            obtain ⟨L0, h0, he⟩ := habort L1 h1
            refine ⟨L0, h0, fun p hp => ?_⟩
            rcases hreg p hp with hq | hq
            · exact Or.inl (he ▸ hq)
            · exact Or.inr (List.mem_cons_of_mem _ hq)
      | StopLuaScript =>
        cases f with
        | zero => simp [execActions, StopLuaScript] at h
        | succ f =>
          have hs : StopLuaScript env (f + 1) w
              = some { w with info := RequestAbortLuaScript env w.info none } := by
            simp [StopLuaScript, hrun]
          rw [execActions, hs] at h
          simp only at h
          obtain ⟨L1, h1, hreg⟩ := ih _ _ _ _ (by simp [a1, hrun]) h L' hL'
          obtain ⟨L0, h0, he⟩ := habort L1 h1
          refine ⟨L0, h0, fun p hp => ?_⟩
          rcases hreg p hp with hq | hq
          · exact Or.inl (he ▸ hq)
          · exact Or.inr (List.mem_cons_of_mem _ hq)
      | probe =>
        obtain ⟨b1, _, b3, _, _, _, _, _, _⟩ := LuaRescueHook_fields w.info
        cases hh : LuaRescueHook w.info with
        | returned info =>
          rw [hh] at b1 b3
          simp only [HookResult.info] at b1 b3
          rw [execActions, hh] at h
          simp only at h
          obtain ⟨L1, h1, hreg⟩ := ih _ _ _ _ (by simp [b1, hrun]) h L' hL'
          refine ⟨L1, by simpa [b3] using h1, fun p hp => ?_⟩
          rcases hreg p hp with hq | hq
          · exact Or.inl hq
          · exact Or.inr (List.mem_cons_of_mem _ hq)
        | raised info msg =>
          rw [hh] at b3
          simp only [HookResult.info] at b3
          rw [execActions, hh] at h
          simp only [Option.some.injEq, Prod.mk.injEq] at h
          obtain ⟨rfl, _⟩ := h
          exact ⟨L', by simpa [b3] using hL', fun p hp => Or.inl hp⟩
      | register calltype code =>
        cases hL : w.info.L with
        | none =>
          rw [execActions] at h
          simp only [hL] at h
          obtain ⟨L1, h1, _⟩ := ih _ _ _ _ hrun h L' hL'
          rw [hL] at h1
          exact absurd h1 (by simp)
        | some L0 =>
          rw [execActions] at h
          simp only [hL] at h
          obtain ⟨L1, h1, hreg⟩ := ih _ _ _ _ (by simpa using hrun) h L' hL'
          simp only [Option.some.injEq] at h1
          refine ⟨L0, rfl, fun p hp => ?_⟩
          rcases hreg p hp with hq | hq
          · rw [← h1] at hq
            simp only [List.mem_cons] at hq
            rcases hq with hq | hq
            · subst hq; exact Or.inr (List.mem_cons_self _ _)
            · exact Or.inl hq
          · exact Or.inr (List.mem_cons_of_mem _ hq)
      | setGlobal name value =>
        cases hL : w.info.L with
        | none =>
          rw [execActions] at h
          simp only [hL] at h
          obtain ⟨L1, h1, _⟩ := ih _ _ _ _ hrun h L' hL'
          rw [hL] at h1
          exact absurd h1 (by simp)
        | some L0 =>
          rw [execActions] at h
          simp only [hL] at h
          obtain ⟨L1, h1, hreg⟩ := ih _ _ _ _ (by simpa using hrun) h L' hL'
          simp only [Option.some.injEq] at h1
          refine ⟨L0, rfl, fun p hp => ?_⟩
          rcases hreg p hp with hq | hq
          · rw [← h1] at hq; exact Or.inl hq
          · exact Or.inr (List.mem_cons_of_mem _ hq)
      | error =>
        rw [execActions] at h
        simp only [Option.some.injEq, Prod.mk.injEq] at h
        obtain ⟨rfl, _⟩ := h
        exact ⟨L', hL', fun p hp => Or.inl hp⟩
theorem CallExitFunction_total (env : Env) (f : Nat) (w : World)
    (hfuel : ∀ L c, w.info.L = some L → registeredFunction L LUACALL_BEFOREEXIT = some c →
      c.length + 3 ≤ f) :
    ∃ w', CallExitFunction env (f + 1) w = some w' := by
  obtain ⟨d1, d2, d3, d4, d5, d6, d7⟩ := dontworry_fields w.info
  cases hL : w.info.L with
  | none => exact ⟨w, by simp only [CallExitFunction, hL]⟩
  | some L =>
    by_cases hr : w.info.ranExit = true
    · obtain ⟨v', h, _⟩ := CallExitFunction_ranExit env f w hr
      exact ⟨v', h⟩
    · have hr' : w.info.ranExit = false := by simpa using hr
      cases hreg : registeredFunction L LUACALL_BEFOREEXIT with
      | none =>
        simp only [CallExitFunction, hL, d5, hr', Bool.not_false, if_true, hreg, d4]
        exact ⟨_, rfl⟩
      | some c =>
        obtain ⟨w1, err, he, _⟩ := exec_running env c f
          { w with
            info := { dontworry w.info with ranExit := true, running := true, panic := false }
            log := w.log ++ [HostEvent.exitFunction] } rfl (hfuel L c hL hreg)
        simp only [CallExitFunction, hL, d5, hr', Bool.not_false, if_true, hreg]
        rw [he]
        exact ⟨_, rfl⟩

theorem stop_total (env : Env) (f : Nat) (w : World) (hrun : w.info.running = false)
    (hfuel : ∀ L c, w.info.L = some L → registeredFunction L LUACALL_BEFOREEXIT = some c →
      c.length + 3 ≤ f) :
    ∃ w', StopLuaScript env (f + 2) w = some w' := by
  cases hL : w.info.L with
  | none => exact ⟨w, by simp only [StopLuaScript, hrun, Bool.false_eq_true, if_false, hL]⟩
  | some L =>
    obtain ⟨w1, h1⟩ := CallExitFunction_total env f w hfuel
    simp only [StopLuaScript, hrun, Bool.false_eq_true, if_false, hL, h1]
    split_ifs <;> exact ⟨_, rfl⟩
theorem leaveDispatch_flag (w : World) :
    (leaveDispatch w).info.guiFuncsNeedDeferring = true := by
  unfold leaveDispatch dontworry
  simp only
  split_ifs <;> rfl

theorem registeredFunction_mem (L : LuaState) (calltype : Nat) (c : List ScriptAction)
    (h : registeredFunction L calltype = some c) : (calltype, c) ∈ L.registered := by
  unfold registeredFunction at h
  cases hf : L.registered.find? (fun r => r.1 == calltype) with
  | none => simp [hf] at h
  | some r =>
    simp only [hf, Option.map_some', Option.some.injEq] at h
    have hm := List.mem_of_find?_eq_some hf
    have hk := List.find?_some hf
    simp only [beq_iff_eq] at hk
    obtain ⟨r1, r2⟩ := r
    simp only at h hk
    subst h hk
    exact hm

/-- C23 (counterexample): the after-emulation event is not the drawing event, yet the
registered function of a context whose deferral flag is set starts with the flag
cleared. -/
theorem after_emulation_clears_deferral :
    dispatchWorld.info.guiFuncsNeedDeferring = true
      ∧ LUACALL_AFTEREMULATION ≠ LUACALL_AFTEREMULATIONGUI
      ∧ (enterCallback LUACALL_AFTEREMULATION 0
          (enterDispatch LUACALL_AFTEREMULATION dispatchWorld)).info.guiFuncsNeedDeferring
        = false := by
  decide
/-- C23 (amended): in `CallRegisteredLuaFunctions` the registered function of a dispatched
context starts with the deferral flag cleared exactly when the event is
`LUACALL_AFTEREMULATIONGUI` or `LUACALL_AFTEREMULATION`; for every other event the flag is
as it was.  The flag does not change while the function runs.  With enough fuel the work
on the context ends, and when it ends by returning the flag is set; it ends by an error
raised through the enclosing call only when the function failed while the context was
already running. -/
theorem deferral_flag_window (env : Env) (fuel calltype : Nat) (w : World) (L : LuaState)
    (code : List ScriptAction) (hL : w.info.L = some L)
    (helig : w.info.panic = false ∨ calltype = LUACALL_BEFOREEXIT)
    (hreg : registeredFunction L calltype = some code) (hcode : code.length + 3 ≤ fuel)
    (hexit : ∀ c, ((LUACALL_BEFOREEXIT, c) ∈ L.registered
        ∨ ScriptAction.register LUACALL_BEFOREEXIT c ∈ code) → c.length + 5 ≤ fuel) :
    (enterCallback calltype 0 (enterDispatch calltype w)).info.guiFuncsNeedDeferring
        = (if calltype = LUACALL_AFTEREMULATIONGUI ∨ calltype = LUACALL_AFTEREMULATION
            then false else w.info.guiFuncsNeedDeferring)
      ∧ ∃ w1 err r,
          execActions env fuel code (enterCallback calltype 0 (enterDispatch calltype w))
            = some (w1, err)
          ∧ w1.info.guiFuncsNeedDeferring
            = (enterCallback calltype 0 (enterDispatch calltype w)).info.guiFuncsNeedDeferring
          ∧ dispatchContext env fuel calltype w = some r
          ∧ (∀ w', r = .returned w' → w'.info.guiFuncsNeedDeferring = true)
          ∧ (∀ w', r = .raised w' → err = true ∧ w.info.running = true) := by
  have hEL : (enterDispatch calltype w).info.L = w.info.L := by
    unfold enterDispatch; simp only; split_ifs <;> rfl
  have hER : (enterDispatch calltype w).info.running = w.info.running := by
    unfold enterDispatch; simp only; split_ifs <;> rfl
  refine ⟨?_, ?_⟩
  · unfold enterCallback enterDispatch
    simp only [beq_iff_eq, Bool.or_eq_true]
    split_ifs <;> simp_all
  · obtain ⟨w1, err, he, h1, h2, h3, h4, h5, h6, h7, h8, h9, h10, h11, h12⟩ :=
      exec_running env code fuel (enterCallback calltype 0 (enterDispatch calltype w)) rfl hcode
    have hcond : (!w.info.panic || calltype == LUACALL_BEFOREEXIT) = true := by
      rcases helig with h | h
      · simp [h]
      · simp [h]
    have hdisp : dispatchContext env fuel calltype w
        = (if err = true then
            match HandleCallbackError_stopScript env fuel
                { w1 with info := { w1.info with running := w.info.running } } with
            | none => none
            | some (.raised w) => some (.raised w)
            | some (.returned w) => some (.returned (leaveDispatch w))
          else some (.returned (leaveDispatch
            { w1 with info := { w1.info with running := w.info.running } }))) := by
      simp only [dispatchContext, hL, hcond, if_true, hreg, he, hER]
    cases err with
    | false =>
      refine ⟨w1, false, .returned (leaveDispatch
          { w1 with info := { w1.info with running := w.info.running } }), he, h8,
        by rw [hdisp]; simp only [Bool.false_eq_true, if_false], ?_, ?_⟩
      · intro w' hw'
        simp only [DispatchResult.returned.injEq] at hw'
        rw [← hw']; exact leaveDispatch_flag _
      · intro w' hw'; simp at hw'
    | true =>
      by_cases hrun : w.info.running = true
      · refine ⟨w1, true, .raised { w1 with info := { w1.info with
            running := w.info.running, crashed := true } }, he, h8, ?_, ?_, ?_⟩
        · rw [hdisp]
          simp only [if_true, HandleCallbackError_stopScript, hrun]
        · intro w' hw'; simp at hw'
        · intro w' _; exact ⟨rfl, hrun⟩
      · have hrun' : w.info.running = false := by simpa using hrun
        obtain ⟨f, rfl⟩ : ∃ f, fuel = f + 2 := ⟨fuel - 2, by omega⟩
        obtain ⟨w3, h3'⟩ := stop_total env f
          { w1 with
            info := { w1.info with running := w.info.running, crashed := true }
            log := w1.log ++ [HostEvent.print (cstr "error")] } hrun'
          (by
            intro L2 c hL2 hc
            have hm := registeredFunction_mem L2 _ c hc
            obtain ⟨L0, hL0, hreg0⟩ := exec_registered env code (f + 2) _ w1 true rfl he L2 hL2
            have hL0' : L0 = L := by
              have : (enterCallback calltype 0 (enterDispatch calltype w)).info.L = w.info.L :=
                hEL
              rw [this, hL] at hL0
              exact (Option.some.inj hL0).symm
            subst hL0'
            have := hexit c (hreg0 _ hm)
            omega)
        simp only [hrun'] at h3'
        refine ⟨w1, true, .returned (leaveDispatch w3), he, h8, ?_, ?_, ?_⟩
        · rw [hdisp]
          simp only [if_true, HandleCallbackError_stopScript, hrun', Bool.false_eq_true,
            if_false, h3']
        · intro w' hw'
          simp only [DispatchResult.returned.injEq] at hw'
          rw [← hw']; exact leaveDispatch_flag _
        · intro w' hw'; simp at hw'

theorem deferral_flag_window_witness :
    (enterCallback LUACALL_AFTEREMULATION 0
        (enterDispatch LUACALL_AFTEREMULATION dispatchWorld)).info.guiFuncsNeedDeferring
        = (if LUACALL_AFTEREMULATION = LUACALL_AFTEREMULATIONGUI
              ∨ LUACALL_AFTEREMULATION = LUACALL_AFTEREMULATION
            then false else dispatchWorld.info.guiFuncsNeedDeferring)
      ∧ ∃ w1 err r,
          execActions exampleEnv 5 [ScriptAction.probe]
              (enterCallback LUACALL_AFTEREMULATION 0
                (enterDispatch LUACALL_AFTEREMULATION dispatchWorld))
            = some (w1, err)
          ∧ w1.info.guiFuncsNeedDeferring
            = (enterCallback LUACALL_AFTEREMULATION 0
                (enterDispatch LUACALL_AFTEREMULATION dispatchWorld)).info.guiFuncsNeedDeferring
          ∧ dispatchContext exampleEnv 5 LUACALL_AFTEREMULATION dispatchWorld = some r
          ∧ (∀ w', r = .returned w' → w'.info.guiFuncsNeedDeferring = true)
          ∧ (∀ w', r = .raised w' → err = true ∧ dispatchWorld.info.running = true) :=
  deferral_flag_window exampleEnv 5 LUACALL_AFTEREMULATION dispatchWorld
    { hookcount := HOOKCOUNT, registered := [(LUACALL_AFTEREMULATION, [ScriptAction.probe])],
      globals := [] }
    [ScriptAction.probe] rfl (Or.inl rfl) rfl (by decide)
    (by intro c hc; simp [LUACALL_BEFOREEXIT, LUACALL_AFTEREMULATION] at hc)


/-! ## The count of memory hooks -/

theorem rawgeti_isSome (t : MemHookTable) (i : Nat) :
    (lua_rawgeti t i).isSome = decide (i ∈ t.map Prod.fst) := by
  induction t with
  | nil => simp [lua_rawgeti]
  | cons e t ih =>
    unfold lua_rawgeti at ih ⊢
    by_cases h : e.1 = i
    · simp [List.find?_cons, h]
    · have h' : (e.1 == i) = false := by simpa using h
      have h'' : ¬ i = e.1 := fun x => h x.symm
      simp only [List.find?_cons, h', ih, List.map_cons, List.mem_cons, h'', false_or]

theorem rawseti_keys (t : MemHookTable) (v : Option Nat) (i : Nat) :
    (lua_rawseti t v i).map Prod.fst
      = (if v.isSome then [i] else []) ++ (t.map Prod.fst).filter (fun k => k != i) := by
  have hf : (t.filter (fun e => e.1 != i)).map Prod.fst
      = (t.map Prod.fst).filter (fun k => k != i) := by
    induction t with
    | nil => rfl
    | cons e t ih =>
      by_cases h : e.1 = i
      · simp [List.filter_cons, h, ih]
      · simp [List.filter_cons, h, ih]
  cases v with
  | none => simp [lua_rawseti, hf]
  | some f => simp [lua_rawseti, hf]

theorem rawseti_nodup (t : MemHookTable) (v : Option Nat) (i : Nat)
    (h : (t.map Prod.fst).Nodup) : ((lua_rawseti t v i).map Prod.fst).Nodup := by
  rw [rawseti_keys]
  have hf := h.filter (fun k => k != i)
  cases v with
  | none => simpa using hf
  | some f =>
    simp only [Option.isSome_some, if_true, List.singleton_append, List.nodup_cons]
    exact ⟨by simp, hf⟩

theorem rawseti_mem (t : MemHookTable) (v : Option Nat) (i j : Nat) (hji : j ≠ i) :
    j ∈ (lua_rawseti t v i).map Prod.fst ↔ j ∈ t.map Prod.fst := by
  rw [rawseti_keys]
  cases v with
  | none => simp [hji]
  | some f => simp [hji]

theorem filter_ne_length (l : List Nat) (i : Nat) (h : l.Nodup) :
    (l.filter (fun k => k != i)).length + (if i ∈ l then 1 else 0) = l.length := by
  induction l with
  | nil => simp
  | cons x l ih =>
    rw [List.nodup_cons] at h
    have ih' := ih h.2
    by_cases hx : x = i
    · subst hx
      have hn : ¬ x ∈ l := h.1
      simp only [hn, if_false, Nat.add_zero] at ih'
      simp [List.filter_cons, ih']
    · have hx' : ¬ i = x := fun e => hx e.symm
      simp only [List.filter_cons, bne_iff_ne, ne_eq, hx, not_false_eq_true, decide_True,
        if_true, List.length_cons, List.mem_cons, hx', false_or]
      omega

theorem rawseti_length (t : MemHookTable) (v : Option Nat) (i : Nat)
    (h : (t.map Prod.fst).Nodup) :
    (lua_rawseti t v i).length + (if i ∈ t.map Prod.fst then 1 else 0)
      = t.length + (if v.isSome then 1 else 0) := by
  have hk := congrArg List.length (rawseti_keys t v i)
  have hf := filter_ne_length (t.map Prod.fst) i h
  simp only [List.length_map, List.length_append] at hk hf
  cases v with
  | none => simp at hk ⊢; omega
  | some f => simp at hk ⊢; omega

theorem foldl_rawseti (v : Option Nat) : ∀ (r : List Nat) (t : MemHookTable), r.Nodup →
    (t.map Prod.fst).Nodup →
    ((r.foldl (fun t i => lua_rawseti t v i) t).map Prod.fst).Nodup
      ∧ (r.foldl (fun t i => lua_rawseti t v i) t).length
          + r.countP (fun i => (lua_rawgeti t i).isSome)
        = t.length + (if v.isSome then r.length else 0) := by
  intro r
  induction r with
  | nil => intro t _ ht; exact ⟨ht, by simp⟩
  | cons i r ih =>
    intro t hr ht
    rw [List.nodup_cons] at hr
    obtain ⟨hn, hlen⟩ := ih (lua_rawseti t v i) hr.2 (rawseti_nodup t v i ht)
    refine ⟨hn, ?_⟩
    have hc : r.countP (fun j => (lua_rawgeti (lua_rawseti t v i) j).isSome)
        = r.countP (fun j => (lua_rawgeti t j).isSome) := by
      apply List.countP_congr
      intro j hj
      have hji : j ≠ i := fun e => hr.1 (e ▸ hj)
      simp only [rawgeti_isSome, decide_eq_true_eq]
      exact rawseti_mem t v i j hji
    have hl := rawseti_length t v i ht
    simp only [List.foldl_cons, List.countP_cons, rawgeti_isSome, decide_eq_true_eq,
      List.length_cons] at hlen hc ⊢
    rw [hc] at hlen
    split_ifs at hl hlen ⊢ <;> omega

theorem hookRange_nodup (addr size : Nat) (h : size ≤ 2 ^ 32) : (hookRange addr size).Nodup := by
  unfold hookRange
  apply List.Nodup.map_on _ (List.nodup_range size)
  intro x hx y hy hxy
  simp only [List.mem_range] at hx hy
  have hx' : x < 4294967296 := by norm_num at h; omega
  have hy' : y < 4294967296 := by norm_num at h; omega
  norm_num at hxy
  omega
theorem stopIfFinished_running (env : Env) (m : Nat) (w : World)
    (hrun : w.info.running = true) :
    ∃ w', StopScriptIfFinished env (m + 2) w false = some w'
      ∧ w'.info.numMemHooks = w.info.numMemHooks ∧ w'.info.L.isSome = w.info.L.isSome
      ∧ w'.info.running = true := by
  obtain ⟨a1, a2, a3, a4, a5, a6, a7, a8, a9⟩ := RequestAbort_fields env w.info none
  simp only [StopScriptIfFinished, StopLuaScript, hrun, if_true, Bool.false_eq_true, if_false]
  split_ifs
  · exact ⟨w, rfl, rfl, rfl, hrun⟩
  · exact ⟨w, rfl, rfl, rfl, hrun⟩
  · exact ⟨_, rfl, a7, a3, by simp [a1, hrun]⟩

theorem hookedAddresses_update (tables : Nat → MemHookTable) (k : Nat) (t : MemHookTable)
    (hk : k < LUAMEMHOOK_COUNT) :
    hookedAddresses (Function.update tables k t) + (tables k).length
      = hookedAddresses tables + t.length := by
  unfold LUAMEMHOOK_COUNT at hk
  simp only [hookedAddresses, LUAMEMHOOK_COUNT, List.range, List.range.loop, List.map_cons,
    List.map_nil, List.sum_cons, List.sum_nil]
  interval_cases k <;> simp [Function.update] <;> omega

theorem toSigned32_range (x : Nat) :
    -2147483648 ≤ toSigned 32 x ∧ toSigned 32 x < 2147483648 := by
  rw [toSigned32_eq]
  split_ifs <;> omega

/-- One call of `memory_registerHook` by running script code keeps the hook count equal to
the number of hooked addresses. -/
theorem register_step (env : Env) (m : Nat) (w : World) (tables : Nat → MemHookTable)
    (hookType : Nat) (defaultSize : Int) (args : HookArgs)
    (hrun : w.info.running = true) (hL : w.info.L.isSome = true)
    (hk : hookType < LUAMEMHOOK_COUNT)
    (hd : 0 ≤ defaultSize ∧ defaultSize < 2147483648)
    (hmin : ∀ s, args.size = some s → toSigned 32 (toUnsigned 32 s) ≠ -2147483648)
    (hnodup : ∀ k, ((tables k).map Prod.fst).Nodup)
    (hcount : w.info.numMemHooks = hookedAddresses tables) :
    ∃ w' tables', memory_registerHook env (m + 2) w tables hookType defaultSize args
        = some (w', tables')
      ∧ w'.info.numMemHooks = hookedAddresses tables'
      ∧ (∀ k, ((tables' k).map Prod.fst).Nodup)
      ∧ w'.info.running = true ∧ w'.info.L.isSome = true := by
  -- the size and the first address of the range
  have hsized : ∃ size addr, 0 ≤ size ∧ size < 2147483648 ∧
      hookExtent defaultSize
        (if toUnsigned 32 args.address &&& 0xFF000000 == 0xFF000000
          then toUnsigned 32 args.address &&& 0xFFFFFF else toUnsigned 32 args.address)
        args.size = some (size, addr) := by
    cases hs : args.size with
    | none => exact ⟨defaultSize, _, hd.1, hd.2, rfl⟩
    | some s =>
      have hr := toSigned32_range (toUnsigned 32 s)
      have hne := hmin s hs
      by_cases hneg : toSigned 32 (toUnsigned 32 s) < 0
      · exact ⟨-toSigned 32 (toUnsigned 32 s), _, by omega, by omega,
          by simp only [hookExtent, hneg, if_true, hne, if_false]; rfl⟩
      · exact ⟨toSigned 32 (toUnsigned 32 s), _, by omega, hr.2,
          by simp only [hookExtent, hneg, if_false]; rfl⟩
  obtain ⟨size, addr, h0, h1, hsz⟩ := hsized
  have hsize : size.toNat ≤ 2 ^ 32 := by norm_num; omega
  obtain ⟨hn', hlen⟩ := foldl_rawseti args.callback (hookRange addr size.toNat)
    (tables hookType) (hookRange_nodup addr size.toNat hsize) (hnodup hookType)
  have hup := hookedAddresses_update tables hookType
    ((hookRange addr size.toNat).foldl (fun t i => lua_rawseti t args.callback i)
      (tables hookType)) hk
  have hrl : (hookRange addr size.toNat).length = size.toNat := by simp [hookRange]
  -- the count after the adjustment
  have hnum : ((w.info.numMemHooks : Int)
      + ((if args.callback.isNone = true then (0 : Int) else size)
        - (((hookRange addr size.toNat).countP
            (fun i => (lua_rawgeti (tables hookType) i).isSome) : Nat) : Int))).toNat
      = hookedAddresses (Function.update tables hookType
          ((hookRange addr size.toNat).foldl (fun t i => lua_rawseti t args.callback i)
            (tables hookType))) := by
    rw [hcount]
    cases hcb : args.callback with
    | none =>
      simp only [hcb, Option.isSome_none, Bool.false_eq_true, if_false, Nat.add_zero] at hlen
      simp only [Option.isNone_none, if_true]
      rw [hcb] at hup
      omega
    | some f =>
      simp only [hcb, Option.isSome_some, if_true, hrl] at hlen
      simp only [Option.isNone_some, Bool.false_eq_true, if_false]
      rw [hcb] at hup
      omega
  obtain ⟨w', hstop, s1, s2, s3⟩ := stopIfFinished_running env m
    { w with
      info := { w.info with numMemHooks := ((w.info.numMemHooks : Int)
        + ((if args.callback.isNone = true then (0 : Int) else size)
          - (((hookRange addr size.toNat).countP
              (fun i => (lua_rawgeti (tables hookType) i).isSome) : Nat) : Int))).toNat }
      log := w.log ++ [HostEvent.CalculateMemHookRegions hookType] } hrun
  have hL' : w'.info.L.isSome = true := by rw [s2]; exact hL
  have hnone : w'.info.L.isNone = false := by
    cases hx : w'.info.L with
    | none => rw [hx] at hL'; simp at hL'
    | some _ => rfl
  refine ⟨w', Function.update tables hookType
    ((hookRange addr size.toNat).foldl (fun t i => lua_rawseti t args.callback i)
      (tables hookType)), ?_, ?_, ?_, s3, hL'⟩
  · simp only [memory_registerHook, hsz]
    simp only at hstop
    rw [hstop]
    simp only [hnone, Bool.false_eq_true, if_false]
  · rw [s1]; exact hnum
  · intro k
    by_cases hkk : k = hookType
    · subst hkk; simpa using hn'
    · simpa [Function.update, hkk] using hnodup k
theorem CallExitFunction_started (env : Env) (f : Nat) (w : World)
    (hfuel : ∀ L c, w.info.L = some L → registeredFunction L LUACALL_BEFOREEXIT = some c →
      c.length + 3 ≤ f) :
    ∃ w', CallExitFunction env (f + 1) w = some w' ∧ w'.info.started = w.info.started
      ∧ w'.info.L.isSome = w.info.L.isSome := by
  obtain ⟨d1, d2, d3, d4, d5, d6, d7⟩ := dontworry_fields w.info
  cases hL : w.info.L with
  | none => exact ⟨w, by simp only [CallExitFunction, hL], rfl, by rw [hL]⟩
  | some L =>
    by_cases hr : w.info.ranExit = true
    · refine ⟨{ w with info := dontworry w.info }, ?_, d6, by simp [d4, hL]⟩
      simp only [CallExitFunction, hL, d5, hr, Bool.not_true, Bool.false_eq_true, if_false]
    · have hr' : w.info.ranExit = false := by simpa using hr
      cases hreg : registeredFunction L LUACALL_BEFOREEXIT with
      | none =>
        simp only [CallExitFunction, hL, d5, hr', Bool.not_false, if_true, hreg, d4]
        exact ⟨_, rfl, by simp [writePersistFiles, d6], by simp [writePersistFiles, d4, hL]⟩
      | some c =>
        obtain ⟨w1, err, he, h1, h2, h3, h4, h5, h6, h7, h8, h9, h10, h11, h12⟩ :=
          exec_running env c f
          { w with
            info := { dontworry w.info with ranExit := true, running := true, panic := false }
            log := w.log ++ [HostEvent.exitFunction] } rfl (hfuel L c hL hreg)
        have hL1 : w1.info.L.isSome = true := by rw [h7]; simp [d4, hL]
        obtain ⟨L1, hL1'⟩ := Option.isSome_iff_exists.mp hL1
        simp only [CallExitFunction, hL, d5, hr', Bool.not_false, if_true, hreg]
        rw [he]
        simp only [hL1']
        cases err with
        | true =>
          exact ⟨_, rfl, by simp [HandleCallbackError, writePersistFiles, h10, d6],
            by simp [HandleCallbackError, writePersistFiles, hL1']⟩
        | false =>
          exact ⟨_, rfl, by simp [writePersistFiles, h10, d6],
            by simp [writePersistFiles, hL1']⟩

/-- C27 (counterexample): `StopLuaScript` on a running context that has three hooked
addresses leaves `numMemHooks` at 3. -/
theorem stop_running_keeps_hook_count :
    (StopLuaScript exampleEnv 1
        { info := { runningInfo with numMemHooks := 3 }, log := [], defaultsFile := none,
          exitFile := none, runs := [] }).map (fun w => w.info.numMemHooks) = some 3
      ∧ runningInfo.running = true := by
  decide

/-- C27 (amended): when `numMemHooks` equals the number of addresses that hold a callback in
the hook tables of the context, it still does after any sequence of calls of
`memory_registerHook` made by its running script (registering or clearing, positive or
negative size, overlapping ranges, any hook kind).  `StopLuaScript` on a started context
that is not running closes the interpreter and resets `numMemHooks` to 0; on a running
context it leaves `numMemHooks` and the interpreter as they are. -/
theorem hook_count_invariant (env : Env) (m f : Nat) (calls : List (Nat × Int × HookArgs))
    (w v : World) (tables : Nat → MemHookTable) (Lv : LuaState)
    (hrun : w.info.running = true) (hL : w.info.L.isSome = true)
    (hcalls : ∀ c ∈ calls, c.1 < LUAMEMHOOK_COUNT ∧ 0 ≤ c.2.1 ∧ c.2.1 < 2147483648
      ∧ ∀ s, c.2.2.size = some s → toSigned 32 (toUnsigned 32 s) ≠ -2147483648)
    (hnodup : ∀ k, ((tables k).map Prod.fst).Nodup)
    (hcount : w.info.numMemHooks = hookedAddresses tables)
    (hv : v.info.running = false) (hvs : v.info.started = true) (hvL : v.info.L = some Lv)
    (hvf : ∀ c, registeredFunction Lv LUACALL_BEFOREEXIT = some c → c.length + 3 ≤ f) :
    (∃ w' tables', registerHooks env (m + 2) calls w tables = some (w', tables')
        ∧ w'.info.numMemHooks = hookedAddresses tables'
        ∧ (∀ k, ((tables' k).map Prod.fst).Nodup)
        ∧ w'.info.running = true ∧ w'.info.L.isSome = true)
      ∧ (∃ v', StopLuaScript env (f + 2) v = some v' ∧ v'.info.numMemHooks = 0
          ∧ v'.info.L = none)
      ∧ (∃ w', StopLuaScript env (m + 2) w = some w'
          ∧ w'.info.numMemHooks = w.info.numMemHooks ∧ w'.info.L.isSome = true) := by
  refine ⟨?_, ?_, ?_⟩
  · induction calls generalizing w tables with
    | nil => exact ⟨w, tables, rfl, hcount, hnodup, hrun, hL⟩
    | cons c rest ih =>
      obtain ⟨hookType, defaultSize, args⟩ := c
      obtain ⟨c1, c2, c3, c4⟩ := hcalls _ (List.mem_cons_self _ _)
      obtain ⟨w1, t1, hstep, e1, e2, e3, e4⟩ := register_step env m w tables hookType
        defaultSize args hrun hL c1 ⟨c2, c3⟩ c4 hnodup hcount
      obtain ⟨w', t', hrest, r⟩ := ih w1 t1 e3 e4
        (fun x hx => hcalls x (List.mem_cons_of_mem _ hx)) e2 e1
      exact ⟨w', t', by simp only [registerHooks, hstep, hrest], r⟩
  · obtain ⟨v1, h1, hst, hl⟩ := CallExitFunction_started env f v
      (fun L c hL' hc => hvf c (by rw [hvL] at hL'; cases hL'; exact hc))
    have hdw : ∀ i : LuaContextInfo, (dontworry i).started = i.started :=
      fun i => (dontworry_fields i).2.2.2.2.2.1
    simp only [StopLuaScript, hv, Bool.false_eq_true, if_false, hvL, h1, hdw, hst, hvs, if_true]
    exact ⟨_, rfl, rfl, rfl⟩
  · obtain ⟨a1, a2, a3, a4, a5, a6, a7, a8, a9⟩ := RequestAbort_fields env w.info none
    exact ⟨{ w with info := RequestAbortLuaScript env w.info none },
      by simp only [StopLuaScript, hrun, if_true], a7, by simp only [a3, hL]⟩

theorem hook_count_invariant_witness :
    (∃ w' tables', registerHooks exampleEnv (1 + 2) exampleHookCalls runningWorld
          (fun _ => []) = some (w', tables')
        ∧ w'.info.numMemHooks = hookedAddresses tables'
        ∧ (∀ k, ((tables' k).map Prod.fst).Nodup)
        ∧ w'.info.running = true ∧ w'.info.L.isSome = true)
      ∧ (∃ v', StopLuaScript exampleEnv (4 + 2) exitWorld = some v' ∧ v'.info.numMemHooks = 0
          ∧ v'.info.L = none)
      ∧ (∃ w', StopLuaScript exampleEnv (1 + 2) runningWorld = some w'
          ∧ w'.info.numMemHooks = runningWorld.info.numMemHooks
          ∧ w'.info.L.isSome = true) :=
  hook_count_invariant exampleEnv 1 4 exampleHookCalls runningWorld exitWorld (fun _ => [])
    { hookcount := HOOKCOUNT, registered := [(LUACALL_BEFOREEXIT, [ScriptAction.probe])],
      globals := [] }
    rfl rfl
    (by
      intro c hc
      simp only [exampleHookCalls, List.mem_cons, List.mem_singleton, List.not_mem_nil,
        or_false] at hc
      rcases hc with rfl | rfl | rfl | rfl <;> refine ⟨by decide, by decide, by decide, ?_⟩ <;>
        intro s hs <;> simp at hs <;> subst hs <;> decide)
    (by intro k; simp) rfl rfl rfl rfl
    (by
      intro c hc
      simp [registeredFunction, LUACALL_BEFOREEXIT] at hc
      subst hc
      decide)


/-! ## The cycle guard of the encoder -/

theorem leaf_of_not_table (ref : Ref) (h : ∀ addr, ref ≠ Ref.table addr) :
    ∃ v, ref.leaf = some v := by
  cases ref <;> simp [Ref.leaf] at h ⊢

theorem heapConverter_leaf (heap : Heap) (cstack fuel : Nat) (addrs : List Nat) (top : Nat)
    (ref : Ref) (h : ∀ addr, ref ≠ Ref.table addr) :
    heapConverter heap cstack (fuel + 1) addrs top ref
      = ref.leaf.map (fun v => (LuaStackToBinaryConverter cstack addrs top v, addrs)) := by
  cases ref <;> first | exact absurd rfl (h _) | rfl

theorem heapConverter_table (heap : Heap) (cstack fuel : Nat) (addrs : List Nat) (top : Nat)
    (addr : Nat) :
    heapConverter heap cstack (fuel + 1) addrs top (Ref.table addr)
      = if lua_checkstack cstack top 4 && !(addrs.contains addr) then
          match arrayLoop (heapConverter heap cstack fuel) top (addr :: addrs) 0 false
              (heap.lookup addr).arr with
          | none => none
          | some (arrayBytes, s1) =>
              match hashLoop (heapConverter heap cstack fuel) top s1
                  (heap.lookup addr).hash with
              | none => none
              | some (hashBytes, s2) =>
                  some (tableOutputType (heap.lookup addr).arr.length
                      (heap.lookup addr).hash.length
                    :: (tableCountBytes (tableOutputType (heap.lookup addr).arr.length
                        (heap.lookup addr).hash.length) (heap.lookup addr).arr.length
                        (heap.lookup addr).hash.length
                      ++ (arrayBytes ++ hashBytes)), s2.tail)
        else some ([tableOutputType 0 0], addrs) := rfl

theorem arrayLoop_total (conv : List Nat → Nat → Ref → Option (List Nat × List Nat))
    (top : Nat) (addrs : List Nat) (l : List Ref)
    (h : ∀ r ∈ l, ∀ t, ∃ b, conv addrs t r = some (b, addrs)) :
    ∀ (nilcount : Nat) (wasnil : Bool),
      ∃ b, arrayLoop conv top addrs nilcount wasnil l = some (b, addrs) := by
  induction l with
  | nil => intro n w; exact ⟨_, rfl⟩
  | cons v rest ih =>
    intro n w
    have ih' := ih (fun r hr => h r (List.mem_cons_of_mem _ hr))
    simp only [arrayLoop]
    by_cases hnil : v.lua_isnil = true
    · rw [if_pos hnil]; exact ih' _ _
    · rw [if_neg hnil]
      obtain ⟨b, hb⟩ := h v (List.mem_cons_self _ _) (top + 1)
      obtain ⟨m, hm⟩ := ih' (if w then 0 else n) false
      simp only [hb, hm]
      exact ⟨_, rfl⟩

theorem hashLoop_total (conv : List Nat → Nat → Ref → Option (List Nat × List Nat))
    (top : Nat) (addrs : List Nat) (l : List (Ref × Ref))
    (h : ∀ kv ∈ l, ∀ t, (∃ b, conv addrs t kv.1 = some (b, addrs))
      ∧ ∃ b, conv addrs t kv.2 = some (b, addrs)) :
    ∃ b, hashLoop conv top addrs l = some (b, addrs) := by
  induction l with
  | nil => exact ⟨_, rfl⟩
  | cons kv rest ih =>
    obtain ⟨k, v⟩ := kv
    obtain ⟨m, hm⟩ := ih (fun r hr => h r (List.mem_cons_of_mem _ hr))
    obtain ⟨⟨bk, hk⟩, ⟨bv, hv⟩⟩ := h (k, v) (List.mem_cons_self _ _) (top + 2)
    simp only at hk hv
    simp only [hashLoop, hk, hv, hm]
    exact ⟨_, rfl⟩

theorem arrayLoop_mono (conv conv' : List Nat → Nat → Ref → Option (List Nat × List Nat))
    (top : Nat) (h : ∀ a t r x, conv a t r = some x → conv' a t r = some x) :
    ∀ (l : List Ref) (addrs : List Nat) (nilcount : Nat) (wasnil : Bool) (y : List Nat × List Nat),
      arrayLoop conv top addrs nilcount wasnil l = some y →
      arrayLoop conv' top addrs nilcount wasnil l = some y := by
  intro l
  induction l with
  | nil => intro addrs n w y hy; simpa only [arrayLoop] using hy
  | cons v rest ih =>
    intro addrs n w y hy
    simp only [arrayLoop] at hy ⊢
    by_cases hnil : v.lua_isnil = true
    · rw [if_pos hnil] at hy ⊢; exact ih _ _ _ _ hy
    · rw [if_neg hnil] at hy ⊢
      cases hc : conv addrs (top + 1) v with
      | none => simp only [hc] at hy; exact absurd hy (by simp)
      | some x =>
        obtain ⟨bytes, s1⟩ := x
        simp only [hc] at hy
        simp only [h _ _ _ _ hc]
        cases hl : arrayLoop conv top s1 (if w then 0 else n) false rest with
        | none => simp only [hl] at hy; exact absurd hy (by simp)
        | some z =>
          obtain ⟨more, s2⟩ := z
          simp only [hl] at hy
          simp only [ih _ _ _ _ hl]
          exact hy

theorem hashLoop_mono (conv conv' : List Nat → Nat → Ref → Option (List Nat × List Nat))
    (top : Nat) (h : ∀ a t r x, conv a t r = some x → conv' a t r = some x) :
    ∀ (l : List (Ref × Ref)) (addrs : List Nat) (y : List Nat × List Nat),
      hashLoop conv top addrs l = some y → hashLoop conv' top addrs l = some y := by
  intro l
  induction l with
  | nil => intro addrs y hy; simpa only [hashLoop] using hy
  | cons kv rest ih =>
    intro addrs y hy
    obtain ⟨k, v⟩ := kv
    simp only [hashLoop] at hy ⊢
    cases hk : conv addrs (top + 2) k with
    | none => simp only [hk] at hy; exact absurd hy (by simp)
    | some x =>
      obtain ⟨keyBytes, s1⟩ := x
      simp only [hk] at hy
      simp only [h _ _ _ _ hk]
      cases hv : conv s1 (top + 2) v with
      | none => simp only [hv] at hy; exact absurd hy (by simp)
      | some x =>
        obtain ⟨valueBytes, s2⟩ := x
        simp only [hv] at hy
        simp only [h _ _ _ _ hv]
        cases hl : hashLoop conv top s2 rest with
        | none => simp only [hl] at hy; exact absurd hy (by simp)
        | some z =>
          obtain ⟨more, s3⟩ := z
          simp only [hl] at hy
          simp only [ih _ _ hl]
          exact hy

theorem heapConverter_succ (heap : Heap) (cstack : Nat) :
    ∀ (fuel : Nat) (addrs : List Nat) (top : Nat) (ref : Ref) (x : List Nat × List Nat),
      heapConverter heap cstack fuel addrs top ref = some x →
      heapConverter heap cstack (fuel + 1) addrs top ref = some x := by
  intro fuel
  induction fuel with
  | zero => intro addrs top ref x hx; simp [heapConverter] at hx
  | succ fuel ih =>
    intro addrs top ref x hx
    by_cases hr : ∃ addr, ref = Ref.table addr
    · obtain ⟨addr, rfl⟩ := hr
      rw [heapConverter_table] at hx ⊢
      split_ifs at hx ⊢ with hg
      · cases ha : arrayLoop (heapConverter heap cstack fuel) top (addr :: addrs) 0 false
            (heap.lookup addr).arr with
        | none => simp only [ha] at hx; exact absurd hx (by simp)
        | some y =>
          obtain ⟨arrayBytes, s1⟩ := y
          simp only [ha] at hx
          simp only [arrayLoop_mono (heapConverter heap cstack fuel)
            (heapConverter heap cstack (fuel + 1)) top ih _ _ _ _ _ ha]
          cases hh : hashLoop (heapConverter heap cstack fuel) top s1
              (heap.lookup addr).hash with
          | none => simp only [hh] at hx; exact absurd hx (by simp)
          | some z =>
            obtain ⟨hashBytes, s2⟩ := z
            simp only [hh] at hx
            simp only [hashLoop_mono (heapConverter heap cstack fuel)
              (heapConverter heap cstack (fuel + 1)) top ih _ _ _ hh]
            exact hx
      · exact hx
    · have hr' : ∀ addr, ref ≠ Ref.table addr := fun a h => hr ⟨a, h⟩
      rw [heapConverter_leaf heap cstack _ addrs top ref hr'] at hx ⊢
      exact hx

theorem heapConverter_mono (heap : Heap) (cstack fuel : Nat) (addrs : List Nat) (top : Nat)
    (ref : Ref) (x : List Nat × List Nat)
    (hx : heapConverter heap cstack fuel addrs top ref = some x) :
    ∀ fuel', fuel ≤ fuel' → heapConverter heap cstack fuel' addrs top ref = some x := by
  intro fuel' hle
  induction fuel' with
  | zero =>
    have : fuel = 0 := by omega
    subst this
    exact hx
  | succ n ih =>
    by_cases h : fuel = n + 1
    · subst h; exact hx
    · exact heapConverter_succ heap cstack n addrs top ref x (ih (by omega))

theorem lookup_mem (heap : Heap) (addr : Nat)
    (h : (heap.lookup addr).arr ≠ [] ∨ (heap.lookup addr).hash ≠ []) :
    addr ∈ heap.map (fun t => t.addr) := by
  unfold Heap.lookup at h
  cases hf : heap.find? (fun t => t.addr == addr) with
  | none => simp [hf] at h
  | some t =>
    have h1 := List.find?_some hf
    have h2 := List.mem_of_find?_eq_some hf
    simp only [beq_iff_eq] at h1
    exact List.mem_map.mpr ⟨t, h2, h1⟩

theorem heapConverter_total (heap : Heap) (cstack : Nat) :
    ∀ (fuel : Nat) (addrs : List Nat) (top : Nat) (ref : Ref),
      addrs.Nodup → (∀ a ∈ addrs, a ∈ heap.map (fun t => t.addr)) →
      heap.length + 1 ≤ fuel + addrs.length →
      ∃ b, heapConverter heap cstack fuel addrs top ref = some (b, addrs) := by
  intro fuel
  induction fuel with
  | zero =>
    intro addrs top ref hnd hsub hlen
    have := (hnd.subperm hsub).length_le
    simp at this
    omega
  | succ fuel ih =>
    intro addrs top ref hnd hsub hlen
    by_cases hr : ∃ addr, ref = Ref.table addr
    · obtain ⟨addr, rfl⟩ := hr
      rw [heapConverter_table]
      split_ifs with hg
      · have hnot : addr ∉ addrs := by
          simp only [Bool.and_eq_true, Bool.not_eq_true', List.contains_eq_any_beq,
            List.any_eq_false, beq_iff_eq] at hg
          intro hmem
          exact hg.2 addr hmem rfl
        have hnd' : (addr :: addrs).Nodup := List.nodup_cons.mpr ⟨hnot, hnd⟩
        have hchild : ∀ r : Ref, ((heap.lookup addr).arr ≠ [] ∨ (heap.lookup addr).hash ≠ []) →
            ∀ t, ∃ b, heapConverter heap cstack fuel (addr :: addrs) t r
              = some (b, addr :: addrs) := by
          intro r hne t
          have hmem := lookup_mem heap addr hne
          refine ih (addr :: addrs) t r hnd' ?_ (by simp only [List.length_cons]; omega)
          intro a ha
          rcases List.mem_cons.mp ha with rfl | ha
          · exact hmem
          · exact hsub a ha
        obtain ⟨ab, hab⟩ := arrayLoop_total (heapConverter heap cstack fuel) top (addr :: addrs)
          (heap.lookup addr).arr
          (fun r hr t => hchild r (Or.inl (List.ne_nil_of_mem hr)) t) 0 false
        obtain ⟨hb, hhb⟩ := hashLoop_total (heapConverter heap cstack fuel) top (addr :: addrs)
          (heap.lookup addr).hash
          (fun kv hkv t => ⟨hchild kv.1 (Or.inr (List.ne_nil_of_mem hkv)) t,
            hchild kv.2 (Or.inr (List.ne_nil_of_mem hkv)) t⟩)
        simp only [hab, hhb, List.tail_cons]
        exact ⟨_, rfl⟩
      · exact ⟨_, rfl⟩
    · have hr' : ∀ addr, ref ≠ Ref.table addr := fun a h => hr ⟨a, h⟩
      obtain ⟨v, hv⟩ := leaf_of_not_table ref hr'
      rw [heapConverter_leaf heap cstack _ addrs top ref hr', hv]
      exact ⟨_, rfl⟩

/-- Claim C30: a table that is on `s_tableAddressStack` is emitted as the single
tag byte 0x40 without a look at its contents and the vector is left as it was;
the encoder, walking any finite heap of tables from any value with that test as
its only stop, returns as soon as the fuel exceeds the number of tables, with
the same bytes for every such fuel and with the vector empty again. -/
theorem encoder_cycle_guard (heap : Heap) (cstack top addr fuel : Nat) (addrs : List Nat)
    (ref : Ref) (hmem : addr ∈ addrs) :
    heapConverter heap cstack (fuel + 1) addrs top (Ref.table addr) = some ([0x40], addrs)
      ∧ (∀ arr hash, LuaStackToBinaryConverter cstack addrs top (.table addr arr hash) = [0x40])
      ∧ ∃ bytes, ∀ fuel', heap.length + 1 ≤ fuel' →
          heapConverter heap cstack fuel' [] top ref = some (bytes, []) := by
  have hc : addrs.contains addr = true := by simpa using hmem
  refine ⟨?_, ?_, ?_⟩
  · simp only [heapConverter, hc, Bool.not_true, Bool.and_false, Bool.false_eq_true, if_false]
    rfl
  · intro arr hash
    simp only [LuaStackToBinaryConverter, hc, Bool.not_true, Bool.and_false,
      Bool.false_eq_true, if_false]
    rfl
  · obtain ⟨b, hb⟩ := heapConverter_total heap cstack (heap.length + 1) [] top ref
      List.nodup_nil (fun a ha => absurd ha (List.not_mem_nil a)) (by simp)
    exact ⟨b, fun fuel' hle => heapConverter_mono heap cstack _ [] top ref _ hb fuel' hle⟩

theorem encoder_cycle_guard_witness :
    1 ∈ [2, 1]
      ∧ (heapConverter mutualTables 8000 (0 + 1) [2, 1] 3 (Ref.table 1) = some ([0x40], [2, 1])
        ∧ (∀ arr hash, LuaStackToBinaryConverter 8000 [2, 1] 3 (.table 1 arr hash) = [0x40])
        ∧ ∃ bytes, ∀ fuel', mutualTables.length + 1 ≤ fuel' →
            heapConverter mutualTables 8000 fuel' [] 3 (Ref.table 1) = some (bytes, []))
      ∧ heapConverter selfReferential 8000 2 [] 1 (Ref.table 1) = some ([0x41, 1, 0x40], [])
      ∧ heapConverter selfReferential 8000 1 [] 1 (Ref.table 1) = none
      ∧ heapConverter mutualTables 8000 3 [] 1 (Ref.table 1)
          = some ([0x41, 1, 0x45, 3, 1, 0x21, 7, 0x40, 0x40, 4, 97, 0, 0x40], []) :=
  ⟨by decide, encoder_cycle_guard mutualTables 8000 3 1 0 [2, 1] (Ref.table 1) (by decide),
    by decide, by decide, by decide⟩

end LuaEngine
